import Mathlib

/-!
# HomeStore: checkpoint coordinator, append-log virtual device, extent index

A shallow embedding of the parts of HomeStore that the verified properties are about:

* `CheckPoint` (src/engine/checkpoint/checkpoint.hpp), run sequentially;
* the append-log operations of `VirtualDev` (src/engine/device/virtual_dev.hpp);
* `mapping::match_item_cb_put` and `mapping::update_indx_alloc_blkids`
  (src/to_move_out/homeblks/volume/mapping.hpp) and `IndxMgr::update_indx_tbl`
  (src/homeblks/volume/indx_mgr.cpp).

Conventions. Unsigned machine integers are natural numbers reduced modulo their width where the
code computes them (`u8`, `u16`, `u32`, `u64`, `u64_sub`); an `off_t` is kept as its 64-bit
pattern and compared through `off_t_val`. A function returns `none` where the code stops at an
assertion that is active in release builds (or, for `CheckPoint`, at a C `assert`). Definitions
come first, theorems afterwards.
-/

namespace homestore

/-! ## Checkpoint coordinator (checkpoint.hpp) -/

/-- The enum `cp_status_t`. -/
inductive cp_status_t where
  | cp_init
  | cp_io_ready
  | cp_trigger
  | cp_prepare
  | cp_start
  | cp_done
deriving DecidableEq

/-- The struct `cp_id_base`: one checkpoint id (epoch). `enter_cnt` is a C++ `int`; it counts
outstanding references and is kept as an integer (2^31 simultaneous references are out of reach). -/
structure cp_id_base where
  cp_state : cp_status_t
  enter_cnt : Int
  cp_trigger_waiting : Bool
deriving DecidableEq

/-- Observable events of a `CheckPoint`, in program order. `io_enter id st cnt`: `cp_io_enter`
returned `id`, whose state was `st` when the assertion was evaluated and whose counter was `cnt`
after the increment. `io_exit id cnt st`: `cp_io_exit(id)` fetched the previous counter value
`cnt` and then read state `st`. `attach_prepare`, `cp_start`: the two virtual callbacks.
`set_prepare id`: the assignment `prev_cp_id->cp_state = cp_prepare`. -/
inductive CpEvent where
  | io_enter (id : Nat) (st : cp_status_t) (cnt : Int)
  | io_exit (id : Nat) (cnt : Int) (st : cp_status_t)
  | attach_prepare (prev cur : Nat)
  | set_prepare (id : Nat)
  | cp_start (id : Nat)
deriving DecidableEq

/-- The class `CheckPoint`. Checkpoint ids live in a heap indexed by allocation number
(`ids i = none`: never allocated, or deleted); `next_id` is the allocation counter of
`new cp_id_type()`. `trace` is the event history (oldest first). -/
structure CheckPoint where
  ids : Nat → Option cp_id_base
  next_id : Nat
  m_cur_cp_id : Nat
  in_cp_phase : Bool
  trace : List CpEvent

/-- The constructor `CheckPoint(int timeo)`: one id in state `cp_io_ready`. -/
def CheckPoint.init : CheckPoint :=
  { ids := fun i => if i = 0 then some ⟨cp_status_t.cp_io_ready, 0, false⟩ else none
    next_id := 1
    m_cur_cp_id := 0
    in_cp_phase := false
    trace := [] }

/-- Write `e` to the heap cell `id`. -/
def CheckPoint.store (cp : CheckPoint) (id : Nat) (e : Option cp_id_base) : CheckPoint :=
  { cp with ids := Function.update cp.ids id e }

/-- Append one event to the history. -/
def CheckPoint.emit (cp : CheckPoint) (ev : CpEvent) : CheckPoint :=
  { cp with trace := cp.trace ++ [ev] }

/-- `CheckPoint::cp_io_enter`: increment the current id's counter, assert that its state is
`cp_io_ready` or `cp_trigger`, return it. `none`: the assertion failed (or the current id is
not allocated). -/
def CheckPoint.cp_io_enter (cp : CheckPoint) : Option (CheckPoint × Nat) :=
  let id := cp.m_cur_cp_id
  match cp.ids id with
  | none => none
  | some e =>
    let e1 : cp_id_base := { e with enter_cnt := e.enter_cnt + 1 }
    if e1.cp_state = cp_status_t.cp_io_ready ∨ e1.cp_state = cp_status_t.cp_trigger then
      some (((cp.store id (some e1)).emit (CpEvent.io_enter id e1.cp_state e1.enter_cnt)), id)
    else none

/-- `CheckPoint::cp_io_exit`: assert the id is not in `cp_start`, `fetch_sub(1)` the counter and,
when the fetched value is 1 and the state is `cp_prepare`, move to `cp_start` and call the
virtual `cp_start(id)`. `none`: the assertion failed or the id is not allocated. -/
def CheckPoint.cp_io_exit (cp : CheckPoint) (id : Nat) : Option CheckPoint :=
  match cp.ids id with
  | none => none
  | some e =>
    if e.cp_state = cp_status_t.cp_start then none
    else
      let cnt := e.enter_cnt
      let e1 : cp_id_base := { e with enter_cnt := cnt - 1 }
      let cp1 := (cp.store id (some e1)).emit (CpEvent.io_exit id cnt e1.cp_state)
      if cnt = 1 ∧ e1.cp_state = cp_status_t.cp_prepare then
        some (((cp1.store id (some { e1 with cp_state := cp_status_t.cp_start })).emit
          (CpEvent.cp_start id)))
      else some cp1

/-- The body of `trigger_cp()` between its `cp_io_enter` and its `cp_io_exit`: mark `prev`
triggered, allocate the new id, call `cp_attach_prepare`, make the new id `cp_io_ready`, publish
it (`rcu_xchg_pointer`), and move `prev` to `cp_prepare`. -/
def CheckPoint.attach_new (cp : CheckPoint) (prev : Nat) : Option CheckPoint :=
  match cp.ids prev with
  | none => none
  | some e =>
    let cp1 := cp.store prev (some { e with cp_state := cp_status_t.cp_trigger })
    let new_cp_id := cp1.next_id
    let cp2 : CheckPoint :=
      { cp1.store new_cp_id (some ⟨cp_status_t.cp_init, 0, false⟩) with next_id := new_cp_id + 1 }
    let cp3 := cp2.emit (CpEvent.attach_prepare prev new_cp_id)
    let cp4 := cp3.store new_cp_id (some ⟨cp_status_t.cp_io_ready, 0, false⟩)
    let cp5 : CheckPoint := { cp4 with m_cur_cp_id := new_cp_id }
    let cp6 := cp5.store prev (some { e with cp_state := cp_status_t.cp_prepare })
    some (cp6.emit (CpEvent.set_prepare prev))

/-- `CheckPoint::trigger_cp()`: a compare-and-swap on `in_cp_phase`; the loser returns, the
winner enters the current id, swaps in a new one and exits the old one. -/
def CheckPoint.trigger_cp (cp : CheckPoint) : Option CheckPoint :=
  if cp.in_cp_phase then some cp
  else
    match ({ cp with in_cp_phase := true } : CheckPoint).cp_io_enter with
    | none => none
    | some (cp1, prev_cp_id) =>
      match cp1.attach_new prev_cp_id with
      | none => none
      | some cp2 => cp2.cp_io_exit prev_cp_id

/-- `CheckPoint::trigger_cp(cp_id_type* id)`: set `cp_trigger_waiting`, assert the id is not in
`cp_start`, call `trigger_cp()`. -/
def CheckPoint.trigger_cp_id (cp : CheckPoint) (id : Nat) : Option CheckPoint :=
  match cp.ids id with
  | none => none
  | some e =>
    if e.cp_state = cp_status_t.cp_start then none
    else (cp.store id (some { e with cp_trigger_waiting := true })).trigger_cp

/-- `CheckPoint::cp_end`: assert `in_cp_phase` and that the id is in `cp_start`, clear the flag,
delete the id, then enter the current id, trigger again when its `cp_trigger_waiting` is set,
and exit it. (Releasing cached memory does not touch the state machine.) -/
def CheckPoint.cp_end (cp : CheckPoint) (id : Nat) : Option CheckPoint :=
  if cp.in_cp_phase = false then none
  else
    match cp.ids id with
    | none => none
    | some e =>
      if e.cp_state ≠ cp_status_t.cp_start then none
      else
        match (({ cp with in_cp_phase := false } : CheckPoint).store id none).cp_io_enter with
        | none => none
        | some (cp1, cur_cp_id) =>
          match cp1.ids cur_cp_id with
          | none => none
          | some ce =>
            match (if ce.cp_trigger_waiting then cp1.trigger_cp else some cp1) with
            | none => none
            | some cp2 => cp2.cp_io_exit cur_cp_id

/-- One call made by the users of a `CheckPoint`. -/
inductive CpOp where
  | io_enter
  | io_exit (id : Nat)
  | trigger
  | trigger_id (id : Nat)
  | cp_end (id : Nat)
deriving DecidableEq

/-- A `CheckPoint` together with the references its users hold: the ids returned by
`cp_io_enter` and not yet given back to `cp_io_exit`. -/
structure CpSys where
  cp : CheckPoint
  held : List Nat

/-- The system right after construction. -/
def CpSys.init : CpSys := ⟨CheckPoint.init, []⟩

/-- One sequential step. `io_exit id` and `trigger_id id` are only made by a caller that holds
a reference on `id` (each exit releases a reference taken before); a step is `none` when that
discipline is broken or when an assertion of the code fails. -/
def CpSys.step (s : CpSys) : CpOp → Option CpSys
  | CpOp.io_enter =>
    match s.cp.cp_io_enter with
    | none => none
    | some (cp1, id) => some ⟨cp1, id :: s.held⟩
  | CpOp.io_exit id =>
    if id ∈ s.held then
      match s.cp.cp_io_exit id with
      | none => none
      | some cp1 => some ⟨cp1, s.held.erase id⟩
    else none
  | CpOp.trigger =>
    match s.cp.trigger_cp with
    | none => none
    | some cp1 => some ⟨cp1, s.held⟩
  | CpOp.trigger_id id =>
    if id ∈ s.held then
      match s.cp.trigger_cp_id id with
      | none => none
      | some cp1 => some ⟨cp1, s.held⟩
    else none
  | CpOp.cp_end id =>
    match s.cp.cp_end id with
    | none => none
    | some cp1 => some ⟨cp1, s.held⟩

/-- A sequential run: the steps of `ops` one after the other. -/
def CpSys.run (s : CpSys) : List CpOp → Option CpSys
  | [] => some s
  | op :: ops =>
    match s.step op with
    | none => none
    | some s1 => s1.run ops

/-- The state of id `i`, when allocated. -/
def CheckPoint.state_of (cp : CheckPoint) (i : Nat) : Option cp_status_t :=
  (cp.ids i).map (fun e => e.cp_state)

/-- Event `b` comes right after event `a` somewhere in the history `tr`. -/
def RightAfter (tr : List CpEvent) (a b : CpEvent) : Prop :=
  ∃ pre post, tr = pre ++ a :: b :: post

/-- A sample run: two IOs enter, a checkpoint is triggered, both IOs exit (the second exit starts
the flush), the checkpoint ends, and one more IO enters. -/
def cp_sample_ops : List CpOp :=
  [CpOp.io_enter, CpOp.io_enter, CpOp.trigger, CpOp.io_exit 0, CpOp.io_exit 0, CpOp.cp_end 0,
   CpOp.io_enter]

/-- The state the sample run ends in. -/
def cp_sample_sys : CpSys := (CpSys.init.run cp_sample_ops).getD CpSys.init

/-- An id that was moved to `cp_prepare` or started is not returned by `cp_io_enter` later. -/
def NoEnterAfter (a b : CpEvent) : Prop :=
  ∀ E, (a = CpEvent.set_prepare E ∨ a = CpEvent.cp_start E) → ∀ st c, b ≠ CpEvent.io_enter E st c

/-- The invariant of sequential runs, on the components of the state: the heap `ids`, the
allocation counter `n`, the current id `cur`, the flag `ph`, the history `tr` and the held
references `held`. -/
structure CpInvC (ids : Nat → Option cp_id_base) (n cur : Nat) (ph : Bool)
    (tr : List CpEvent) (held : List Nat) : Prop where
  cur_lt : cur < n
  fresh : ∀ i, n ≤ i → ids i = none
  cur_ready : ∃ e, ids cur = some e ∧ e.cp_state = cp_status_t.cp_io_ready
  cnt_eq : ∀ i e, ids i = some e → e.enter_cnt = (held.count i : Int)
  dead_unheld : ∀ i, ids i = none → i ∉ held
  others : ∀ i e, ids i = some e → i ≠ cur →
    ph = true ∧ i < cur ∧
      ((e.cp_state = cp_status_t.cp_prepare ∧ 0 < e.enter_cnt) ∨
       (e.cp_state = cp_status_t.cp_start ∧ e.enter_cnt = 0))
  unique : ∀ i j ei ej, ids i = some ei → ids j = some ej → i ≠ cur → j ≠ cur → i = j
  tr_lt : ∀ E, (CpEvent.set_prepare E ∈ tr ∨ CpEvent.cp_start E ∈ tr) → E < cur
  tr_pair : tr.Pairwise NoEnterAfter
  tr_started : ∀ E, CpEvent.cp_start E ∈ tr →
    ids E = none ∨ ∃ e, ids E = some e ∧ e.cp_state = cp_status_t.cp_start
  tr_count : ∀ E, tr.count (CpEvent.cp_start E) ≤ 1
  tr_after : ∀ E, CpEvent.cp_start E ∈ tr →
    RightAfter tr (CpEvent.io_exit E 1 cp_status_t.cp_prepare) (CpEvent.cp_start E)
  tr_enter : ∀ id st c, CpEvent.io_enter id st c ∈ tr →
    st = cp_status_t.cp_io_ready ∨ st = cp_status_t.cp_trigger
  tr_prep : ∀ i e, ids i = some e → i ≠ cur → CpEvent.set_prepare i ∈ tr

/-- The invariant of sequential runs. -/
def CpInv (s : CpSys) : Prop :=
  CpInvC s.cp.ids s.cp.next_id s.cp.m_cur_cp_id s.cp.in_cp_phase s.cp.trace s.held

/-- No id other than the current one is allocated. -/
def NoOther (cp : CheckPoint) : Prop := ∀ i, cp.ids i ≠ none → i = cp.m_cur_cp_id

/-! ## Append-log mode of `VirtualDev` (virtual_dev.hpp) -/

/-- Wrap a natural number to an unsigned 64-bit value. -/
def u64 (x : Nat) : Nat := x % 18446744073709551616

/-- Unsigned 64-bit subtraction `a - b` (wraps around below zero). -/
def u64_sub (a b : Nat) : Nat :=
  (a % 18446744073709551616 + (18446744073709551616 - b % 18446744073709551616)) %
    18446744073709551616

/-- The value of an `off_t` (signed 64 bit) given by its bit pattern. -/
def off_t_val (x : Nat) : Int :=
  if x % 18446744073709551616 < 9223372036854775808 then ((x % 18446744073709551616 : Nat) : Int)
  else ((x % 18446744073709551616 : Nat) : Int) - 18446744073709551616

/-- The constant `INVALID_OFFSET`: `numeric_limits<unsigned long long>::max()` as an `off_t`
bit pattern. -/
def INVALID_OFFSET : Nat := 18446744073709551615

/-- The constant `vdev_high_watermark_per`. -/
def vdev_high_watermark_per : Nat := 80

/-- The append-log state of a `VirtualDev`. `size` is `m_vb->size` and `data_start_offset` is
`m_vb->data_start_offset`; `m_primary_pdev_chunks_list` holds, per physical device, the
`end_of_chunk_offset` of each of its primary chunks; `m_hwm_cb` says whether a high-watermark
callback is registered and `hwm_cb_calls` counts its invocations. Offsets of type `off_t` and
unsigned 64-bit sizes are kept as their 64-bit patterns. -/
structure VirtualDev where
  size : Nat
  data_start_offset : Nat
  m_chunk_size : Nat
  m_primary_pdev_chunks_list : List (List Nat)
  m_reserved_sz : Nat
  m_seek_cursor : Nat
  m_write_sz_in_total : Nat
  m_truncate_done : Bool
  m_hwm_cb : Bool
  hwm_cb_calls : Nat
deriving DecidableEq

/-- `VirtualDev::get_used_space`. -/
def VirtualDev.get_used_space (vd : VirtualDev) : Nat :=
  u64 (vd.m_write_sz_in_total + vd.m_reserved_sz)

/-- `VirtualDev::get_tail_offset`. -/
def VirtualDev.get_tail_offset (vd : VirtualDev) (reserve_space_include : Bool) : Nat :=
  let tail := u64 (vd.data_start_offset + vd.m_write_sz_in_total)
  let tail := if reserve_space_include then u64 (tail + vd.m_reserved_sz) else tail
  if tail ≥ vd.size then u64_sub tail vd.size else tail

/-- The inner loop of `logical_to_dev_offset` over the chunks of one device, starting at chunk
index `c`: the chunk index and offset found, or the offset left over after the last chunk. -/
def l2d_chunks (chunk_size : Nat) : List Nat → Nat → Nat → Nat ⊕ (Nat × Nat)
  | [], _, off_l => Sum.inl off_l
  | _ :: rest, c, off_l =>
    if off_l ≥ chunk_size then l2d_chunks chunk_size rest (c + 1) (u64_sub off_l chunk_size)
    else Sum.inr (c, off_l)

/-- The outer loop of `logical_to_dev_offset` over the devices, starting at device index `d`. -/
def l2d_devs (chunk_size : Nat) : List (List Nat) → Nat → Nat → Option (Nat × Nat × Nat)
  | [], _, _ => none
  | dev :: rest, d, off_l =>
    match l2d_chunks chunk_size dev 0 off_l with
    | Sum.inr (c, o) => some (d, c, o)
    | Sum.inl off1 => l2d_devs chunk_size rest (d + 1) off1

/-- `VirtualDev::logical_to_dev_offset`: the outputs `(dev_id, chunk_id, offset_in_chunk)`.
When the offset lies beyond the last chunk the three outputs keep their initial value 0 (a
debug-only assertion fires there). The returned physical offset is not part of the state and
is left out. -/
def VirtualDev.logical_to_dev_offset (vd : VirtualDev) (log_offset : Nat) : Nat × Nat × Nat :=
  (l2d_devs vd.m_chunk_size vd.m_primary_pdev_chunks_list 0 (u64 log_offset)).getD (0, 0, 0)

/-- `VirtualDev::get_next_chunk`: the position of the next chunk, wrapping to the first device
after the last one. -/
def VirtualDev.get_next_chunk (vd : VirtualDev) (dev_id chunk_id : Nat) : Nat × Nat :=
  if chunk_id + 1 < (vd.m_primary_pdev_chunks_list.getD dev_id []).length then
    (dev_id, chunk_id + 1)
  else ((dev_id + 1) % vd.m_primary_pdev_chunks_list.length, 0)

/-- Set the `end_of_chunk_offset` of the chunk at `(dev_id, chunk_id)` in the chunk lists. -/
def set_end_of_chunk : List (List Nat) → Nat → Nat → Nat → List (List Nat)
  | [], _, _, _ => []
  | dev :: rest, 0, chunk_id, off => dev.set chunk_id off :: rest
  | dev :: rest, dev_id + 1, chunk_id, off => dev :: set_end_of_chunk rest dev_id chunk_id off

/-- `DeviceManager::update_end_of_chunk` on the chunk at `(dev_id, chunk_id)`. -/
def VirtualDev.update_end_of_chunk (vd : VirtualDev) (dev_id chunk_id off : Nat) : VirtualDev :=
  { vd with m_primary_pdev_chunks_list :=
      set_end_of_chunk vd.m_primary_pdev_chunks_list dev_id chunk_id off }

/-- `VirtualDev::high_watermark_check`. -/
def VirtualDev.high_watermark_check (vd : VirtualDev) : VirtualDev :=
  let used_per := (u64 (100 * vd.get_used_space) / vd.size) % 4294967296
  if used_per ≥ vdev_high_watermark_per then
    if vd.m_hwm_cb ∧ vd.m_truncate_done then
      { vd with hwm_cb_calls := vd.hwm_cb_calls + 1, m_truncate_done := false }
    else vd
  else vd

/-- The tail of `alloc_next_append_blk` after a successful reservation: read the tail offset,
add `size` to `m_reserved_sz`, run the high-watermark check, return the offset. -/
def VirtualDev.reserve_at_tail (vd : VirtualDev) (size : Nat) : VirtualDev × Nat :=
  let offset := vd.get_tail_offset true
  (({ vd with m_reserved_sz := u64 (vd.m_reserved_sz + size) } : VirtualDev).high_watermark_check,
    offset)

/-- `VirtualDev::alloc_next_append_blk(size)`: the new state and the returned offset
(`INVALID_OFFSET` when there is no space). Debug-only assertions are not part of the result. -/
def VirtualDev.alloc_next_append_blk (vd : VirtualDev) (size : Nat) : VirtualDev × Nat :=
  if u64 (vd.get_used_space + size) > vd.size then (vd, INVALID_OFFSET)
  else
    let end_offset := vd.get_tail_offset true
    let (dev_id, chunk_id, offset_in_chunk) := vd.logical_to_dev_offset end_offset
    if u64 (offset_in_chunk + size) ≤ vd.m_chunk_size then vd.reserve_at_tail size
    else if u64 (u64 (vd.get_used_space + u64_sub vd.m_chunk_size offset_in_chunk) + size)
        ≤ vd.size then
      let tail_sz := u64_sub vd.m_chunk_size offset_in_chunk
      let vd1 : VirtualDev :=
        { vd with m_write_sz_in_total := u64 (vd.m_write_sz_in_total + tail_sz) }
      let vd2 := vd1.update_end_of_chunk dev_id chunk_id offset_in_chunk
      let next := vd.get_next_chunk dev_id chunk_id
      let vd3 := vd2.update_end_of_chunk next.1 next.2 vd.m_chunk_size
      vd3.reserve_at_tail size
    else (vd, INVALID_OFFSET)

/-- The release assertion of `process_pwrite_offset`: `m_chunk_size - offset_in_chunk >= len`. -/
def VirtualDev.pwrite_within_chunk (vd : VirtualDev) (len offset : Nat) : Prop :=
  u64_sub vd.m_chunk_size (vd.logical_to_dev_offset offset).2.2 ≥ len

instance (vd : VirtualDev) (len offset : Nat) : Decidable (vd.pwrite_within_chunk len offset) := by
  unfold VirtualDev.pwrite_within_chunk; infer_instance

/-- `VirtualDev::process_pwrite_offset`: check the chunk-boundary assertion and add `len` to
`m_write_sz_in_total`. `none`: the release assertion failed. -/
def VirtualDev.process_pwrite_offset (vd : VirtualDev) (len offset : Nat) : Option VirtualDev :=
  if vd.pwrite_within_chunk len offset then
    some { vd with m_write_sz_in_total := u64 (vd.m_write_sz_in_total + len) }
  else none

/-- `VirtualDev::pwrite(buf, count, offset)`: the release assertion `count <= m_reserved_sz`,
the reservation is consumed, then `do_pwrite`. The device write itself is taken to succeed
and to write `count` bytes. -/
def VirtualDev.pwrite (vd : VirtualDev) (count offset : Nat) : Option (VirtualDev × Nat) :=
  if count ≤ vd.m_reserved_sz then
    match ({ vd with m_reserved_sz := u64_sub vd.m_reserved_sz count } :
        VirtualDev).process_pwrite_offset count offset with
    | none => none
    | some vd1 => some (vd1, count)
  else none

/-- `VirtualDev::pwritev(iov, iovcnt, offset)`, the buffers given by their lengths. -/
def VirtualDev.pwritev (vd : VirtualDev) (iov : List Nat) (offset : Nat) :
    Option (VirtualDev × Nat) :=
  let len := u64 iov.sum
  if len ≤ vd.m_reserved_sz then
    match ({ vd with m_reserved_sz := u64_sub vd.m_reserved_sz len } :
        VirtualDev).process_pwrite_offset len offset with
    | none => none
    | some vd1 => some (vd1, len)
  else none

/-- `VirtualDev::write(buf, count)`, the write at the seek cursor: `some (vd, -1)` are the two
error returns, `none` is a failed release assertion. -/
def VirtualDev.write (vd : VirtualDev) (count : Nat) : Option (VirtualDev × Int) :=
  if u64 (vd.get_used_space + count) > vd.size then some (vd, -1)
  else if vd.m_reserved_sz ≠ 0 then some (vd, -1)
  else
    match vd.process_pwrite_offset count vd.m_seek_cursor with
    | none => none
    | some vd1 => some ({ vd1 with m_seek_cursor := u64 (vd1.m_seek_cursor + count) }, count)

/-- `VirtualDev::truncate(offset)`. `none`: a release assertion of the loop-back branch failed. -/
def VirtualDev.truncate (vd : VirtualDev) (offset : Nat) : Option VirtualDev :=
  let ds_off := vd.data_start_offset
  if off_t_val offset ≥ off_t_val ds_off then
    let size_to_truncate := u64_sub offset ds_off
    some { vd with m_write_sz_in_total := u64_sub vd.m_write_sz_in_total size_to_truncate,
                   data_start_offset := offset, m_truncate_done := true }
  else
    let size_to_truncate := u64_sub vd.size (u64_sub ds_off offset)
    if vd.m_write_sz_in_total ≥ size_to_truncate ∧
        off_t_val (vd.get_tail_offset true) ≥ off_t_val offset then
      some { vd with m_write_sz_in_total := u64_sub vd.m_write_sz_in_total size_to_truncate,
                     data_start_offset := offset, m_truncate_done := true }
    else none

/-- The invariant `m_write_sz_in_total + m_reserved_sz <= size`. -/
def VirtualDev.space_ok (vd : VirtualDev) : Prop :=
  vd.m_write_sz_in_total + vd.m_reserved_sz ≤ vd.size

/-- The number of primary chunks. -/
def VirtualDev.num_chunks (vd : VirtualDev) : Nat :=
  (vd.m_primary_pdev_chunks_list.map List.length).sum

/-- A log device of 100 bytes in one chunk with 10 bytes written and nothing reserved. -/
def vdev_sample : VirtualDev :=
  { size := 100, data_start_offset := 0, m_chunk_size := 100,
    m_primary_pdev_chunks_list := [[100]], m_reserved_sz := 0, m_seek_cursor := 0,
    m_write_sz_in_total := 10, m_truncate_done := true, m_hwm_cb := false, hwm_cb_calls := 0 }

/-! ## Extent index (mapping.hpp) and the index update of a write (indx_mgr.cpp) -/

/-- Modelled from the spec: `BlkId` (engine/blkalloc/blk.h is not part of the sources), the
packed block id `{ chunk_id : 8, n_blocks : 8, offset_in_chunk : 32 }`: `id` is the number of
the first block inside the chunk, `nblks` the number of blocks, `chunk_num` the chunk. -/
structure BlkId where
  id : Nat
  nblks : Nat
  chunk_num : Nat
deriving DecidableEq

/-- Modelled from the spec: `BlkId::data_size(page_size)` (blk.h is not part of the sources),
the number of bytes the block id covers. -/
def BlkId.data_size (b : BlkId) (page_size : Nat) : Nat := b.nblks * page_size

/-- Modelled from the spec: `BlkId::get_blkid_at(offset, size, pagesz)` (blk.h is not part of
the sources), the block id of the `size` bytes that start `offset` bytes into this one. -/
def BlkId.get_blkid_at (b : BlkId) (offset size pagesz : Nat) : BlkId :=
  ⟨b.id + offset / pagesz, size / pagesz, b.chunk_num⟩

/-- Modelled from the spec: `Free_Blk_Entry` (declared in a header that is not part of the
sources), as built by `Free_Blk_Entry(blkId, blk_offset, nblks_to_free)`. -/
structure Free_Blk_Entry where
  m_blkId : BlkId
  m_blk_offset : Nat
  m_nblks_to_free : Nat
deriving DecidableEq

/-- Modelled from the spec: `LBA_BITS` (its header is not part of the sources); mapping.hpp
pairs it with `LBA_MASK = 0xFFFFFFFFFFFF`, 48 one bits. -/
def LBA_BITS : Nat := 48

/-- The constant `NBLKS_BITS` of homestore_config.hpp. -/
def NBLKS_BITS : Nat := 8

/-- Truncation to `uint8_t`. -/
def u8 (x : Nat) : Nat := x % 256

/-- Truncation to `uint16_t`. -/
def u16 (x : Nat) : Nat := x % 65536

/-- Truncation to `uint32_t`. -/
def u32 (x : Nat) : Nat := x % 4294967296

/-- The struct `LbaId` inside a `MappingKey`: the bit fields `m_lba_start : LBA_BITS` and
`m_n_lba : NBLKS_BITS`. -/
structure MappingKey where
  start : Nat
  n_lba : Nat
deriving DecidableEq

/-- The constructor `MappingKey(uint64_t lba_start, uint64_t n_lba)`: both values are stored
into their bit fields. -/
def MappingKey.make (lba_start n_lba : Nat) : MappingKey :=
  ⟨lba_start % 2 ^ LBA_BITS, n_lba % 2 ^ NBLKS_BITS⟩

/-- `MappingKey::end`: `start() + get_n_lba() - 1` in unsigned 64-bit arithmetic. -/
def MappingKey.end_lba (k : MappingKey) : Nat := u64_sub (u64 (k.start + k.n_lba)) 1

/-- The sizes a `mapping` works with: the volume page size `m_vol_page_size` and the data
block size `HomeBlks::instance()->get_data_pagesz()`. -/
structure MapCfg where
  m_vol_page_size : Nat
  data_pagesz : Nat
deriving DecidableEq

/-- The struct `ValueEntry`: the meta data and the checksum array (its first `nlba` elements). -/
structure ValueEntry where
  seqId : Nat
  blkId : BlkId
  nlba : Nat
  blk_offset : Nat
  carr : List Nat
deriving DecidableEq

/-- The constructor `ValueEntry(seqId, blkId, uint8_t blk_offset, uint8_t nlba, carr)`: the
counts go through `uint8_t` into 8-bit fields and `nlba` checksums are copied from `carr`. -/
def ValueEntry.make (seqId : Nat) (blkId : BlkId) (blk_offset nlba : Nat) (carr : List Nat) :
    ValueEntry :=
  ⟨seqId, blkId, u8 nlba, u8 blk_offset, carr.take (u8 nlba)⟩

/-- `ValueEntry::add_offset(uint8_t lba_offset, uint8_t nlba, vol_page_size)`: move the checksums
that start at `lba_offset` to the front, set `nlba`, advance `blk_offset` by
`(vol_page_size / data_pagesz) * lba_offset` (a `uint8_t`, added to an 8-bit field). -/
def ValueEntry.add_offset (cfg : MapCfg) (ve : ValueEntry) (lba_offset nlba : Nat) : ValueEntry :=
  let lba_offset := u8 lba_offset
  let nlba := u8 nlba
  let blk_offset := u8 (u32 ((cfg.m_vol_page_size / cfg.data_pagesz) * lba_offset))
  { ve with carr := (ve.carr.drop lba_offset).take nlba, nlba := nlba,
            blk_offset := u8 (ve.blk_offset + blk_offset) }

/-- The class `MappingValue`: the array of value entries. -/
abbrev MappingValue := List ValueEntry

/-- The constructor `MappingValue(other, uint16_t offset, uint32_t nlbas, page_size)`: a copy of
the first entry of `other` with the offset added. `none`: `other` has no entry to read. -/
def MappingValue.sub (cfg : MapCfg) (other : MappingValue) (offset nlbas : Nat) :
    Option MappingValue :=
  match other with
  | [] => none
  | ve :: _ => some [ve.add_offset cfg (u16 offset) (u32 nlbas)]

/-- The loop state of `match_item_cb_put`: the locals `start_lba` and `new_val_offset`, the
output `replace_kv`, and the free-block entries pushed to the request. -/
structure PutAcc where
  start_lba : Nat
  new_val_offset : Nat
  replace_kv : List (MappingKey × MappingValue)
  fbes : List Free_Blk_Entry
deriving DecidableEq

/-- `mapping::add_new_interval(s_lba, e_lba, val, uint16_t lba_offset, replace_kv)`. -/
def add_new_interval (cfg : MapCfg) (s_lba e_lba : Nat) (val : MappingValue) (lba_offset : Nat)
    (replace_kv : List (MappingKey × MappingValue)) : Option (List (MappingKey × MappingValue)) :=
  let nlba := u64 (u64_sub e_lba s_lba + 1)
  match MappingValue.sub cfg val (u16 lba_offset) nlba with
  | none => none
  | some v => some (replace_kv ++ [(MappingKey.make s_lba nlba, v)])

/-- `mapping::compute_and_add_overlap`: queue the overlapped blocks of the existing value for
free (when a request is attached) and emit the new value over `[s_lba, e_lba]`. -/
def compute_and_add_overlap (cfg : MapCfg) (req : Bool) (s_lba e_lba : Nat)
    (new_val : MappingValue) (new_val_offset : Nat) (e_val : MappingValue) (e_val_offset : Nat)
    (acc : PutAcc) : Option PutAcc :=
  let nlba := u64 (u64_sub e_lba s_lba + 1)
  match e_val with
  | [] => none
  | ve :: _ =>
    let blk_offset := u16 (u32 (u16 e_val_offset * cfg.m_vol_page_size) / cfg.data_pagesz)
    let fbes :=
      if req then
        acc.fbes ++ [⟨ve.blkId, ve.blk_offset + blk_offset,
          u64 ((cfg.m_vol_page_size / cfg.data_pagesz) * nlba)⟩]
      else acc.fbes
    match MappingValue.sub cfg new_val (u16 new_val_offset) nlba with
    | none => none
    | some v =>
      some { acc with fbes := fbes, replace_kv := acc.replace_kv ++ [(MappingKey.make s_lba nlba, v)] }

/-- The block `if (e_key->start() > start_lba)` of `match_item_cb_put`: the new value fills
the interval in front of the existing key. -/
def put_gap (cfg : MapCfg) (new_val : MappingValue) (e_key : MappingKey) (acc : PutAcc) :
    Option PutAcc :=
  if e_key.start > acc.start_lba then
    match add_new_interval cfg acc.start_lba (u64_sub e_key.start 1) new_val
        acc.new_val_offset acc.replace_kv with
    | none => none
    | some kv =>
      some { acc with replace_kv := kv,
                      new_val_offset :=
                        u32 (acc.new_val_offset + u64_sub e_key.start acc.start_lba),
                      start_lba := e_key.start }
  else some acc

/-- The block `if (e_key->start() < start_lba)`: the existing key and value are split at the
start. The second component is the local `existing_val_offset` afterwards. -/
def put_split_start (cfg : MapCfg) (e_key : MappingKey) (e_value : MappingValue)
    (acc : PutAcc) : Option (PutAcc × Nat) :=
  if e_key.start < acc.start_lba then
    match add_new_interval cfg e_key.start (u64_sub acc.start_lba 1) e_value 0
        acc.replace_kv with
    | none => none
    | some kv => some ({ acc with replace_kv := kv }, u32 (u64_sub acc.start_lba e_key.start))
  else some (acc, 0)

/-- The overlap of the existing key with the new range: `compute_and_add_overlap` and the
updates of `new_val_offset`, `existing_val_offset` and `start_lba` that follow it. -/
def put_overlap (cfg : MapCfg) (req : Bool) (end_lba : Nat) (new_val : MappingValue)
    (e_key : MappingKey) (e_value : MappingValue) (acc : PutAcc) (existing_val_offset : Nat) :
    Option (PutAcc × Nat) :=
  let end_lba_overlap := if e_key.end_lba < end_lba then e_key.end_lba else end_lba
  match compute_and_add_overlap cfg req acc.start_lba end_lba_overlap new_val
      acc.new_val_offset e_value existing_val_offset acc with
  | none => none
  | some a3 =>
    let nlbas := u32 (u64_sub end_lba_overlap a3.start_lba + 1)
    some ({ a3 with new_val_offset := u32 (a3.new_val_offset + nlbas),
                    start_lba := u64 (a3.start_lba + nlbas) },
          u32 (existing_val_offset + nlbas))

/-- The block `if (e_key->end() > end_lba)`: the existing key is split at the end. -/
def put_split_end (cfg : MapCfg) (end_lba : Nat) (e_key : MappingKey) (e_value : MappingValue)
    (acc : PutAcc) (existing_val_offset : Nat) : Option PutAcc :=
  if e_key.end_lba > end_lba then
    match add_new_interval cfg acc.start_lba e_key.end_lba e_value existing_val_offset
        acc.replace_kv with
    | none => none
    | some kv => some { acc with replace_kv := kv }
  else some acc

/-- One iteration of the loop `for (auto& existing : match_kv)` of `match_item_cb_put`.
`new_ve` is the first entry of the new value. Debug-only assertions are not part of the
result; `none` stands for reading entry 0 of an empty value array. -/
def put_step (cfg : MapCfg) (req : Bool) (end_lba : Nat) (new_val : MappingValue)
    (new_ve : ValueEntry) (acc : PutAcc) (existing : MappingKey × MappingValue) : Option PutAcc :=
  let e_key := existing.1
  let e_value := existing.2
  match e_value with
  | [] => none
  | ve :: _ =>
    if new_ve.seqId ≤ ve.seqId then
      -- it is the latest entry, we should not override it
      let nlbas := ve.nlba
      let fbes :=
        if req then
          acc.fbes ++ [⟨new_ve.blkId, acc.new_val_offset,
            u32 ((cfg.m_vol_page_size / cfg.data_pagesz) * nlbas)⟩]
        else acc.fbes
      some { start_lba := u64 (acc.start_lba + nlbas),
             new_val_offset := u32 (acc.new_val_offset + nlbas),
             replace_kv := acc.replace_kv ++ [existing],
             fbes := fbes }
    else
      match put_gap cfg new_val e_key acc with
      | none => none
      | some a1 =>
        match put_split_start cfg e_key e_value a1 with
        | none => none
        | some (a2, existing_val_offset) =>
          match put_overlap cfg req end_lba new_val e_key e_value a2 existing_val_offset with
          | none => none
          | some (a4, existing_val_offset) =>
            put_split_end cfg end_lba e_key e_value a4 existing_val_offset

/-- The loop of `match_item_cb_put` over `match_kv`. -/
def put_loop (cfg : MapCfg) (req : Bool) (end_lba : Nat) (new_val : MappingValue)
    (new_ve : ValueEntry) : PutAcc → List (MappingKey × MappingValue) → Option PutAcc
  | acc, [] => some acc
  | acc, existing :: rest =>
    match put_step cfg req end_lba new_val new_ve acc existing with
    | none => none
    | some acc1 => put_loop cfg req end_lba new_val new_ve acc1 rest

/-- `mapping::match_item_cb_put`: `start_lba`/`end_lba` are the bounds that `get_start_end_lba`
reads from the sub-range, `new_key` and `new_val` the key and value of the put, `req` says
whether a request is attached. The result is `replace_kv` and the free-block entries pushed. -/
def match_item_cb_put (cfg : MapCfg) (req : Bool) (new_key : MappingKey)
    (new_val : MappingValue) (start_lba end_lba : Nat)
    (match_kv : List (MappingKey × MappingValue)) :
    Option (List (MappingKey × MappingValue) × List Free_Blk_Entry) :=
  match new_val with
  | [] => none
  | new_ve :: _ =>
    -- compute_val_offset
    let initial_val_offset := u32 (u64_sub start_lba new_key.start)
    match put_loop cfg req end_lba new_val new_ve ⟨start_lba, initial_val_offset, [], []⟩
        match_kv with
    | none => none
    | some acc =>
      if acc.start_lba ≤ end_lba then
        match add_new_interval cfg acc.start_lba end_lba new_val acc.new_val_offset
            acc.replace_kv with
        | none => none
        | some kv => some (kv, acc.fbes)
      else some (acc.replace_kv, acc.fbes)

/-- The LBA `l` lies in the range of key `k`. -/
def MappingKey.covers (k : MappingKey) (l : Nat) : Prop := k.start ≤ l ∧ l < k.start + k.n_lba

instance (k : MappingKey) (l : Nat) : Decidable (k.covers l) := by
  unfold MappingKey.covers; infer_instance

/-- The enum `btree_status_t` of btree_internal.h. -/
inductive btree_status_t where
  | success | not_found | item_found | closest_found | closest_removed | retry | has_more
  | read_failed | write_failed | stale_buf | refresh_failed | put_failed | space_not_avail
  | split_failed | insert_failed | cp_id_mismatch | merge_not_required | merge_failed
  | replay_not_needed | fast_path_not_possible | resource_full
deriving DecidableEq

/-- Modelled from the spec: `io_cp_info` (declared in a header that is not part of the
sources), the record `{ epoch_counter, last_lba_written, freed_count }` that
`update_indx_tbl` fills as `cp_cnt`, `end_lba`, `fbe_size`. -/
structure io_cp_info where
  end_lba : Nat
  cp_cnt : Nat
  fbe_size : Nat
deriving DecidableEq

/-- The fields of a `volume_req` that the index update reads and writes. `cp_cnt` is
`vreq->vol_id->cp_cnt`, `fbe_list_size` is `vreq->fbe_list.size()`. -/
structure volume_req where
  lba : Nat
  nlbas : Nat
  seqId : Nat
  alloc_blkid_list : List BlkId
  csum_list : List Nat
  cp_info_list : List io_cp_info
  fbe_list_size : Nat
  active_nlbas_written : Nat
  cp_cnt : Nat
deriving DecidableEq

/-- What one call `m_active_map->put(vreq, key, value, btree_id, next_start_lba)` gives back:
the status, the first LBA not written, and how many free-block entries it pushed. -/
structure PutResult where
  ret : btree_status_t
  next_start_lba : Nat
  fbes_pushed : Nat
deriving DecidableEq

/-- The index as `update_indx_tbl` sees it: the outcome of a put of a key and value. -/
abbrev PutFn := MappingKey → ValueEntry → PutResult

/-- The loop state of `update_indx_tbl`. `puts` records the puts issued, in order. -/
structure IndxLoop where
  start_lba : Nat
  csum_indx : Int
  next_start_lba : Nat
  ret : btree_status_t
  fbe_list_size : Nat
  puts : List (MappingKey × ValueEntry)
deriving DecidableEq

/-- The body of the loop over `alloc_blkid_list` in `IndxMgr::update_indx_tbl`, statement by
statement. The result is the new loop state and whether the loop goes on (`false`: `break`). -/
def update_indx_tbl_step (put : PutFn) (page_size data_pagesz seqId : Nat) (carr : List Nat)
    (initial_start_lba : Nat) (st : IndxLoop) (blkid : BlkId) : IndxLoop × Bool :=
  let nlbas := u32 (blkid.data_size data_pagesz / page_size)
  let blk_offset := 0
  let skip := decide (st.start_lba < initial_start_lba) &&
    decide (u64_sub initial_start_lba st.start_lba ≥ nlbas)
  if skip then
    -- this blkid is written
    ({ st with start_lba := u64 (st.start_lba + nlbas), csum_indx := st.csum_indx + nlbas }, true)
  else
    let adj : Nat × Int × Nat × Nat :=
      if st.start_lba < initial_start_lba then
        -- this blk id is partially written
        let start_lba := initial_start_lba
        let csum_indx := st.csum_indx + (u64_sub initial_start_lba start_lba : Nat)
        let blk_offset := u32 (u64 (u64_sub initial_start_lba start_lba * page_size) / data_pagesz)
        let nlbas := u32 (u64_sub nlbas (u64_sub initial_start_lba start_lba))
        (start_lba, csum_indx, blk_offset, nlbas)
      else (st.start_lba, st.csum_indx, blk_offset, nlbas)
    let start_lba := adj.1
    let csum_indx := adj.2.1
    let blk_offset := adj.2.2.1
    let nlbas := adj.2.2.2
    let key := MappingKey.make start_lba nlbas
    let ve := ValueEntry.make seqId blkid blk_offset nlbas (carr.drop csum_indx.toNat)
    let r := put key ve
    let st1 : IndxLoop :=
      { st with start_lba := start_lba, csum_indx := csum_indx,
                next_start_lba := r.next_start_lba, ret := r.ret,
                fbe_list_size := st.fbe_list_size + r.fbes_pushed,
                puts := st.puts ++ [(key, ve)] }
    if r.ret ≠ btree_status_t.success then (st1, false)
    else ({ st1 with start_lba := u64 (start_lba + nlbas), csum_indx := csum_indx + nlbas }, true)

/-- The loop of `update_indx_tbl` over the allocated block ids. -/
def update_indx_tbl_loop (put : PutFn) (page_size data_pagesz seqId : Nat) (carr : List Nat)
    (initial_start_lba : Nat) : IndxLoop → List BlkId → IndxLoop
  | st, [] => st
  | st, blkid :: rest =>
    match update_indx_tbl_step put page_size data_pagesz seqId carr initial_start_lba st blkid with
    | (st1, true) =>
      update_indx_tbl_loop put page_size data_pagesz seqId carr initial_start_lba st1 rest
    | (st1, false) => st1

/-- `IndxMgr::update_indx_tbl(vreq)`: the status returned, the request afterwards and the puts
issued to the index. `page_size` is the volume page size, `data_pagesz` the data block size. -/
def update_indx_tbl (put : PutFn) (page_size data_pagesz : Nat) (vreq : volume_req) :
    btree_status_t × volume_req × List (MappingKey × ValueEntry) :=
  let carr := vreq.csum_list.take vreq.nlbas
  let start_lba := vreq.lba
  let initial_start_lba :=
    match vreq.cp_info_list.getLast? with
    | some info => u64 (info.end_lba + 1)
    | none => vreq.lba
  let st0 : IndxLoop :=
    { start_lba := start_lba, csum_indx := 0, next_start_lba := start_lba,
      ret := btree_status_t.put_failed, fbe_list_size := vreq.fbe_list_size, puts := [] }
  let st := update_indx_tbl_loop put page_size data_pagesz vreq.seqId carr initial_start_lba st0
    vreq.alloc_blkid_list
  if initial_start_lba = st.next_start_lba then
    -- nothing is written
    (st.ret, { vreq with fbe_list_size := st.fbe_list_size }, st.puts)
  else
    let info : io_cp_info :=
      { end_lba := u64_sub st.next_start_lba 1, cp_cnt := vreq.cp_cnt,
        fbe_size := st.fbe_list_size - vreq.fbe_list_size }
    (st.ret, { vreq with fbe_list_size := st.fbe_list_size,
                         cp_info_list := vreq.cp_info_list ++ [info] }, st.puts)

/-- A put that always succeeds and writes the whole key. -/
def put_all : PutFn := fun key _ => ⟨btree_status_t.success, key.start + key.n_lba, 0⟩

/-- The loop of `mapping::update_indx_alloc_blkids`: `total_lbas` is the loop variable, the
result the block ids pushed by `push_indx_alloc_blkid`, in order. -/
def update_indx_alloc_blkids_loop (page_size data_pagesz lbas_written : Nat) :
    Nat → List BlkId → List BlkId
  | _, [] => []
  | total_lbas, blkid :: rest =>
    let nlbas := u32 (blkid.data_size data_pagesz / page_size)
    if u32 (total_lbas + nlbas) ≥ lbas_written then
      -- it is written only upto this blkid
      let size_written := u64_sub lbas_written total_lbas * page_size
      let offset := blkid.data_size data_pagesz - size_written
      [blkid.get_blkid_at offset size_written data_pagesz]
    else
      blkid :: update_indx_alloc_blkids_loop page_size data_pagesz lbas_written
        (u32 (total_lbas + nlbas)) rest

/-- `mapping::update_indx_alloc_blkids(ireq)`: the block ids pushed to the index request. -/
def update_indx_alloc_blkids (page_size data_pagesz : Nat) (vreq : volume_req) : List BlkId :=
  update_indx_alloc_blkids_loop page_size data_pagesz vreq.active_nlbas_written 0
    vreq.alloc_blkid_list

/-- A write of 4 LBAs at LBA 0 backed by one block id of 4 blocks, whose first attempt
installed LBAs 0 and 1 under checkpoint 7 (`cp_info_list` ends with `end_lba = 1`). -/
def vreq_retry_sample : volume_req :=
  { lba := 0, nlbas := 4, seqId := 9, alloc_blkid_list := [⟨100, 4, 0⟩],
    csum_list := [10, 11, 12, 13], cp_info_list := [⟨1, 7, 0⟩], fbe_list_size := 0,
    active_nlbas_written := 2, cp_cnt := 8 }

/-- A write of 8 LBAs backed by two block ids of 4 blocks each, of which the index installed
the first 6 LBAs. -/
def vreq_short_sample : volume_req :=
  { lba := 0, nlbas := 8, seqId := 9, alloc_blkid_list := [⟨100, 4, 0⟩, ⟨200, 4, 0⟩],
    csum_list := [10, 11, 12, 13, 14, 15, 16, 17], cp_info_list := [], fbe_list_size := 0,
    active_nlbas_written := 6, cp_cnt := 8 }

/-- The entry that a put of the value `v`, whose key starts at `s`, installs for the `n` LBAs
starting at `a`: the key `[a, a + n - 1]` and a copy of `v` moved forward by `a - s` LBAs. -/
def new_piece (cfg : MapCfg) (v : ValueEntry) (s a n : Nat) : MappingKey × MappingValue :=
  (⟨a, n⟩,
    [{ v with nlba := n,
              blk_offset := v.blk_offset + (cfg.m_vol_page_size / cfg.data_pagesz) * (a - s),
              carr := (v.carr.drop (a - s)).take n }])

/-- The entries of `rkv` whose key covers the LBA `l`. -/
def entries_at (rkv : List (MappingKey × MappingValue)) (l : Nat) :
    List (MappingKey × MappingValue) :=
  rkv.filter (fun kv => decide (kv.1.covers l))

/-- The state of the output while a put of `v`, whose key starts at `s0`, over the sub-range
`[s, e]` has advanced to LBA `p`: every LBA of `[s, p)` is covered by exactly one entry, a
piece of `v`, and no LBA of `[p, e]` is covered yet. -/
structure Pieces (cfg : MapCfg) (v : ValueEntry) (s0 s e p : Nat)
    (rkv : List (MappingKey × MappingValue)) : Prop where
  lo : s ≤ p
  hi : p ≤ e + 1
  done : ∀ l, s ≤ l → l < p → ∃ a n, entries_at rkv l = [new_piece cfg v s0 a n] ∧ s ≤ a
  todo : ∀ l, p ≤ l → l ≤ e → entries_at rkv l = []

/-- The bounds under which the pieces of the new value `v`, whose key starts at `s0`, over
the sub-range `[s, e]` fit their fields: the sub-range starts inside the key and lies in the
48-bit LBA space, the key holds at most 255 LBAs up to `e`, and the blocks of `v` behind them
stay below 256 (`v` covers its LBAs inside one block id of at most `MAX_NBLKS` blocks). -/
structure PutBounds (cfg : MapCfg) (v : ValueEntry) (s0 s e : Nat) : Prop where
  s0s : s0 ≤ s
  se : s ≤ e
  e48 : e < 281474976710656
  n8 : e - s0 + 1 < 256
  blk : v.blk_offset + (cfg.m_vol_page_size / cfg.data_pagesz) * (e - s0 + 1) < 256

/-- What the put of `v` over `[s, e]` asks of a matched existing entry: it has a first value
entry with a lower sequence id, its key is a well-formed 48-bit/8-bit key of at least one LBA,
and it overlaps `[s, e]`. -/
def OlderOverlapping (v : ValueEntry) (s e : Nat) (kv : MappingKey × MappingValue) : Prop :=
  (∃ ve etl, kv.2 = ve :: etl ∧ ve.seqId < v.seqId) ∧
  kv.1.start + kv.1.n_lba ≤ 281474976710656 ∧ 1 ≤ kv.1.n_lba ∧ kv.1.n_lba < 256 ∧
  kv.1.start ≤ e ∧ s < kv.1.start + kv.1.n_lba

/-- A log device of 300 bytes striped over two devices in three chunks of 100 bytes, with 90
bytes written: the next reservation of 30 bytes does not fit the first chunk. -/
def vdev_striped_sample : VirtualDev :=
  { size := 300, data_start_offset := 0, m_chunk_size := 100,
    m_primary_pdev_chunks_list := [[100, 100], [100]], m_reserved_sz := 0, m_seek_cursor := 0,
    m_write_sz_in_total := 90, m_truncate_done := true, m_hwm_cb := false, hwm_cb_calls := 0 }

/-- The volume page size equals the data block size (4 KiB). -/
def put_cfg_sample : MapCfg := ⟨4096, 4096⟩

/-- The value entry of a write of the 6 LBAs 5..10 with sequence id 5 on block id 1000. -/
def put_new_entry_sample : ValueEntry := ⟨5, ⟨1000, 6, 0⟩, 6, 0, [50, 51, 52, 53, 54, 55]⟩

/-- An existing entry over LBAs 3..7 with the higher sequence id 9, on block id 200. -/
def put_newer_existing_sample : MappingKey × MappingValue :=
  (⟨3, 5⟩, [⟨9, ⟨200, 5, 0⟩, 5, 0, [7, 7, 7, 7, 7]⟩])

/-- Existing entries over LBAs 3..7 and 8..12, both with the higher sequence id 9: together they
cover 5..10. -/
def put_newer_cover_sample : List (MappingKey × MappingValue) :=
  [(⟨3, 5⟩, [⟨9, ⟨200, 5, 0⟩, 5, 0, [7, 7, 7, 7, 7]⟩]),
   (⟨8, 5⟩, [⟨9, ⟨300, 5, 0⟩, 5, 0, [8, 8, 8, 8, 8]⟩])]

/-- Existing entries over LBAs 3..7 and 9..13 with the lower sequence ids 2 and 3. -/
def put_older_sample : List (MappingKey × MappingValue) :=
  [(⟨3, 5⟩, [⟨2, ⟨200, 5, 0⟩, 5, 0, [7, 7, 7, 7, 7]⟩]),
   (⟨9, 5⟩, [⟨3, ⟨300, 5, 0⟩, 5, 0, [8, 8, 8, 8, 8]⟩])]

/-- A log device of 100 bytes in one chunk whose data region wraps: it starts at 50 and has
60 bytes written, so the tail is at 10. -/
def vdev_wrapped_sample : VirtualDev :=
  { size := 100, data_start_offset := 50, m_chunk_size := 100,
    m_primary_pdev_chunks_list := [[100]], m_reserved_sz := 0, m_seek_cursor := 0,
    m_write_sz_in_total := 60, m_truncate_done := true, m_hwm_cb := true, hwm_cb_calls := 0 }

/-- The calls made on an append log: a reservation of `size` bytes or a truncate to `offset`. -/
inductive LogOp where
  | alloc (size : Nat)
  | truncate (offset : Nat)
deriving DecidableEq

/-- What a caller of an append log observes: a delivery of the high-watermark callback, or a
truncate that returned. -/
inductive LogEvent where
  | hwm_cb
  | truncated
deriving DecidableEq

/-- One call on the append log: the new state and the events of the call, the callback
deliveries counted by `hwm_cb_calls`. `none`: a release assertion of `truncate` failed. -/
def VirtualDev.log_step (vd : VirtualDev) : LogOp → Option (VirtualDev × List LogEvent)
  | LogOp.alloc size =>
    let r := vd.alloc_next_append_blk size
    some (r.1, List.replicate (r.1.hwm_cb_calls - vd.hwm_cb_calls) LogEvent.hwm_cb)
  | LogOp.truncate offset =>
    match vd.truncate offset with
    | none => none
    | some vd1 => some (vd1, [LogEvent.truncated])

/-- A sequence of calls on the append log, the events appended to the history `tr` (oldest
event first). -/
def VirtualDev.log_run (vd : VirtualDev) (tr : List LogEvent) :
    List LogOp → Option (VirtualDev × List LogEvent)
  | [] => some (vd, tr)
  | op :: ops =>
    match vd.log_step op with
    | none => none
    | some (vd1, ev) => vd1.log_run (tr ++ ev) ops

/-- The events of a history after its last truncate (all of it when there is none). -/
def since_last_truncate (tr : List LogEvent) : List LogEvent :=
  (tr.reverse.takeWhile fun e => decide (e ≠ LogEvent.truncated)).reverse

/-- A log device of 100 bytes in one chunk, empty, with a high-watermark callback registered,
as the constructor leaves it. -/
def vdev_hwm_sample : VirtualDev :=
  { size := 100, data_start_offset := 0, m_chunk_size := 100,
    m_primary_pdev_chunks_list := [[100]], m_reserved_sz := 0, m_seek_cursor := 0,
    m_write_sz_in_total := 0, m_truncate_done := true, m_hwm_cb := true, hwm_cb_calls := 0 }

/-- In a history, a stretch without a truncate holds at most one callback delivery. -/
def OncePerTruncate (tr : List LogEvent) : Prop :=
  ∀ pre mid post, tr = pre ++ mid ++ post → LogEvent.truncated ∉ mid →
    mid.count LogEvent.hwm_cb ≤ 1

/-- Three reservations on `vdev_hwm_sample`: 50, 40 and 5 bytes. -/
def hwm_ops_sample : List LogOp := [LogOp.alloc 50, LogOp.alloc 40, LogOp.alloc 5]

/-- The state of `vdev_hwm_sample` after `hwm_ops_sample`. -/
def vdev_hwm_after_sample : VirtualDev :=
  { size := 100, data_start_offset := 0, m_chunk_size := 100,
    m_primary_pdev_chunks_list := [[100]], m_reserved_sz := 95, m_seek_cursor := 0,
    m_write_sz_in_total := 0, m_truncate_done := false, m_hwm_cb := true, hwm_cb_calls := 1 }

/-- `VirtualDev::pread(buf, count, offset)`: the number of bytes read, the request cut at the
end of the chunk that holds `offset`. The device read itself is taken to succeed in full. -/
def VirtualDev.pread (vd : VirtualDev) (count offset : Nat) : Nat :=
  let offset_in_chunk := (vd.logical_to_dev_offset offset).2.2
  if u64_sub vd.m_chunk_size offset_in_chunk < count then u64_sub vd.m_chunk_size offset_in_chunk
  else count

/-- `VirtualDev::read(buf, count)`, the read at the seek cursor: the new state and the number
of bytes read. `none`: a release assertion failed or the chunk looked up does not exist. -/
def VirtualDev.read (vd : VirtualDev) (count : Nat) : Option (VirtualDev × Nat) :=
  let (dev_id, chunk_id, offset_in_chunk) := vd.logical_to_dev_offset vd.m_seek_cursor
  match (vd.m_primary_pdev_chunks_list.getD dev_id [])[chunk_id]? with
  | none => none
  | some end_of_chunk =>
    let chunk_size := min (u64 end_of_chunk) vd.m_chunk_size
    if u64 end_of_chunk ≤ vd.m_chunk_size ∧ offset_in_chunk ≤ chunk_size then
      let across_chunk := decide (count > u64_sub chunk_size offset_in_chunk)
      let count := if across_chunk then u64_sub chunk_size offset_in_chunk else count
      let bytes_read := vd.pread count vd.m_seek_cursor
      if bytes_read = count then
        let cursor := u64 (vd.m_seek_cursor + bytes_read)
        let cursor :=
          if across_chunk then u64 (cursor + u64_sub vd.m_chunk_size end_of_chunk) else cursor
        some ({ vd with m_seek_cursor := cursor }, bytes_read)
      else none
    else none

/-- A log device of 200 bytes in two chunks of 100 on one physical device; the last chunk
ends at 80 and the seek cursor stands at 150, offset 50 of the last chunk. -/
def vdev_read_sample : VirtualDev :=
  { size := 200, data_start_offset := 0, m_chunk_size := 100,
    m_primary_pdev_chunks_list := [[100, 80]], m_reserved_sz := 0, m_seek_cursor := 150,
    m_write_sz_in_total := 180, m_truncate_done := true, m_hwm_cb := false, hwm_cb_calls := 0 }

/-- The loop `while (nl-- > 0)` of `mapping::get`, `nl` iterations left: one key of a single
LBA with `EMPTY_MAPPING_VALUE` per iteration, `last_lba++` in 64 bits. The values emplaced
and the final `last_lba`. -/
def get_fill_gap : Nat → Nat → List (MappingKey × MappingValue) × Nat
  | 0, last_lba => ([], last_lba)
  | nl + 1, last_lba =>
    let r := get_fill_gap nl (u64 (last_lba + 1))
    ((MappingKey.make last_lba 1, []) :: r.1, r.2)

/-- The value of `int nl = start - last_lba`, clamped at zero: the unsigned 64-bit difference
is converted to a signed 32-bit `int`, and the loop `while (nl-- > 0)` runs that often. -/
def get_gap_count (start last_lba : Nat) : Nat :=
  let nl := u64_sub start last_lba % 4294967296
  if nl < 2147483648 then nl else 0

/-- The `for` loop over `result_kv` in `mapping::get`: the values emplaced and the final
`last_lba`. -/
def get_fill_loop : Nat → List (MappingKey × MappingValue) →
    List (MappingKey × MappingValue) × Nat
  | last_lba, [] => ([], last_lba)
  | last_lba, kv :: rest =>
    let g := get_fill_gap (get_gap_count kv.1.start last_lba) last_lba
    let r := get_fill_loop (u64 (kv.1.end_lba + 1)) rest
    (g.1 ++ kv :: r.1, r.2)

/-- The loop `while (last_lba <= end_lba)` of `mapping::get`, run for at most `fuel`
iterations. `none`: the loop has not ended after `fuel` iterations. -/
def get_fill_tail : Nat → Nat → Nat → Option (List (MappingKey × MappingValue))
  | 0, last_lba, end_lba => if last_lba ≤ end_lba then none else some []
  | fuel + 1, last_lba, end_lba =>
    if last_lba ≤ end_lba then
      (get_fill_tail fuel (u64 (last_lba + 1)) end_lba).map
        fun vs => (MappingKey.make last_lba 1, []) :: vs
    else some []

/-- `mapping::get(req, values, fill_gaps)` after a successful btree query that returned
`result_kv`, for the request `lba`, `nlbas`: the list `values`. The last loop gets `nlbas`
iterations. -/
def mapping_get (lba nlbas : Nat) (result_kv : List (MappingKey × MappingValue))
    (fill_gaps : Bool) : Option (List (MappingKey × MappingValue)) :=
  let start_lba := lba
  let end_lba := u64_sub (u64 (start_lba + nlbas)) 1
  if fill_gaps then
    let r := get_fill_loop start_lba result_kv
    (get_fill_tail nlbas r.2 end_lba).map fun t => r.1 ++ t
  else some result_kv

/-- A list of keys that starts at LBA `a`, each next key starting right after the end of the
one before, the last one ending at `b - 1`. -/
def GapFree : Nat → Nat → List (MappingKey × MappingValue) → Prop
  | a, b, [] => a = b
  | a, b, kv :: rest => kv.1.start = a ∧ 0 < kv.1.n_lba ∧ GapFree (kv.1.start + kv.1.n_lba) b rest

/-- A list of keys sorted by start, pairwise disjoint, every key non-empty and inside
`[lo, hi1 - 1]`: the recursive form. -/
def InRange : Nat → Nat → List (MappingKey × MappingValue) → Prop
  | lo, hi1, [] => lo ≤ hi1
  | lo, hi1, kv :: rest =>
    lo ≤ kv.1.start ∧ 0 < kv.1.n_lba ∧ kv.1.start + kv.1.n_lba ≤ hi1 ∧
      InRange (kv.1.start + kv.1.n_lba) hi1 rest

/-- A query result over LBAs 10..19: entries for 12..13 and 16..18. -/
def get_result_sample : List (MappingKey × MappingValue) :=
  [(⟨12, 2⟩, [⟨1, ⟨100, 2, 0⟩, 2, 0, [1, 2]⟩]), (⟨16, 3⟩, [⟨2, ⟨200, 3, 0⟩, 3, 0, [3, 4, 5]⟩])]

/-! ## Device manager (device.h, device_manager.cpp) -/

/-- The constants `INVALID_PDEV_ID`, `INVALID_VDEV_ID`, `INVALID_CHUNK_ID`, `INVALID_DEV_ID`:
`UINT32_MAX`. -/
def INVALID_ID : Nat := 4294967295

/-- The error codes of `homestore_exception` thrown by the device manager. -/
inductive homestore_error where
  | no_valid_device_found
  | no_spare_disk
  | hetrogenous_disks
  | no_space_avail
  | invalid_chunk_size
deriving DecidableEq

/-- How a call ends: it returns, it throws a `homestore_exception`, or it runs into undefined
behaviour (an access outside an array or vector, a null pointer). -/
inductive Outcome (α : Type) where
  | ok (a : α)
  | thrown (e : homestore_error)
  | undefined

/-- The value a call returned, if it returned. -/
def Outcome.toOption {α : Type} : Outcome α → Option α
  | Outcome.ok a => some a
  | _ => none

/-- The error a call threw, if it threw. -/
def Outcome.error {α : Type} : Outcome α → Option homestore_error
  | Outcome.thrown e => some e
  | _ => none

/-- Whether a call ran into undefined behaviour. -/
def Outcome.isUndefined {α : Type} : Outcome α → Bool
  | Outcome.undefined => true
  | _ => false

/-- The struct `pdev_info_block`. -/
structure pdev_info_block where
  dev_num : Nat
  first_chunk_id : Nat
  dev_offset : Nat
deriving DecidableEq

/-- The struct `chunk_info_block`. -/
structure chunk_info_block where
  chunk_start_offset : Nat
  chunk_size : Nat
  chunk_id : Nat
  pdev_id : Nat
  vdev_id : Nat
  prev_chunk_id : Nat
  next_chunk_id : Nat
  primary_chunk_id : Nat
  slot_allocated : Bool
  is_sb_chunk : Bool
  end_of_chunk_offset : Nat
deriving DecidableEq

/-- The struct `vdev_info_block`, without the padding and the context data. -/
structure vdev_info_block where
  vdev_id : Nat
  size : Nat
  num_mirrors : Nat
  page_size : Nat
  prev_vdev_id : Nat
  next_vdev_id : Nat
  slot_allocated : Bool
  failed : Bool
  num_primary_chunks : Nat
  data_start_offset : Nat
deriving DecidableEq

/-- The zeroed `chunk_info_block` of a `bzero`ed DM-info memory. -/
def chunk_info_block.zero : chunk_info_block := ⟨0, 0, 0, 0, 0, 0, 0, 0, false, false, 0⟩

/-- The zeroed `vdev_info_block` of a `bzero`ed DM-info memory. -/
def vdev_info_block.zero : vdev_info_block := ⟨0, 0, 0, 0, 0, 0, false, false, 0, 0⟩

/-- The DM-info block `dm_info` with its three tables, as it lies in `m_chunk_memory` and on
the DM chunks of a device: the fields of `pdevs_block`, `chunks_block` and `vdevs_block` that
the device manager reads, and the tables `m_pdev_info`, `m_chunk_info` (`max_chunks` slots)
and `m_vdev_info` (`max_vdevs` slots) indexed by id. -/
structure dm_info where
  num_phys_devs : Nat
  m_pdev_info : Nat → pdev_info_block
  num_chunks : Nat
  m_chunk_info : Nat → chunk_info_block
  num_vdevs : Nat
  first_vdev_id : Nat
  m_vdev_info : Nat → vdev_info_block

/-- The `dm_info` of a `bzero`ed `m_chunk_memory`. -/
def dm_info.zero : dm_info :=
  ⟨0, fun _ => ⟨0, 0, 0⟩, 0, fun _ => chunk_info_block.zero, 0, 0, fun _ => vdev_info_block.zero⟩

/-- Modelled from the spec: a `PhysicalDev`, whose member functions are in physical_dev.cpp,
which is not among the sources. `formatted` is the `is_inited` result of opening the device
without formatting (a valid superblock was found), `gen_cnt` the `generation_counter` of its
superblock (`sb_gen_cnt()`), `m_info_blk` its own descriptor, `dm` the DM-info on its DM
chunks (what `read_dm_chunk` reads), and `dm_writes` the generations `write_dm_chunk` was
called with, latest last (the spec: DM-info is persisted "to every PDev with a generation
counter"). -/
structure PhysicalDev where
  m_devname : Nat
  m_devsize : Nat
  formatted : Bool
  gen_cnt : Nat
  m_info_blk : pdev_info_block
  dm : dm_info
  dm_writes : List Nat
  m_error_cnt : Nat

/-- `PhysicalDev::get_dev_id`. -/
def PhysicalDev.get_dev_id (p : PhysicalDev) : Nat := p.m_info_blk.dev_num

/-- Modelled from the spec: `PhysicalDev::update(dev_num, dev_offset, first_chunk_id)` of
physical_dev.cpp, which renames the device (the spec: "rename it to the missing id"): its
descriptor takes the three values. -/
def PhysicalDev.update (p : PhysicalDev) (dev_num dev_offset first_chunk_id : Nat) :
    PhysicalDev :=
  { p with m_info_blk := ⟨dev_num, first_chunk_id, dev_offset⟩ }

/-- Modelled from the spec: `PhysicalDev::write_dm_chunk(gen_cnt, mem, size)` of
physical_dev.cpp: the DM-info in memory is written to the device and its superblock is
stamped with the generation. -/
def PhysicalDev.write_dm_chunk (p : PhysicalDev) (gen_cnt : Nat) (mem : dm_info) : PhysicalDev :=
  { p with dm := mem, gen_cnt := gen_cnt, dm_writes := p.dm_writes ++ [gen_cnt] }

/-- What the device manager does that is seen from outside: `read_info_blocks(dev_id)` with
`m_gen_cnt` at the call, a call of `write_info_blocks` that wrote, and a call of the
vdev-error callback with the index of the descriptor passed. -/
inductive DmEvent where
  | read_info_blocks (dev_id gen_cnt : Nat)
  | write_info_blocks (gen_cnt : Nat)
  | vdev_error_cb (vdev_id : Nat)
deriving DecidableEq

/-- The state of a `DeviceManager`. `m_pdevs` is the sparse vector of devices by id, `dm` the
DM-info in `m_chunk_memory`; `max_chunks`, `max_vdevs`, `is_read_only` and
`max_error_before_marking_dev_down` are the configuration values read through
`HS_STATIC_CONFIG` and `HS_DYNAMIC_CONFIG`; `events` is the history of `DmEvent`s, latest
last. -/
structure DeviceManager where
  m_gen_cnt : Nat
  m_scan_cmpltd : Bool
  m_pdevs : Nat → Option PhysicalDev
  dm : dm_info
  m_last_vdevid : Nat
  m_pdev_id : Nat
  max_chunks : Nat
  max_vdevs : Nat
  is_read_only : Bool
  max_error_before_marking_dev_down : Nat
  events : List DmEvent

/-- The constructor `DeviceManager::DeviceManager` for a configuration. -/
def DeviceManager.new (max_chunks max_vdevs : Nat) (is_read_only : Bool)
    (max_error : Nat) : DeviceManager :=
  { m_gen_cnt := 0, m_scan_cmpltd := false, m_pdevs := fun _ => none, dm := dm_info.zero,
    m_last_vdevid := INVALID_ID, m_pdev_id := 0, max_chunks := max_chunks,
    max_vdevs := max_vdevs, is_read_only := is_read_only,
    max_error_before_marking_dev_down := max_error, events := [] }

/-- The loop of `write_info_blocks` over the devices `i, i + 1, ..` (`n` of them):
`m_pdevs[i]->write_dm_chunk(m_gen_cnt, ..)`. `none`: a device pointer is null. -/
def write_dm_chunks (gen : Nat) (mem : dm_info) :
    Nat → Nat → (Nat → Option PhysicalDev) → Option (Nat → Option PhysicalDev)
  | 0, _, pdevs => some pdevs
  | n + 1, i, pdevs =>
    match pdevs i with
    | none => none
    | some p => write_dm_chunks gen mem n (i + 1) (Function.update pdevs i
        (some (p.write_dm_chunk gen mem)))

/-- `DeviceManager::write_info_blocks`. -/
def DeviceManager.write_info_blocks (dmgr : DeviceManager) : Outcome DeviceManager :=
  if !dmgr.m_scan_cmpltd then Outcome.ok dmgr
  else
    let gen := u64 (dmgr.m_gen_cnt + 1)
    match write_dm_chunks gen dmgr.dm dmgr.dm.num_phys_devs 0 dmgr.m_pdevs with
    | none => Outcome.undefined
    | some pdevs =>
      Outcome.ok { dmgr with m_gen_cnt := gen, m_pdevs := pdevs,
                             events := dmgr.events ++ [DmEvent.write_info_blocks gen] }

/-- Modelled from the spec: the `PhysicalDev` constructor of physical_dev.cpp with
`is_init = true`, which formats the device `devname` of `devsize` bytes as device `dev_num`
at `dev_offset`: a fresh superblock of generation 0 and no DM-info written yet. -/
def PhysicalDev.format (devname devsize dev_num dev_offset : Nat) : PhysicalDev :=
  { m_devname := devname, m_devsize := devsize, formatted := true, gen_cnt := 0,
    m_info_blk := ⟨dev_num, INVALID_ID, dev_offset⟩, dm := dm_info.zero, dm_writes := [],
    m_error_cnt := 0 }

/-- The loop of `init_devices` over the devices, given by name and size, with the locals
`max_dev_offset` and `pdev_size`. -/
def init_devices_loop : List (Nat × Nat) → Nat → Nat → DeviceManager → Outcome DeviceManager
  | [], _, _, dmgr => Outcome.ok dmgr
  | d :: rest, max_dev_offset, pdev_size, dmgr =>
    let pdev := PhysicalDev.format d.1 d.2 dmgr.m_pdev_id max_dev_offset
    let dmgr := { dmgr with m_pdev_id := u32 (dmgr.m_pdev_id + 1) }
    let max_dev_offset := u64 (max_dev_offset + pdev.m_devsize)
    if pdev_size ≠ 0 ∧ pdev_size ≠ pdev.m_devsize then
      Outcome.thrown homestore_error.hetrogenous_disks
    else
      let pdev_size := if pdev_size = 0 then pdev.m_devsize else pdev_size
      let id := pdev.get_dev_id
      init_devices_loop rest max_dev_offset pdev_size
        { dmgr with m_pdevs := Function.update dmgr.m_pdevs id (some pdev),
                    dm := { dmgr.dm with
                      m_pdev_info := Function.update dmgr.dm.m_pdev_info id pdev.m_info_blk } }

/-- `DeviceManager::init_devices`, the devices given by name and size. -/
def DeviceManager.init_devices (dmgr : DeviceManager) (devices : List (Nat × Nat)) :
    Outcome DeviceManager :=
  let dm1 : dm_info := { dmgr.dm with num_vdevs := 0, first_vdev_id := INVALID_ID,
                                      num_chunks := 0, num_phys_devs := u32 devices.length }
  match init_devices_loop devices 0 0 { dmgr with dm := dm1 } with
  | Outcome.ok d => ({ d with m_scan_cmpltd := true } : DeviceManager).write_info_blocks
  | Outcome.thrown e => Outcome.thrown e
  | Outcome.undefined => Outcome.undefined

/-- The locals and members the first loop of `load_and_repair_devices` works on. -/
structure LoadScan where
  m_gen_cnt : Nat
  m_pdevs : Nat → Option PhysicalDev
  uninit_devs : List (Option PhysicalDev)
  device_id : Nat
  rewrite : Bool
  pdev_size : Nat

/-- One iteration of the first loop of `load_and_repair_devices`, for the device `pdev` as
opened without formatting. -/
def load_scan_step (is_read_only : Bool) (s : LoadScan) (pdev : PhysicalDev) : LoadScan :=
  if !pdev.formatted then { s with uninit_devs := s.uninit_devs ++ [some pdev] }
  else
    let pdev_size := if s.pdev_size = 0 then pdev.m_devsize else s.pdev_size
    let s1 : LoadScan :=
      if s.m_gen_cnt < pdev.gen_cnt then
        { s with m_gen_cnt := pdev.gen_cnt, device_id := pdev.get_dev_id,
                 rewrite := if is_read_only then false else true }
      else s
    { s1 with pdev_size := pdev_size,
              m_pdevs := Function.update s1.m_pdevs pdev.get_dev_id (some pdev) }

/-- The first loop of `load_and_repair_devices`. -/
def load_scan (is_read_only : Bool) (s : LoadScan) (devices : List PhysicalDev) : LoadScan :=
  devices.foldl (load_scan_step is_read_only) s

/-- The loop that marks the vdevs with a chunk on the replaced device `dev_id` as failed, over
the chunk slots `i, i + 1, ..` (`n` of them). -/
def mark_vdevs_failed (chunk_info : Nat → chunk_info_block) (dev_id : Nat) :
    Nat → Nat → (Nat → vdev_info_block) → (Nat → vdev_info_block)
  | 0, _, vdev_info => vdev_info
  | n + 1, i, vdev_info =>
    let c := chunk_info i
    if c.pdev_id = dev_id ∧ c.slot_allocated ∧ c.vdev_id ≠ INVALID_ID then
      mark_vdevs_failed chunk_info dev_id n (i + 1)
        (Function.update vdev_info c.vdev_id { vdev_info c.vdev_id with failed := true })
    else mark_vdevs_failed chunk_info dev_id n (i + 1) vdev_info

/-- The loop of `load_and_repair_devices` that replaces the missing devices, over the ids
`dev_id, dev_id + 1, ..` (`n` of them). `uninit_devs.back()` of an empty vector is undefined
behaviour. -/
def load_replace (max_chunks : Nat) (info : dm_info) (pdev_size : Nat) :
    Nat → Nat → LoadScan → (Nat → vdev_info_block) → Outcome (LoadScan × (Nat → vdev_info_block))
  | 0, _, s, vdev_info => Outcome.ok (s, vdev_info)
  | n + 1, dev_id, s, vdev_info =>
    match s.m_pdevs dev_id with
    | some _ => load_replace max_chunks info pdev_size n (dev_id + 1) s vdev_info
    | none =>
      match s.uninit_devs.getLast? with
      | none => Outcome.undefined
      | some none => Outcome.thrown homestore_error.no_spare_disk
      | some (some pdev) =>
        if pdev_size ≠ pdev.m_devsize then Outcome.thrown homestore_error.hetrogenous_disks
        else
          let pdev := pdev.update dev_id (info.m_pdev_info dev_id).dev_offset
            (info.m_pdev_info dev_id).first_chunk_id
          load_replace max_chunks info pdev_size n (dev_id + 1)
            { s with uninit_devs := s.uninit_devs.dropLast,
                     m_pdevs := Function.update s.m_pdevs dev_id (some pdev), rewrite := true }
            (mark_vdevs_failed info.m_chunk_info dev_id max_chunks 0 vdev_info)

/-- `DeviceManager::read_info_blocks(dev_id)`: `m_chunk_memory` is read from the DM chunk of
the device. `none`: the device pointer is null. -/
def DeviceManager.read_info_blocks (dmgr : DeviceManager) (dev_id : Nat) :
    Option DeviceManager :=
  match dmgr.m_pdevs dev_id with
  | none => none
  | some p =>
    some { dmgr with dm := p.dm,
                     events := dmgr.events ++ [DmEvent.read_info_blocks dev_id dmgr.m_gen_cnt] }

/-- `DeviceManager::load_and_repair_devices`, for the devices as opened without formatting.
The scans that follow the replacement of devices (they build the chunk objects and call the
new-vdev callback) are left out up to `m_scan_cmpltd = true` and the rewrite: they read the
tables and set members that are not part of this state, and `m_last_vdevid`. -/
def DeviceManager.load_and_repair_devices (dmgr : DeviceManager) (devices : List PhysicalDev) :
    Outcome DeviceManager :=
  let s := load_scan dmgr.is_read_only
    ⟨dmgr.m_gen_cnt, dmgr.m_pdevs, [], INVALID_ID, false, 0⟩ devices
  if s.m_gen_cnt = 0 then Outcome.thrown homestore_error.no_valid_device_found
  else
    match ({ dmgr with m_gen_cnt := s.m_gen_cnt, m_pdevs := s.m_pdevs } :
        DeviceManager).read_info_blocks s.device_id with
    | none => Outcome.undefined
    | some d1 =>
      match load_replace d1.max_chunks d1.dm s.pdev_size d1.dm.num_phys_devs 0 s
          d1.dm.m_vdev_info with
      | Outcome.undefined => Outcome.undefined
      | Outcome.thrown e => Outcome.thrown e
      | Outcome.ok (s2, vdev_info) =>
        let d2 : DeviceManager :=
          { d1 with m_pdevs := s2.m_pdevs, dm := { d1.dm with m_vdev_info := vdev_info },
                    m_pdev_id := d1.dm.num_phys_devs, m_scan_cmpltd := true }
        if s2.rewrite then d2.write_info_blocks else Outcome.ok d2

/-- The highest superblock generation among the formatted devices of a list. -/
def max_sb_gen (devices : List PhysicalDev) : Nat :=
  ((devices.filter fun p => p.formatted).map fun p => p.gen_cnt).foldl max 0

/-- A DM-info that records two devices, of device offsets 0 and 1000, with empty chunk and
vdev tables. -/
def dm_info_two_sample : dm_info :=
  { dm_info.zero with num_phys_devs := 2,
                      m_pdev_info := fun i => ⟨i, INVALID_ID, 1000 * i⟩,
                      first_vdev_id := INVALID_ID }

/-- A formatted device of 1000 bytes with id `id` and superblock generation `gen`, holding
`dm_info_two_sample`. -/
def pdev_sample (id gen : Nat) : PhysicalDev :=
  { m_devname := id, m_devsize := 1000, formatted := true, gen_cnt := gen,
    m_info_blk := ⟨id, INVALID_ID, 1000 * id⟩, dm := dm_info_two_sample, dm_writes := [],
    m_error_cnt := 0 }

/-- An unformatted device of 1000 bytes. -/
def pdev_spare_sample (name : Nat) : PhysicalDev :=
  { m_devname := name, m_devsize := 1000, formatted := false, gen_cnt := 0,
    m_info_blk := ⟨INVALID_ID, INVALID_ID, 0⟩, dm := dm_info.zero, dm_writes := [],
    m_error_cnt := 0 }

/-- A new `DeviceManager` with 8 chunk slots and 4 vdev slots, not read-only. -/
def dmgr_new_sample : DeviceManager := DeviceManager.new 8 4 false 3

/-- A `DeviceManager` after its scan, at generation 5 with the two devices of
`dm_info_two_sample`. -/
def dmgr_sample : DeviceManager :=
  { dmgr_new_sample with
      m_gen_cnt := 5, m_scan_cmpltd := true, dm := dm_info_two_sample, m_pdev_id := 2,
      m_pdevs := fun i => if i < 2 then some (pdev_sample i 5) else none }

/-- The `do .. while (cur_slot != start_slot)` loop of `alloc_new_chunk_slot`, entered with
`cur_slot`, for at most `fuel` iterations: the slot found, or `none` for the null return.
A read of `m_chunk_info[cur_slot]` with `cur_slot` outside the `max_chunks` slots of the table
is undefined behaviour; so is running out of `fuel` (with `max_chunks` iterations the loop has
come around to `start_slot`). -/
def alloc_new_chunk_slot_loop (max_chunks start_slot : Nat) (tbl : Nat → chunk_info_block) :
    Nat → Nat → Outcome (Option Nat)
  | 0, _ => Outcome.undefined
  | fuel + 1, cur_slot =>
    if cur_slot ≥ max_chunks then Outcome.undefined
    else if !(tbl cur_slot).slot_allocated then Outcome.ok (some cur_slot)
    else
      let cur_slot := u32 (cur_slot + 1)
      let cur_slot := if cur_slot = max_chunks then 0 else cur_slot
      if cur_slot ≠ start_slot then alloc_new_chunk_slot_loop max_chunks start_slot tbl fuel cur_slot
      else Outcome.ok none

/-- `DeviceManager::alloc_new_chunk_slot`: the new state and the slot number written to
`pslot_num`, `none` for the null return. -/
def DeviceManager.alloc_new_chunk_slot (dmgr : DeviceManager) :
    Outcome (DeviceManager × Option Nat) :=
  let start_slot := dmgr.dm.num_chunks
  match alloc_new_chunk_slot_loop dmgr.max_chunks start_slot dmgr.dm.m_chunk_info
      dmgr.max_chunks start_slot with
  | Outcome.undefined => Outcome.undefined
  | Outcome.thrown e => Outcome.thrown e
  | Outcome.ok none => Outcome.ok (dmgr, none)
  | Outcome.ok (some slot) =>
    Outcome.ok ({ dmgr with dm := { dmgr.dm with
      m_chunk_info := Function.update dmgr.dm.m_chunk_info slot
        { dmgr.dm.m_chunk_info slot with slot_allocated := true } } }, some slot)

/-- Modelled from the spec: the constructor `PhysicalDevChunk(pdev, chunk_id, start_offset,
size, cinfo)` of physical_dev.cpp, which fills the descriptor of a new chunk: a free chunk
(no vdev, no primary, not a superblock chunk) of the device, not yet linked. -/
def PhysicalDevChunk.init (cinfo : chunk_info_block) (pdev_id chunk_id start_offset size : Nat) :
    chunk_info_block :=
  { cinfo with chunk_start_offset := start_offset, chunk_size := size, chunk_id := chunk_id,
               pdev_id := pdev_id, vdev_id := INVALID_ID, prev_chunk_id := INVALID_ID,
               next_chunk_id := INVALID_ID, primary_chunk_id := INVALID_ID,
               slot_allocated := true, is_sb_chunk := false }

/-- The number of allocated slots of a chunk table of `max_chunks` slots. -/
def allocated_slots (max_chunks : Nat) (tbl : Nat → chunk_info_block) : Nat :=
  (List.range max_chunks).countP fun i => (tbl i).slot_allocated

/-- A free chunk of device 0 in slot `id`: start 0, 1000 bytes, not linked. -/
def chunk_free_sample (id : Nat) : chunk_info_block :=
  { chunk_start_offset := 0, chunk_size := 1000, chunk_id := id, pdev_id := 0,
    vdev_id := INVALID_ID, prev_chunk_id := INVALID_ID, next_chunk_id := INVALID_ID,
    primary_chunk_id := INVALID_ID, slot_allocated := true, is_sb_chunk := false,
    end_of_chunk_offset := 1000 }

/-- A manager before its scan with a chunk table of two slots, both allocated. -/
def dmgr_full_sample : DeviceManager :=
  { DeviceManager.new 2 4 false 3 with
      dm := { dm_info_two_sample with num_chunks := 2, m_chunk_info := chunk_free_sample } }

/-- A manager before its scan with a chunk table of four slots of which slot 0 is allocated:
one free chunk of 1000 bytes. -/
def dmgr_chunk_sample : DeviceManager :=
  { DeviceManager.new 4 4 false 3 with
      dm := { dm_info_two_sample with
        num_chunks := 1,
        m_chunk_info := fun i => if i = 0 then chunk_free_sample 0 else chunk_info_block.zero } }

/-- The loop of `handle_error` over the chunk slots `i, i + 1, ..` (`n` of them): the vdev-error
callback is called with `&m_vdev_info[vdev_id]` for each slot whose `pdev_id` is the device;
the calls are recorded with the index `vdev_id`. -/
def handle_error_loop (tbl : Nat → chunk_info_block) (dev_id : Nat) :
    Nat → Nat → List DmEvent → List DmEvent
  | 0, _, events => events
  | n + 1, i, events =>
    if (tbl i).pdev_id = dev_id then
      handle_error_loop tbl dev_id n (i + 1) (events ++ [DmEvent.vdev_error_cb (tbl i).vdev_id])
    else handle_error_loop tbl dev_id n (i + 1) events

/-- `DeviceManager::handle_error(pdev)` for the device in `m_pdevs[dev_id]`; `inc_error_cnt`
returns the incremented count. `none`: the device pointer is null. -/
def DeviceManager.handle_error (dmgr : DeviceManager) (dev_id : Nat) : Option DeviceManager :=
  match dmgr.m_pdevs dev_id with
  | none => none
  | some pdev =>
    let cnt := u64 (pdev.m_error_cnt + 1)
    let pdevs := Function.update dmgr.m_pdevs dev_id (some { pdev with m_error_cnt := cnt })
    let d1 : DeviceManager := { dmgr with m_pdevs := pdevs }
    if cnt < dmgr.max_error_before_marking_dev_down then some d1
    else
      let events :=
        handle_error_loop dmgr.dm.m_chunk_info pdev.get_dev_id dmgr.max_chunks 0 d1.events
      some { d1 with events := events }

/-- The loop of `alloc_new_vdev_slot` over the slots `id, id + 1, ..` (`n` of them): the first
slot that is not allocated, or `none` for the null return. -/
def alloc_new_vdev_slot_loop (tbl : Nat → vdev_info_block) : Nat → Nat → Option Nat
  | 0, _ => none
  | n + 1, id => if !(tbl id).slot_allocated then some id
    else alloc_new_vdev_slot_loop tbl n (id + 1)

/-- `DeviceManager::alloc_new_vdev_slot`: the new state and the slot, `none` for null. -/
def DeviceManager.alloc_new_vdev_slot (dmgr : DeviceManager) : DeviceManager × Option Nat :=
  match alloc_new_vdev_slot_loop dmgr.dm.m_vdev_info dmgr.max_vdevs 0 with
  | none => (dmgr, none)
  | some id =>
    let tbl := Function.update dmgr.dm.m_vdev_info id
      { dmgr.dm.m_vdev_info id with slot_allocated := true, vdev_id := id }
    ({ dmgr with dm := { dmgr.dm with m_vdev_info := tbl } }, some id)

/-- `DeviceManager::alloc_vdev(req_size, nmirrors, page_size, nchunks, blob, size)`, without
the context data: the new state and the id of the descriptor returned. -/
def DeviceManager.alloc_vdev (dmgr : DeviceManager) (nmirrors page_size nchunks size : Nat) :
    Outcome (DeviceManager × Nat) :=
  match dmgr.alloc_new_vdev_slot with
  | (_, none) => Outcome.thrown homestore_error.no_space_avail
  | (d1, some id) =>
    let tbl := d1.dm.m_vdev_info
    let tbl := Function.update tbl id
      { tbl id with size := size, num_mirrors := nmirrors, page_size := page_size,
                    num_primary_chunks := nchunks, data_start_offset := 0,
                    prev_vdev_id := d1.m_last_vdevid }
    let first := if d1.m_last_vdevid = INVALID_ID then id else d1.dm.first_vdev_id
    let tbl := if d1.m_last_vdevid = INVALID_ID then tbl
      else Function.update tbl d1.m_last_vdevid { tbl d1.m_last_vdevid with next_vdev_id := id }
    let tbl := Function.update tbl id { tbl id with next_vdev_id := INVALID_ID }
    let num_vdevs := u32 (d1.dm.num_vdevs + 1)
    let dm2 : dm_info :=
      { d1.dm with m_vdev_info := tbl, first_vdev_id := first, num_vdevs := num_vdevs }
    let d2 : DeviceManager := { d1 with m_last_vdevid := id, dm := dm2 }
    match d2.write_info_blocks with
    | Outcome.ok d3 => Outcome.ok (d3, id)
    | Outcome.thrown e => Outcome.thrown e
    | Outcome.undefined => Outcome.undefined

/-- `DeviceManager::free_vdev(vb)` for the descriptor `vb = &m_vdev_info[id]`. -/
def DeviceManager.free_vdev (dmgr : DeviceManager) (id : Nat) : Outcome DeviceManager :=
  let tbl := dmgr.dm.m_vdev_info
  let prev_vb_id := (tbl id).prev_vdev_id
  let next_vb_id := (tbl id).next_vdev_id
  let tbl1 := if prev_vb_id ≠ INVALID_ID then
      Function.update tbl prev_vb_id { tbl prev_vb_id with next_vdev_id := next_vb_id }
    else tbl
  let first := if prev_vb_id ≠ INVALID_ID then dmgr.dm.first_vdev_id else (tbl id).next_vdev_id
  let tbl2 := if next_vb_id ≠ INVALID_ID then
      Function.update tbl1 next_vb_id { tbl1 next_vb_id with prev_vdev_id := prev_vb_id }
    else tbl1
  let tbl3 := Function.update tbl2 id { tbl2 id with slot_allocated := false }
  let num_vdevs := u32 (dmgr.dm.num_vdevs + 4294967295)
  let dm1 : dm_info :=
    { dmgr.dm with m_vdev_info := tbl3, first_vdev_id := first, num_vdevs := num_vdevs }
  ({ dmgr with dm := dm1 } : DeviceManager).write_info_blocks

/-- The walk of `load_and_repair_devices` along `next_vdev_id` from `vid`, for at most `fuel`
steps: the slots visited. -/
def vdev_walk (tbl : Nat → vdev_info_block) : Nat → Nat → List Nat
  | 0, _ => []
  | fuel + 1, vid =>
    if vid = INVALID_ID then [] else vid :: vdev_walk tbl fuel (tbl vid).next_vdev_id

/-- A call on the vdev table: `alloc_vdev` or `free_vdev` of the descriptor of a slot. -/
inductive VdevOp where
  | alloc (nmirrors page_size nchunks size : Nat)
  | free (id : Nat)

/-- A sequence of `alloc_vdev` and `free_vdev` calls; a call that throws leaves the state as
it was before the call. -/
def DeviceManager.vdev_run (dmgr : DeviceManager) : List VdevOp → Outcome DeviceManager
  | [] => Outcome.ok dmgr
  | VdevOp.alloc m p n s :: ops =>
    match dmgr.alloc_vdev m p n s with
    | Outcome.ok (d, _) => d.vdev_run ops
    | Outcome.thrown _ => dmgr.vdev_run ops
    | Outcome.undefined => Outcome.undefined
  | VdevOp.free id :: ops =>
    match dmgr.free_vdev id with
    | Outcome.ok d => d.vdev_run ops
    | Outcome.thrown _ => dmgr.vdev_run ops
    | Outcome.undefined => Outcome.undefined

/-- A manager after its scan with the chunk table of `dmgr_chunk_sample` (four slots, the
free chunk 0 on device 0) and the error threshold 1. -/
def dmgr_error_sample : DeviceManager :=
  { dmgr_chunk_sample with
      max_error_before_marking_dev_down := 1, m_scan_cmpltd := true,
      m_pdevs := fun i => if i < 2 then some (pdev_sample i 5) else none }

/-- The manager a first-time `init_devices` of two devices of 1000 bytes leaves. -/
def dmgr_init_sample : DeviceManager :=
  (dmgr_new_sample.init_devices [(1, 1000), (2, 1000)]).toOption.getD dmgr_new_sample

/-! ## Checkpoint of the index (indx_mgr.cpp) -/

/-- The values of `cp_state` that indx_mgr.cpp names. -/
inductive cp_state where
  | active_cp
  | suspend_cp
deriving DecidableEq

/-- The per-volume checkpoint id in `vol_id_list`: the volume and its `flags`. -/
structure vol_cp_id where
  vol : Nat
  flags : cp_state
deriving DecidableEq

/-- The struct `homeblks_cp_id`: the fields `IndxCP::indx_tbl_cp_done` and
`IndxCP::blkalloc_cp` read. `vol_id_list` holds the values of the map in its order, `none`
for a null pointer; `cb_list` is given by the number of its callbacks. -/
structure homeblks_cp_id where
  ref_cnt : Int
  blkalloc_checkpoint : Bool
  try_blkalloc_checkpoint : Bool
  vol_id_list : List (Option vol_cp_id)
  cb_list : Nat
deriving DecidableEq

/-- The calls `indx_tbl_cp_done` and `blkalloc_cp` make, in the order they are made. -/
inductive IndxCpEvent where
  | flush_homeblks_free_blks
  | blkalloc_cp_start
  | write_homeblks_cp_sb
  | vol_truncate (vol : Nat)
  | device_truncate
  | cb (i : Nat)
  | blkalloc_cp_done
  | mapping_cp_done
  | cp_end
  | trigger_homeblks_cp
deriving DecidableEq

/-- The loop of `blkalloc_cp` over `vol_id_list`: `vol->truncate` for each entry that is not
null and has `flags == cp_state::active_cp`. -/
def blkalloc_cp_truncate : List (Option vol_cp_id) → List IndxCpEvent
  | [] => []
  | none :: rest => blkalloc_cp_truncate rest
  | some v :: rest =>
    if v.flags ≠ cp_state.active_cp then blkalloc_cp_truncate rest
    else IndxCpEvent.vol_truncate v.vol :: blkalloc_cp_truncate rest

/-- `IndxCP::blkalloc_cp(id)`: the calls it makes. -/
def IndxCP.blkalloc_cp (id : homeblks_cp_id) : List IndxCpEvent :=
  [IndxCpEvent.blkalloc_cp_start, IndxCpEvent.write_homeblks_cp_sb] ++
  blkalloc_cp_truncate id.vol_id_list ++
  [IndxCpEvent.device_truncate] ++
  (List.range id.cb_list).map IndxCpEvent.cb ++
  [IndxCpEvent.blkalloc_cp_done, IndxCpEvent.mapping_cp_done, IndxCpEvent.cp_end]

/-- `IndxCP::indx_tbl_cp_done(id)`: the id with its `ref_cnt` lowered and the calls made. -/
def IndxCP.indx_tbl_cp_done (id : homeblks_cp_id) : homeblks_cp_id × List IndxCpEvent :=
  let cnt := id.ref_cnt
  let id1 := { id with ref_cnt := id.ref_cnt - 1 }
  if cnt ≠ 1 then (id1, [])
  else if id1.blkalloc_checkpoint then
    (id1, IndxCpEvent.flush_homeblks_free_blks :: IndxCP.blkalloc_cp id1)
  else
    (id1, [IndxCpEvent.flush_homeblks_free_blks] ++
      (if id1.try_blkalloc_checkpoint ≠ id1.blkalloc_checkpoint
        then [IndxCpEvent.trigger_homeblks_cp] else []) ++
      [IndxCpEvent.write_homeblks_cp_sb, IndxCpEvent.mapping_cp_done, IndxCpEvent.cp_end])

/-- Whether a call is a truncation of a journal: `vol->truncate` or `device_truncate`. -/
def IndxCpEvent.is_truncate : IndxCpEvent → Bool
  | IndxCpEvent.vol_truncate _ => true
  | IndxCpEvent.device_truncate => true
  | _ => false

/-- A checkpoint id with the last reference held, a block-allocator checkpoint to take, an
active volume 1, a null entry, a suspended volume 3, and two callbacks. -/
def cp_id_sample : homeblks_cp_id :=
  { ref_cnt := 1, blkalloc_checkpoint := true, try_blkalloc_checkpoint := true,
    vol_id_list := [some ⟨1, cp_state.active_cp⟩, none, some ⟨3, cp_state.suspend_cp⟩],
    cb_list := 2 }

/-! ## Creation of a `VirtualDev` (virtual_dev.hpp, homestore_config.hpp) -/

/-- The configuration values the chunk size limits are computed from:
`disk_attr.phys_page_size` and `engine.min_io_size`. -/
structure ChunkCfg where
  phys_page_size : Nat
  min_io_size : Nat
deriving DecidableEq

/-- The constant `BLKS_PER_PORTION`. -/
def BLKS_PER_PORTION : Nat := 1024

/-- The constant `TOTAL_SEGMENTS`. -/
def TOTAL_SEGMENTS : Nat := 8

/-- The constant `MAX_ID_BITS_PER_CHUNK`: `(1lu << ID_BITS) - 1` with `ID_BITS = 32`. -/
def MAX_ID_BITS_PER_CHUNK : Nat := 4294967295

/-- The function `sisl::round_down(x, m)`: the largest multiple of `m` that is at most `x`. -/
def round_down (x m : Nat) : Nat := x / m * m

/-- The function `sisl::round_up(x, m)`: the smallest multiple of `m` that is at least `x`. -/
def round_up (x m : Nat) : Nat := (x + m - 1) / m * m

/-- The macro `MIN_CHUNK_SIZE`. -/
def MIN_CHUNK_SIZE (cfg : ChunkCfg) : Nat := cfg.phys_page_size * BLKS_PER_PORTION * TOTAL_SEGMENTS

/-- The macro `MAX_CHUNK_SIZE`. -/
def MAX_CHUNK_SIZE (cfg : ChunkCfg) : Nat :=
  round_down (MAX_ID_BITS_PER_CHUNK * cfg.min_io_size) (MIN_CHUNK_SIZE cfg)

/-- The loop `do { m_num_chunks = cnt * m_num_chunks; m_chunk_size = size / m_num_chunks;
++cnt; } while (m_chunk_size > MAX_CHUNK_SIZE)` of the creating constructor, entered with
`cnt` and `m_num_chunks`, for at most `fuel` iterations: `(m_num_chunks, m_chunk_size)` at the
exit. `none`: a division by zero (`m_num_chunks` wrapped to 0 in 32 bits), or no exit within
`fuel` iterations. -/
def stripe_chunks (max_chunk_size size : Nat) : Nat → Nat → Nat → Option (Nat × Nat)
  | 0, _, _ => none
  | fuel + 1, cnt, m_num_chunks =>
    let m_num_chunks := u32 (cnt * m_num_chunks)
    if m_num_chunks = 0 then none
    else
      let m_chunk_size := size / m_num_chunks
      if m_chunk_size > max_chunk_size then
        stripe_chunks max_chunk_size size fuel (cnt + 1) m_num_chunks
      else some (m_num_chunks, m_chunk_size)

/-- The loop over the mirrors of primary chunk `i`, `nmirror` iterations entered with
`next_ind`: the device indices `create_dev_chunk` is called with. -/
def mirror_pdev_inds (npdevs : Nat) : Nat → Nat → List Nat
  | 0, _ => []
  | nmirror + 1, next_ind =>
    let next_ind := u32 (next_ind + 1)
    let next_ind := if next_ind = npdevs then 0 else next_ind
    next_ind :: mirror_pdev_inds npdevs nmirror next_ind

/-- What the creating constructor of `VirtualDev` leaves: `m_num_chunks`, `m_chunk_size`, the
size passed to `alloc_vdev`, and per primary chunk `i` the device index of its
`create_dev_chunk` call and the device indices of the `create_dev_chunk` calls for its
mirrors. -/
structure VdevLayout where
  m_num_chunks : Nat
  m_chunk_size : Nat
  size : Nat
  chunks : List (Nat × List Nat)
deriving DecidableEq

/-- The creating constructor `VirtualDev(mgr, name, context_size, nmirror, is_stripe,
page_size, pdev_list, cb, blob, size, ..)` for `npdevs` devices in `pdev_list` (not zero).
The calls of `alloc_vdev` and `create_dev_chunk` are taken to return; the device index of
each `create_dev_chunk` call is recorded. The stripe loop gets 40 iterations. -/
def VirtualDev.create (cfg : ChunkCfg) (nmirror : Nat) (is_stripe : Bool) (npdevs size : Nat) :
    Outcome VdevLayout :=
  let geo : Option (Nat × Nat) :=
    if is_stripe then stripe_chunks (MAX_CHUNK_SIZE cfg) size 40 1 (u32 npdevs)
    else some (1, size)
  match geo with
  | none => Outcome.undefined
  | some (m_num_chunks, m_chunk_size) =>
    let m_chunk_size :=
      if m_chunk_size % MIN_CHUNK_SIZE cfg ≠ 0 then round_up m_chunk_size (MIN_CHUNK_SIZE cfg)
      else m_chunk_size
    if m_chunk_size > MAX_CHUNK_SIZE cfg then Outcome.thrown homestore_error.invalid_chunk_size
    else
      let size := u64 (m_chunk_size * m_num_chunks)
      let chunks := (List.range m_num_chunks).map fun i =>
        (i % npdevs, if nmirror ≠ 0 then mirror_pdev_inds npdevs nmirror i else [])
      Outcome.ok ⟨m_num_chunks, m_chunk_size, size, chunks⟩

/-- A configuration with 4096-byte pages and a minimal io size of 4096 bytes: chunks from
32 MiB up to 16 TiB. -/
def chunk_cfg_sample : ChunkCfg := ⟨4096, 4096⟩

/-- A configuration with 1-byte pages and a minimal io size of 1: chunks from 8192 bytes up
to 4294959104 bytes. -/
def chunk_cfg_small_sample : ChunkCfg := ⟨1, 1⟩

/-- The checkpoint of epoch 0 in flight: a trigger on the new `CheckPoint` has published
epoch 1 and started the flush of epoch 0. -/
def cp_in_flight_sample : CheckPoint :=
  (CheckPoint.init.trigger_cp).getD CheckPoint.init

/-- The checkpoint of epoch 0 in flight and a `trigger_cp(id)` made on the current epoch 1. -/
def cp_waiting_sample : CheckPoint :=
  (cp_in_flight_sample.trigger_cp_id 1).getD cp_in_flight_sample

/-- The number of LBAs `update_indx_tbl` computes for a block id:
`blkid.data_size(data_pagesz) / page_size` as a `uint32_t`. -/
def blkid_nlbas (page_size data_pagesz : Nat) (b : BlkId) : Nat :=
  u32 (b.data_size data_pagesz / page_size)

/-- A put installed at least one LBA: the first LBA it left unwritten lies behind the start
of its key. -/
def Installed (put : PutFn) (kv : MappingKey × ValueEntry) : Prop :=
  kv.1.start < (put kv.1 kv.2).next_start_lba

/-- What `mapping::put` says of its `start_lba` result ("it updates the first lba which is
not written"): it never lies before the key, a put that succeeds has written the whole key
(the assertion behind the call), and a put that fails has left a part of the key unwritten. -/
def PutContract (put : PutFn) : Prop :=
  ∀ key ve, key.start ≤ (put key ve).next_start_lba ∧
    ((put key ve).ret = btree_status_t.success →
      (put key ve).next_start_lba = key.start + key.n_lba) ∧
    ((put key ve).ret ≠ btree_status_t.success →
      (put key ve).next_start_lba < key.start + key.n_lba)

/-- `IndxMgr::update_indx` with `retry_update_indx`, as far as the index update goes: the
first `update_indx_tbl` and, when it returns `cp_id_mismatch`, the second one; `put1` and
`put2` are the index as the two attempts find it. The request after each attempt and the puts
of each attempt. -/
def update_indx (put1 put2 : PutFn) (page_size data_pagesz : Nat) (vreq : volume_req) :
    volume_req × List (MappingKey × ValueEntry) × Option (volume_req ×
      List (MappingKey × ValueEntry)) :=
  let r1 := update_indx_tbl put1 page_size data_pagesz vreq
  if r1.1 = btree_status_t.cp_id_mismatch then
    let r2 := update_indx_tbl put2 page_size data_pagesz r1.2.1
    (r1.2.1, r1.2.2, some (r2.2.1, r2.2.2))
  else (r1.2.1, r1.2.2, none)

/-- A put that writes the first two LBAs of its key and then meets a newer checkpoint. -/
def put_two_then_mismatch : PutFn := fun key _ =>
  if key.n_lba ≤ 2 then ⟨btree_status_t.success, key.start + key.n_lba, 0⟩
  else ⟨btree_status_t.cp_id_mismatch, key.start + 2, 0⟩

/-- A new write of 4 LBAs at LBA 0 backed by one block id of 4 blocks. -/
def vreq_new_sample : volume_req :=
  { lba := 0, nlbas := 4, seqId := 9, alloc_blkid_list := [⟨100, 4, 0⟩],
    csum_list := [10, 11, 12, 13], cp_info_list := [], fbe_list_size := 0,
    active_nlbas_written := 0, cp_cnt := 8 }

/-- The field `io_cp_info_size` of the journal header that `create_journal_entry` builds
from a request: `hdr->io_cp_info_size = vreq->cp_info_list.size()`. -/
def journal_hdr_io_cp_info_size (vreq : volume_req) : Nat :=
  vreq.cp_info_list.length

/-- The request as `update_indx` hands it to `journal_write`: after the retry when there was
one, after the first attempt otherwise. -/
def update_indx_vreq (put1 put2 : PutFn) (page_size data_pagesz : Nat) (vreq : volume_req) :
    volume_req :=
  match (update_indx put1 put2 page_size data_pagesz vreq).2.2 with
  | some r2 => r2.1
  | none => (update_indx put1 put2 page_size data_pagesz vreq).1

/-- The constant `CHUNK_NUM_BITS` of homestore_config.hpp. -/
def CHUNK_NUM_BITS : Nat := 8

/-- The constant `MAX_CHUNK_ID` of homestore_config.hpp, `(1 << CHUNK_NUM_BITS) - 1`. -/
def MAX_CHUNK_ID : Nat := 2 ^ CHUNK_NUM_BITS - 1

/-- Modelled from the spec: the enum `BlkAllocStatus` (blk.h is not part of the sources).
`alloc_blk` names `BLK_ALLOC_SUCCESS` and `BLK_ALLOC_FAILED`; `BLK_ALLOC_SPACEFULL` stands for
the other values an allocator reports when it cannot serve a request. -/
inductive BlkAllocStatus where
  | BLK_ALLOC_SUCCESS | BLK_ALLOC_FAILED | BLK_ALLOC_SPACEFULL
deriving DecidableEq

/-- The fields of `blk_alloc_hints` that `alloc_blk` reads. -/
structure blk_alloc_hints where
  dev_id_hint : Int
  can_look_for_other_dev : Bool
deriving DecidableEq

/-- The call `chunk->get_blk_allocator()->alloc(nblks, hints, out_blkid)` for the chunk with
the given chunk id, `nblks` and `hints` being fixed: from the state of the allocators and the
vector `out_blkid`, the status returned, the vector afterwards and the new state. -/
abbrev ChunkAllocFn (σ : Type) := σ → Nat → List BlkId → BlkAllocStatus × List BlkId × σ

/-- The variables of `alloc_blk` that its loops change (a chunk is named by its chunk id),
and `tried`: the chunks whose allocator was called, in the order of the calls, each with
the status the call returned. -/
structure AllocBlkRun (σ : Type) where
  status : BlkAllocStatus
  out_blkid : List BlkId
  picked_chunk : Option Nat
  tried : List (Nat × BlkAllocStatus)
  ba : σ

/-- `VirtualDev::to_glob_uniq_blkid`: `BlkId(id, nblks, chunk->get_chunk_id())`; the chunk
number of a block id is a field of `CHUNK_NUM_BITS` bits. -/
def to_glob_uniq_blkid (chunk_local_blkid : BlkId) (chunk_id : Nat) : BlkId :=
  ⟨chunk_local_blkid.id, chunk_local_blkid.nblks, chunk_id % 2 ^ CHUNK_NUM_BITS⟩

/-- The loop `for (auto chunk : m_primary_pdev_chunks_list[dev_ind].chunks_in_pdev)` of
`alloc_blk`, with its `break` on success. -/
def alloc_blk_chunks {σ : Type} (alloc : ChunkAllocFn σ) :
    AllocBlkRun σ → List Nat → AllocBlkRun σ
  | r, [] => r
  | r, chunk :: rest =>
    let a := alloc r.ba chunk r.out_blkid
    let r1 : AllocBlkRun σ :=
      { r with status := a.1, out_blkid := a.2.1, ba := a.2.2,
               tried := r.tried ++ [(chunk, a.1)] }
    if a.1 = BlkAllocStatus.BLK_ALLOC_SUCCESS then { r1 with picked_chunk := some chunk }
    else alloc_blk_chunks alloc r1 rest

/-- The loop `do .. while (dev_ind != start_dev_ind)` of `alloc_blk`, entered with `dev_ind`,
for at most `fuel` iterations; `chunks` holds, per device of `m_primary_pdev_chunks_list`, the
chunk ids of `chunks_in_pdev`. Indexing the list with a `dev_ind` outside of it is undefined
behaviour; so is running out of `fuel` (after as many iterations as there are devices the
loop has come around to `start_dev_ind`). -/
def alloc_blk_devs {σ : Type} (alloc : ChunkAllocFn σ) (chunks : List (List Nat))
    (can_look_for_other_dev : Bool) (start_dev_ind : Nat) :
    Nat → Nat → AllocBlkRun σ → Outcome (AllocBlkRun σ)
  | 0, _, _ => Outcome.undefined
  | fuel + 1, dev_ind, r =>
    match chunks[dev_ind]? with
    | none => Outcome.undefined
    | some chunks_in_pdev =>
      let r1 := alloc_blk_chunks alloc r chunks_in_pdev
      if r1.status = BlkAllocStatus.BLK_ALLOC_SUCCESS then Outcome.ok r1
      else if !can_look_for_other_dev then Outcome.ok r1
      else
        let dev_ind := u32 (u32 (dev_ind + 1) % chunks.length)
        if dev_ind ≠ start_dev_ind then
          alloc_blk_devs alloc chunks can_look_for_other_dev start_dev_ind fuel dev_ind r1
        else Outcome.ok r1

/-- `VirtualDev::alloc_blk(nblks, hints, out_blkid)`. `select` is what
`m_selector->select(hints)` returns, `chunks` the chunk ids of `m_primary_pdev_chunks_list`
per device, `ba` the state of the allocators. The result carries the status returned and the
vector `out_blkid` as the caller finds it; success without a picked chunk would dereference a
null pointer. -/
def alloc_blk {σ : Type} (alloc : ChunkAllocFn σ) (chunks : List (List Nat)) (select : Nat)
    (hints : blk_alloc_hints) (ba : σ) (out_blkid : List BlkId) : Outcome (AllocBlkRun σ) :=
  let dev_ind := if hints.dev_id_hint = -1 then select
    else (hints.dev_id_hint % 4294967296).toNat
  let start_dev_ind := dev_ind
  let r0 : AllocBlkRun σ :=
    { status := BlkAllocStatus.BLK_ALLOC_FAILED, out_blkid := out_blkid, picked_chunk := none,
      tried := [], ba := ba }
  match alloc_blk_devs alloc chunks hints.can_look_for_other_dev start_dev_ind chunks.length
      dev_ind r0 with
  | Outcome.undefined => Outcome.undefined
  | Outcome.thrown e => Outcome.thrown e
  | Outcome.ok r =>
    if r.status = BlkAllocStatus.BLK_ALLOC_SUCCESS then
      match r.picked_chunk with
      | none => Outcome.undefined
      | some chunk =>
        Outcome.ok { r with out_blkid := r.out_blkid.map fun b => to_glob_uniq_blkid b chunk }
    else Outcome.ok r

/-- The chunks of the `k` devices `d0`, `d0 + 1`, .. modulo the number of devices, device
after device, the chunks of a device in the order of its list. -/
def alloc_blk_devices_order (chunks : List (List Nat)) (d0 k : Nat) : List Nat :=
  ((List.range k).map fun j => chunks.getD ((d0 + j) % chunks.length) []).flatten

/-- The chunks in the order in which `alloc_blk` is to try them from device `d0`: the chunks
of `d0`, and with `can_look_for_other_dev` those of the devices `d0 + 1`, `d0 + 2`, .. modulo
the number of devices, every device once. -/
def alloc_blk_order (chunks : List (List Nat)) (can_look_for_other_dev : Bool) (d0 : Nat) :
    List Nat :=
  if can_look_for_other_dev then alloc_blk_devices_order chunks d0 chunks.length
  else chunks.getD d0 []

/-- The device index `alloc_blk` starts at: the hint, or the choice of the selector when the
hint is -1. -/
def alloc_blk_start (select : Nat) (hints : blk_alloc_hints) : Nat :=
  if hints.dev_id_hint = -1 then select else (hints.dev_id_hint % 4294967296).toNat

/-- An allocator state for three chunks: chunk `c` serves a request while `free c` is not 0;
it then hands out the block id numbered by its free count and counts down. -/
def counting_alloc : ChunkAllocFn (Nat → Nat) := fun free chunk out =>
  if free chunk = 0 then (BlkAllocStatus.BLK_ALLOC_SPACEFULL, out, free)
  else (BlkAllocStatus.BLK_ALLOC_SUCCESS, out ++ [⟨free chunk, 1, 0⟩],
        Function.update free chunk (free chunk - 1))

/-- Three devices with the chunks 10 and 11, 20, 30; only chunk 10 has room. -/
def alloc_chunks_sample : List (List Nat) := [[10, 11], [20], [30]]

/-- The free counts of the sample: chunk 10 has room for 4 blocks, the others are full. -/
def alloc_free_sample : Nat → Nat := fun c => if c = 10 then 4 else 0

/-- `ValueEntry::compare(other)`: 0 for equal sequence ids, 1 when `other` is higher, -1 when
`other` is lower. -/
def ValueEntry.compare (ve other : ValueEntry) : Int :=
  if ve.seqId = other.seqId then 0
  else if ve.seqId < other.seqId then 1 -- other is higher
  else -1 -- other is lower

/-- The loop `while (i < v_array.size() && v_array[i].compare(&ve) > 0) ++i` of `add_copy`,
entered with `i` and the entries of `v_array` from `i` on: the value of `i` after it. -/
def add_copy_while (ve : ValueEntry) : List ValueEntry → Nat → Nat
  | [], i => i
  | v :: rest, i => if v.compare ve > 0 then add_copy_while ve rest (i + 1) else i

/-- The index `i` at which `add_copy` inserts `ve` into `v_array`. -/
def add_copy_index (v_array : List ValueEntry) (ve : ValueEntry) : Nat :=
  if v_array.length > 0 then
    let i := add_copy_while ve v_array 0
    match v_array[i]? with
    | some v =>
      if v.compare ve = 0 then
        -- every sequence ID is invalid until jorunaling comes
        i + 1
      else i
    | none => i
  else 0

/-- `MappingValue::add_copy(ve, out)`: the array left in `out`. `get_all` copies the entries
of this value into `v_array`, `v_array.insert(v_array.begin() + i, ve)` puts `ve` in front of
the entry at `i`, `set_elements` stores the result. -/
def MappingValue.add_copy (mv : MappingValue) (ve : ValueEntry) : MappingValue :=
  mv.insertIdx (add_copy_index mv ve) ve

/-- The entries of a value are ordered by sequence id descending. -/
def SeqDescending (mv : MappingValue) : Prop :=
  mv.Pairwise fun a b => a.seqId ≥ b.seqId

instance (mv : MappingValue) : Decidable (SeqDescending mv) := by
  unfold SeqDescending; infer_instance

/-- The entries of a value are ordered by sequence id ascending. -/
def SeqAscending (mv : MappingValue) : Prop :=
  mv.Pairwise fun a b => a.seqId ≤ b.seqId

instance (mv : MappingValue) : Decidable (SeqAscending mv) := by
  unfold SeqAscending; infer_instance

/-- A value entry of one LBA with the given sequence id. -/
def ve_seq_sample (seqId : Nat) : ValueEntry :=
  ValueEntry.make seqId ⟨seqId, 1, 0⟩ 0 1 [0]

/-- The value entry of a write of the 10 LBAs 0..9 with sequence id 5 on block id 1000. -/
def put_wide_entry_sample : ValueEntry :=
  ⟨5, ⟨1000, 10, 0⟩, 10, 0, [50, 51, 52, 53, 54, 55, 56, 57, 58, 59]⟩

/-- An existing entry over LBAs 5..9 with the higher sequence id 9, on block id 200. -/
def put_newer_tail_sample : MappingKey × MappingValue :=
  (⟨5, 5⟩, [⟨9, ⟨200, 5, 0⟩, 5, 0, [7, 7, 7, 7, 7]⟩])

/-! ## Checkpoint coordinator: the invariant of sequential runs -/

theorem RightAfter.append {tr : List CpEvent} {a b : CpEvent} (l : List CpEvent)
    (h : RightAfter tr a b) : RightAfter (tr ++ l) a b := by
  obtain ⟨pre, post, rfl⟩ := h
  exact ⟨pre, post ++ l, by simp⟩

theorem RightAfter.last (tr : List CpEvent) (a b : CpEvent) :
    RightAfter ((tr ++ [a]) ++ [b]) a b := ⟨tr, [], by simp⟩

theorem cpInv_init : CpInv CpSys.init where
  cur_lt := by decide
  fresh := by
    intro i hi
    have : i ≠ 0 := by simp [CpSys.init, CheckPoint.init] at hi; omega
    simp [CpSys.init, CheckPoint.init, this]
  cur_ready := ⟨_, rfl, rfl⟩
  cnt_eq := by
    intro i e h
    simp only [CpSys.init, CheckPoint.init] at h
    split at h
    · cases h; simp [CpSys.init]
    · cases h
  dead_unheld := by intro i _; simp [CpSys.init]
  others := by
    intro i e h hne
    simp only [CpSys.init, CheckPoint.init] at h hne
    split at h
    · exact absurd ‹i = 0› hne
    · cases h
  unique := by
    intro i j ei ej hi hj hni hnj
    simp only [CpSys.init, CheckPoint.init] at hi hni
    split at hi
    · exact absurd ‹i = 0› hni
    · cases hi
  tr_lt := by intro E h; simp [CpSys.init, CheckPoint.init] at h
  tr_pair := by simp [CpSys.init, CheckPoint.init]
  tr_started := by intro E h; simp [CpSys.init, CheckPoint.init] at h
  tr_count := by intro E; simp [CpSys.init, CheckPoint.init]
  tr_after := by intro E h; simp [CpSys.init, CheckPoint.init] at h
  tr_enter := by intro id st c h; simp [CpSys.init, CheckPoint.init] at h
  tr_prep := by
    intro i e h hne
    simp only [CpSys.init, CheckPoint.init] at h hne
    split at h
    · exact absurd ‹i = 0› hne
    · cases h

/-- Appending an event that is neither `cp_start`, `set_prepare` nor `io_enter` keeps the
history part of the invariant; stated for the pieces used below. -/
theorem pairwise_snoc {tr : List CpEvent} (h : tr.Pairwise NoEnterAfter) (ev : CpEvent)
    (hev : ∀ a ∈ tr, NoEnterAfter a ev) : (tr ++ [ev]).Pairwise NoEnterAfter := by
  rw [List.pairwise_append]
  refine ⟨h, by simp, ?_⟩
  intro a ha b hb
  simp at hb
  subst hb
  exact hev a ha

theorem cpInvC_enter {ids : Nat → Option cp_id_base} {n cur : Nat} {ph : Bool}
    {tr : List CpEvent} {held : List Nat} (h : CpInvC ids n cur ph tr held)
    {e : cp_id_base} (he : ids cur = some e) (hst : e.cp_state = cp_status_t.cp_io_ready) :
    CpInvC (Function.update ids cur (some { e with enter_cnt := e.enter_cnt + 1 })) n cur ph
      (tr ++ [CpEvent.io_enter cur e.cp_state (e.enter_cnt + 1)]) (cur :: held) where
  cur_lt := h.cur_lt
  fresh := by
    intro i hi
    have := h.cur_lt
    have hne : i ≠ cur := by omega
    simpa [Function.update_apply, hne] using h.fresh i hi
  cur_ready := ⟨{ e with enter_cnt := e.enter_cnt + 1 }, by simp, hst⟩
  cnt_eq := by
    intro i e' hi
    by_cases hc : i = cur
    · subst hc
      simp at hi
      subst hi
      simp [h.cnt_eq _ _ he]
    · simp [Function.update_apply, hc] at hi
      have := h.cnt_eq _ _ hi
      have hc' : ¬ cur = i := fun hh => hc hh.symm
      simp [List.count_cons, this, hc']
  dead_unheld := by
    intro i hi
    by_cases hc : i = cur
    · subst hc; simp at hi
    · simp [Function.update_apply, hc] at hi
      have := h.dead_unheld i hi
      intro hmem
      rcases List.mem_cons.1 hmem with h1 | h1
      · exact hc h1
      · exact this h1
  others := by
    intro i e' hi hne
    simp [Function.update_apply, hne] at hi
    exact h.others i e' hi hne
  unique := by
    intro i j ei ej hi hj hni hnj
    simp [Function.update_apply, hni] at hi
    simp [Function.update_apply, hnj] at hj
    exact h.unique i j ei ej hi hj hni hnj
  tr_lt := by
    intro E hE
    apply h.tr_lt E
    simpa using hE
  tr_pair := by
    apply pairwise_snoc h.tr_pair
    intro a ha E hE st c hbe
    cases hbe
    have := h.tr_lt _ (by rcases hE with rfl | rfl; exact Or.inl ha; exact Or.inr ha)
    omega
  tr_started := by
    intro E hE
    have hE' : CpEvent.cp_start E ∈ tr := by simpa using hE
    have hlt := h.tr_lt E (Or.inr hE')
    have hne : E ≠ cur := by omega
    simpa [Function.update_apply, hne] using h.tr_started E hE'
  tr_count := by
    intro E
    simp [List.count_append]
    exact h.tr_count E
  tr_after := by
    intro E hE
    have hE' : CpEvent.cp_start E ∈ tr := by simpa using hE
    exact (h.tr_after E hE').append _
  tr_enter := by
    intro id st c hE
    simp at hE
    rcases hE with h1 | ⟨_, rfl, _⟩
    · exact h.tr_enter _ _ _ h1
    · exact Or.inl hst
  tr_prep := by
    intro i e' hi hne
    simp [Function.update_apply, hne] at hi
    exact List.mem_append_left _ (h.tr_prep i e' hi hne)

theorem cpInv_enter {s : CpSys} (h : CpInv s) :
    ∃ cp1, s.cp.cp_io_enter = some (cp1, s.cp.m_cur_cp_id) ∧
      CpInv ⟨cp1, s.cp.m_cur_cp_id :: s.held⟩ ∧
      cp1.in_cp_phase = s.cp.in_cp_phase ∧ cp1.m_cur_cp_id = s.cp.m_cur_cp_id ∧
      (∀ i, cp1.ids i = none ↔ s.cp.ids i = none) ∧
      (∀ i, i ≠ s.cp.m_cur_cp_id → cp1.ids i = s.cp.ids i) := by
  obtain ⟨e, he, hst⟩ := h.cur_ready
  refine ⟨(s.cp.store s.cp.m_cur_cp_id (some { e with enter_cnt := e.enter_cnt + 1 })).emit
    (CpEvent.io_enter s.cp.m_cur_cp_id e.cp_state (e.enter_cnt + 1)),
    by simp [CheckPoint.cp_io_enter, he, hst], cpInvC_enter h he hst, rfl, rfl, ?_, ?_⟩
  · intro i
    simp only [CheckPoint.store, CheckPoint.emit, Function.update_apply]
    by_cases hc : i = s.cp.m_cur_cp_id
    · simp [hc, he]
    · simp [hc]
  · intro i hc
    simp [CheckPoint.store, CheckPoint.emit, Function.update_apply, hc]

theorem cpInvC_held_alive {ids : Nat → Option cp_id_base} {n cur : Nat} {ph : Bool}
    {tr : List CpEvent} {held : List Nat} (h : CpInvC ids n cur ph tr held)
    {id : Nat} (hid : id ∈ held) :
    ∃ e, ids id = some e ∧ 1 ≤ e.enter_cnt ∧ e.cp_state ≠ cp_status_t.cp_start ∧
      (id ≠ cur → e.cp_state = cp_status_t.cp_prepare ∧ ph = true ∧ id < cur) := by
  cases hi : ids id with
  | none => exact absurd hid (h.dead_unheld id hi)
  | some e =>
    have hc := h.cnt_eq id e hi
    have hpos : 0 < held.count id := List.count_pos_iff.2 hid
    have h1 : 1 ≤ e.enter_cnt := by omega
    refine ⟨e, rfl, h1, ?_, ?_⟩
    · intro hst
      by_cases hcur : id = cur
      · obtain ⟨e', he', hst'⟩ := h.cur_ready
        rw [← hcur, hi] at he'
        cases he'
        rw [hst] at hst'
        cases hst'
      · rcases (h.others id e hi hcur).2.2 with ⟨h2, _⟩ | ⟨_, h2⟩
        · rw [hst] at h2; cases h2
        · omega
    · intro hcur
      obtain ⟨hph, hlt, h2⟩ := h.others id e hi hcur
      rcases h2 with ⟨h2, _⟩ | ⟨_, h2⟩
      · exact ⟨h2, hph, hlt⟩
      · omega

theorem cpInvC_exit_plain {ids : Nat → Option cp_id_base} {n cur : Nat} {ph : Bool}
    {tr : List CpEvent} {held : List Nat} (h : CpInvC ids n cur ph tr held)
    {id : Nat} (hid : id ∈ held) {e : cp_id_base} (he : ids id = some e)
    (hno : ¬ (e.enter_cnt = 1 ∧ e.cp_state = cp_status_t.cp_prepare)) :
    CpInvC (Function.update ids id (some { e with enter_cnt := e.enter_cnt - 1 })) n cur ph
      (tr ++ [CpEvent.io_exit id e.enter_cnt e.cp_state]) (held.erase id) := by
  obtain ⟨e0, he0, h1, hns, hoth⟩ := cpInvC_held_alive h hid
  rw [he] at he0
  cases he0
  have hcnt := h.cnt_eq id e he
  constructor
  · exact h.cur_lt
  · intro i hi
    have hne : i ≠ id := by
      intro hh; subst hh
      rw [h.fresh i hi] at he; cases he
    simpa [Function.update_apply, hne] using h.fresh i hi
  · obtain ⟨ec, hec, hstc⟩ := h.cur_ready
    by_cases hc : cur = id
    · subst hc
      rw [he] at hec; cases hec
      exact ⟨{ e with enter_cnt := e.enter_cnt - 1 }, by simp, hstc⟩
    · exact ⟨ec, by simp [Function.update_apply, hc, hec], hstc⟩
  · intro i e' hi
    by_cases hc : i = id
    · subst hc
      simp at hi
      subst hi
      simp [List.count_erase_self]
      have hpos : 0 < held.count i := List.count_pos_iff.2 hid
      omega
    · simp [Function.update_apply, hc] at hi
      have := h.cnt_eq _ _ hi
      rw [List.count_erase_of_ne hc]
      exact this
  · intro i hi
    by_cases hc : i = id
    · subst hc; simp at hi
    · simp [Function.update_apply, hc] at hi
      exact fun hm => h.dead_unheld i hi (List.mem_of_mem_erase hm)
  · intro i e' hi hne
    by_cases hc : i = id
    · subst hc
      simp at hi
      subst hi
      obtain ⟨hp, hph, hlt⟩ := hoth hne
      refine ⟨hph, hlt, Or.inl ⟨hp, ?_⟩⟩
      have : e.enter_cnt ≠ 1 := fun hh => hno ⟨hh, hp⟩
      show 0 < e.enter_cnt - 1
      omega
    · simp [Function.update_apply, hc] at hi
      exact h.others i e' hi hne
  · intro i j ei ej hi hj hni hnj
    have hi' : ∃ x, ids i = some x := by
      by_cases hc : i = id
      · subst hc; exact ⟨e, he⟩
      · simp [Function.update_apply, hc] at hi; exact ⟨ei, hi⟩
    have hj' : ∃ x, ids j = some x := by
      by_cases hc : j = id
      · subst hc; exact ⟨e, he⟩
      · simp [Function.update_apply, hc] at hj; exact ⟨ej, hj⟩
    obtain ⟨x, hx⟩ := hi'
    obtain ⟨y, hy⟩ := hj'
    exact h.unique i j x y hx hy hni hnj
  · intro E hE
    apply h.tr_lt E
    simpa using hE
  · apply pairwise_snoc h.tr_pair
    intro a ha E hE st c hbe
    cases hbe
  · intro E hE
    have hE' : CpEvent.cp_start E ∈ tr := by simpa using hE
    have hne : E ≠ id := by
      intro hh; subst hh
      rcases h.tr_started E hE' with h2 | ⟨x, hx, hxs⟩
      · rw [h2] at he; cases he
      · rw [he] at hx; cases hx; exact hns hxs
    simpa [Function.update_apply, hne] using h.tr_started E hE'
  · intro E
    simp [List.count_append]
    exact h.tr_count E
  · intro E hE
    have hE' : CpEvent.cp_start E ∈ tr := by simpa using hE
    exact (h.tr_after E hE').append _
  · intro id' st c hE
    simp at hE
    exact h.tr_enter _ _ _ hE
  · intro i x hi hne
    have hi' : ∃ y, ids i = some y := by
      by_cases hc : i = id
      · subst hc; exact ⟨e, he⟩
      · simp [Function.update_apply, hc] at hi; exact ⟨x, hi⟩
    obtain ⟨y, hy⟩ := hi'
    exact List.mem_append_left _ (h.tr_prep i y hy hne)

theorem cpInvC_exit_start {ids : Nat → Option cp_id_base} {n cur : Nat} {ph : Bool}
    {tr : List CpEvent} {held : List Nat} (h : CpInvC ids n cur ph tr held)
    {id : Nat} (hid : id ∈ held) {e : cp_id_base} (he : ids id = some e)
    (h1 : e.enter_cnt = 1) (hp : e.cp_state = cp_status_t.cp_prepare) :
    CpInvC (Function.update ids id
        (some { e with enter_cnt := e.enter_cnt - 1, cp_state := cp_status_t.cp_start }))
      n cur ph
      ((tr ++ [CpEvent.io_exit id 1 cp_status_t.cp_prepare]) ++ [CpEvent.cp_start id])
      (held.erase id) := by
  have hcnt := h.cnt_eq id e he
  have hcur : id ≠ cur := by
    intro hh
    obtain ⟨ec, hec, hstc⟩ := h.cur_ready
    rw [← hh, he] at hec
    cases hec
    rw [hp] at hstc
    cases hstc
  obtain ⟨hph, hlt, _⟩ := h.others id e he hcur
  have hnotin : CpEvent.cp_start id ∉ tr := by
    intro hE
    rcases h.tr_started id hE with h2 | ⟨x, hx, hxs⟩
    · rw [h2] at he; cases he
    · rw [he] at hx; cases hx; rw [hp] at hxs; cases hxs
  constructor
  · exact h.cur_lt
  · intro i hi
    have hne : i ≠ id := by
      intro hh; subst hh
      rw [h.fresh i hi] at he; cases he
    simpa [Function.update_apply, hne] using h.fresh i hi
  · obtain ⟨ec, hec, hstc⟩ := h.cur_ready
    exact ⟨ec, by simp [Function.update_apply, Ne.symm hcur, hec], hstc⟩
  · intro i e' hi
    by_cases hc : i = id
    · subst hc
      simp at hi
      subst hi
      simp [List.count_erase_self]
      omega
    · simp [Function.update_apply, hc] at hi
      have := h.cnt_eq _ _ hi
      rw [List.count_erase_of_ne hc]
      exact this
  · intro i hi
    by_cases hc : i = id
    · subst hc; simp at hi
    · simp [Function.update_apply, hc] at hi
      exact fun hm => h.dead_unheld i hi (List.mem_of_mem_erase hm)
  · intro i e' hi hne
    by_cases hc : i = id
    · subst hc
      simp at hi
      subst hi
      exact ⟨hph, hlt, Or.inr ⟨rfl, by show e.enter_cnt - 1 = 0; omega⟩⟩
    · simp [Function.update_apply, hc] at hi
      exact h.others i e' hi hne
  · intro i j ei ej hi hj hni hnj
    have hi' : ∃ x, ids i = some x := by
      by_cases hc : i = id
      · subst hc; exact ⟨e, he⟩
      · simp [Function.update_apply, hc] at hi; exact ⟨ei, hi⟩
    have hj' : ∃ x, ids j = some x := by
      by_cases hc : j = id
      · subst hc; exact ⟨e, he⟩
      · simp [Function.update_apply, hc] at hj; exact ⟨ej, hj⟩
    obtain ⟨x, hx⟩ := hi'
    obtain ⟨y, hy⟩ := hj'
    exact h.unique i j x y hx hy hni hnj
  · intro E hE
    simp at hE
    rcases hE with hE | hE | hE
    · exact h.tr_lt E (Or.inl hE)
    · exact h.tr_lt E (Or.inr hE)
    · subst hE; exact hlt
  · apply pairwise_snoc
    · apply pairwise_snoc h.tr_pair
      intro a ha E hE st c hbe
      cases hbe
    · intro a ha E hE st c hbe
      cases hbe
  · intro E hE
    by_cases hc : E = id
    · subst hc
      right
      exact ⟨{ e with enter_cnt := e.enter_cnt - 1, cp_state := cp_status_t.cp_start },
        by simp, rfl⟩
    · have hE' : CpEvent.cp_start E ∈ tr := by simpa [hc] using hE
      simpa [Function.update_apply, hc] using h.tr_started E hE'
  · intro E
    by_cases hc : E = id
    · subst hc
      simp [List.count_append, List.count_eq_zero_of_not_mem hnotin]
    · have h0 : List.count (CpEvent.cp_start E) [CpEvent.io_exit id 1 cp_status_t.cp_prepare] = 0 :=
        List.count_eq_zero_of_not_mem (by simp)
      have h2 : List.count (CpEvent.cp_start E) [CpEvent.cp_start id] = 0 :=
        List.count_eq_zero_of_not_mem (by simp [hc])
      rw [List.count_append, List.count_append, h0, h2]
      exact h.tr_count E
  · intro E hE
    by_cases hc : E = id
    · subst hc
      exact RightAfter.last _ _ _
    · have hE' : CpEvent.cp_start E ∈ tr := by simpa [hc] using hE
      have := ((h.tr_after E hE').append [CpEvent.io_exit id 1 cp_status_t.cp_prepare]).append
        [CpEvent.cp_start id]
      exact this
  · intro id' st c hE
    simp at hE
    exact h.tr_enter _ _ _ hE
  · intro i x hi hne
    have hi' : ∃ y, ids i = some y := by
      by_cases hc : i = id
      · subst hc; exact ⟨e, he⟩
      · simp [Function.update_apply, hc] at hi; exact ⟨x, hi⟩
    obtain ⟨y, hy⟩ := hi'
    exact List.mem_append_left _ (List.mem_append_left _ (h.tr_prep i y hy hne))

theorem cpInv_exit {s : CpSys} (h : CpInv s) {id : Nat} (hid : id ∈ s.held) :
    ∃ cp1, s.cp.cp_io_exit id = some cp1 ∧ CpInv ⟨cp1, s.held.erase id⟩ ∧
      cp1.in_cp_phase = s.cp.in_cp_phase ∧ cp1.m_cur_cp_id = s.cp.m_cur_cp_id := by
  obtain ⟨e, he, h1, hns, _⟩ := cpInvC_held_alive h hid
  by_cases hc : e.enter_cnt = 1 ∧ e.cp_state = cp_status_t.cp_prepare
  · refine ⟨(((s.cp.store id (some { e with enter_cnt := e.enter_cnt - 1 })).emit
      (CpEvent.io_exit id e.enter_cnt e.cp_state)).store id
        (some { e with enter_cnt := e.enter_cnt - 1, cp_state := cp_status_t.cp_start })).emit
          (CpEvent.cp_start id), by simp [CheckPoint.cp_io_exit, he, hns, hc], ?_, rfl, rfl⟩
    have := cpInvC_exit_start h hid he hc.1 hc.2
    simpa [CpInv, CheckPoint.store, CheckPoint.emit, hc.1, hc.2] using this
  · refine ⟨(s.cp.store id (some { e with enter_cnt := e.enter_cnt - 1 })).emit
      (CpEvent.io_exit id e.enter_cnt e.cp_state),
      by simp [CheckPoint.cp_io_exit, he, hns, hc], ?_, rfl, rfl⟩
    exact cpInvC_exit_plain h hid he hc

theorem cpInvC_attach {ids : Nat → Option cp_id_base} {n cur : Nat}
    {tr : List CpEvent} {held : List Nat} (h : CpInvC ids n cur true tr held)
    (hno : ∀ i, ids i ≠ none → i = cur) (hheld : cur ∈ held)
    {e : cp_id_base} (he : ids cur = some e) :
    CpInvC
      (Function.update (Function.update (Function.update (Function.update ids cur
        (some { e with cp_state := cp_status_t.cp_trigger })) n
        (some ⟨cp_status_t.cp_init, 0, false⟩)) n
        (some ⟨cp_status_t.cp_io_ready, 0, false⟩)) cur
        (some { e with cp_state := cp_status_t.cp_prepare }))
      (n + 1) n true
      ((tr ++ [CpEvent.attach_prepare cur n]) ++ [CpEvent.set_prepare cur]) held := by
  have hlt := h.cur_lt
  have hne : cur ≠ n := by omega
  have hids : ∀ i, (Function.update (Function.update (Function.update (Function.update ids cur
        (some { e with cp_state := cp_status_t.cp_trigger })) n
        (some ⟨cp_status_t.cp_init, 0, false⟩)) n
        (some ⟨cp_status_t.cp_io_ready, 0, false⟩)) cur
        (some { e with cp_state := cp_status_t.cp_prepare })) i =
      if i = cur then some { e with cp_state := cp_status_t.cp_prepare }
      else if i = n then some ⟨cp_status_t.cp_io_ready, 0, false⟩ else ids i := by
    intro i
    simp only [Function.update_apply]
    split_ifs <;> rfl
  have hn_none : ids n = none := h.fresh n (le_refl n)
  have hn_held : n ∉ held := h.dead_unheld n hn_none
  have hcnt := h.cnt_eq cur e he
  have hpos : 0 < held.count cur := List.count_pos_iff.2 hheld
  constructor
  · omega
  · intro i hi
    rw [hids]
    have h1 : i ≠ cur := by omega
    have h2 : i ≠ n := by omega
    simp [h1, h2]
    exact h.fresh i (by omega)
  · exact ⟨⟨cp_status_t.cp_io_ready, 0, false⟩, by rw [hids]; simp [Ne.symm hne], rfl⟩
  · intro i e' hi
    rw [hids] at hi
    by_cases h1 : i = cur
    · simp [h1] at hi
      subst hi
      subst h1
      exact hcnt
    · by_cases h2 : i = n
      · simp [h1, h2] at hi
        rw [if_neg (Ne.symm hne)] at hi
        cases hi
        subst h2
        simp [List.count_eq_zero_of_not_mem hn_held]
      · simp [h1, h2] at hi
        exact h.cnt_eq i e' hi
  · intro i hi
    rw [hids] at hi
    by_cases h1 : i = cur
    · simp [h1] at hi
    · by_cases h2 : i = n
      · simp [h1, h2] at hi
        rw [if_neg (Ne.symm hne)] at hi
        cases hi
      · simp [h1, h2] at hi
        exact h.dead_unheld i hi
  · intro i e' hi hin
    rw [hids] at hi
    by_cases h1 : i = cur
    · simp [h1] at hi
      subst hi
      subst h1
      exact ⟨rfl, hlt, Or.inl ⟨rfl, by show 0 < e.enter_cnt; omega⟩⟩
    · simp [h1, hin] at hi
      exact absurd (hno i (by rw [hi]; simp)) h1
  · intro i j ei ej hi hj hni hnj
    rw [hids] at hi hj
    have hi' : i = cur := by
      by_contra h1
      simp [h1, hni] at hi
      exact h1 (hno i (by rw [hi]; simp))
    have hj' : j = cur := by
      by_contra h1
      simp [h1, hnj] at hj
      exact h1 (hno j (by rw [hj]; simp))
    rw [hi', hj']
  · intro E hE
    simp at hE
    rcases hE with (hE | hE) | hE
    · have := h.tr_lt E (Or.inl hE); omega
    · subst hE; exact hlt
    · have := h.tr_lt E (Or.inr hE); omega
  · apply pairwise_snoc
    · apply pairwise_snoc h.tr_pair
      intro a ha E hE st c hbe
      cases hbe
    · intro a ha E hE st c hbe
      cases hbe
  · intro E hE
    have hE' : CpEvent.cp_start E ∈ tr := by simpa using hE
    have := h.tr_lt E (Or.inr hE')
    have h1 : E ≠ cur := by omega
    have h2 : E ≠ n := by omega
    rw [hids]
    simpa [h1, h2] using h.tr_started E hE'
  · intro E
    have h0 : List.count (CpEvent.cp_start E) [CpEvent.attach_prepare cur n] = 0 :=
      List.count_eq_zero_of_not_mem (by simp)
    have h2 : List.count (CpEvent.cp_start E) [CpEvent.set_prepare cur] = 0 :=
      List.count_eq_zero_of_not_mem (by simp)
    rw [List.count_append, List.count_append, h0, h2]
    exact h.tr_count E
  · intro E hE
    have hE' : CpEvent.cp_start E ∈ tr := by simpa using hE
    exact ((h.tr_after E hE').append _).append _
  · intro id' st c hE
    simp at hE
    exact h.tr_enter _ _ _ hE
  · intro i x hi hne'
    rw [hids] at hi
    by_cases h1 : i = cur
    · subst h1; simp
    · simp [h1, hne'] at hi
      exact absurd (hno i (by rw [hi]; simp)) h1

theorem cpInv_attach {s : CpSys} (h : CpInv s) (hno : NoOther s.cp)
    (hheld : s.cp.m_cur_cp_id ∈ s.held) (hph : s.cp.in_cp_phase = true) :
    ∃ cp1, s.cp.attach_new s.cp.m_cur_cp_id = some cp1 ∧ CpInv ⟨cp1, s.held⟩ ∧
      cp1.in_cp_phase = true := by
  obtain ⟨e, he, _⟩ := h.cur_ready
  unfold CpInv at h
  rw [hph] at h
  have := cpInvC_attach h hno hheld he
  simp only [CheckPoint.attach_new, he]
  refine ⟨_, rfl, ?_, hph⟩
  unfold CpInv
  simpa [CheckPoint.store, CheckPoint.emit, hph] using this

theorem cpInvC_set_phase {ids : Nat → Option cp_id_base} {n cur : Nat} {ph : Bool}
    {tr : List CpEvent} {held : List Nat} (h : CpInvC ids n cur ph tr held) :
    CpInvC ids n cur true tr held :=
  { h with others := fun i e hi hne => ⟨rfl, (h.others i e hi hne).2⟩ }

theorem cpInvC_noOther {ids : Nat → Option cp_id_base} {n cur : Nat}
    {tr : List CpEvent} {held : List Nat} (h : CpInvC ids n cur false tr held) :
    ∀ i, ids i ≠ none → i = cur := by
  intro i hi
  by_contra hne
  cases hx : ids i with
  | none => exact hi hx
  | some e => exact absurd (h.others i e hx hne).1 (by simp)

theorem cpInv_trigger {s : CpSys} (h : CpInv s) :
    ∃ cp1, s.cp.trigger_cp = some cp1 ∧ CpInv ⟨cp1, s.held⟩ ∧ cp1.in_cp_phase = true := by
  cases hph : s.cp.in_cp_phase with
  | true => exact ⟨s.cp, by simp [CheckPoint.trigger_cp, hph], h, hph⟩
  | false =>
    have hno : ∀ i, s.cp.ids i ≠ none → i = s.cp.m_cur_cp_id := by
      unfold CpInv at h
      rw [hph] at h
      exact cpInvC_noOther h
    have h1 : CpInv ⟨{ s.cp with in_cp_phase := true }, s.held⟩ := cpInvC_set_phase h
    obtain ⟨cp1, hcp1, hinv1, hph1, hcur1, halive1, _⟩ := cpInv_enter h1
    have hno1 : NoOther cp1 := by
      intro i hi
      rw [hcur1]
      exact hno i (fun hx => hi ((halive1 i).2 hx))
    have hheld1 : cp1.m_cur_cp_id ∈ (⟨cp1, s.cp.m_cur_cp_id :: s.held⟩ : CpSys).held := by
      rw [hcur1]; exact List.mem_cons_self _ _
    obtain ⟨cp2, hcp2, hinv2, hph2⟩ := cpInv_attach hinv1 hno1 hheld1 hph1
    have hheld2 : s.cp.m_cur_cp_id ∈ (⟨cp2, s.cp.m_cur_cp_id :: s.held⟩ : CpSys).held :=
      List.mem_cons_self _ _
    obtain ⟨cp3, hcp3, hinv3, hph3, _⟩ := cpInv_exit hinv2 hheld2
    refine ⟨cp3, ?_, ?_, by rw [hph3]; exact hph2⟩
    · simp only [CheckPoint.trigger_cp, hph]
      simp only [Bool.false_eq_true, if_false]
      have hcp1' : ({ s.cp with in_cp_phase := true } : CheckPoint).cp_io_enter =
          some (cp1, s.cp.m_cur_cp_id) := hcp1
      rw [hcp1']
      have hcp2' : cp1.attach_new s.cp.m_cur_cp_id = some cp2 := by
        rw [← hcur1]; exact hcp2
      simp only [hcp2']
      exact hcp3
    · simpa using hinv3

theorem cpInvC_congr {ids ids1 : Nat → Option cp_id_base} {n cur : Nat} {ph : Bool}
    {tr : List CpEvent} {held : List Nat} (h : CpInvC ids n cur ph tr held)
    (hsame : ∀ i, (ids1 i).map (fun e => (e.cp_state, e.enter_cnt)) =
      (ids i).map (fun e => (e.cp_state, e.enter_cnt))) :
    CpInvC ids1 n cur ph tr held := by
  have hnone : ∀ i, ids1 i = none ↔ ids i = none := by
    intro i
    have := hsame i
    cases h1 : ids1 i <;> cases h2 : ids i <;> simp [h1, h2] at this ⊢
  have hsome : ∀ i e1, ids1 i = some e1 →
      ∃ e, ids i = some e ∧ e.cp_state = e1.cp_state ∧ e.enter_cnt = e1.enter_cnt := by
    intro i e1 hi
    have := hsame i
    cases h2 : ids i with
    | none => simp [hi, h2] at this
    | some e =>
      simp [hi, h2] at this
      exact ⟨e, rfl, this.1.symm, this.2.symm⟩
  have hsome' : ∀ i e, ids i = some e →
      ∃ e1, ids1 i = some e1 ∧ e.cp_state = e1.cp_state ∧ e.enter_cnt = e1.enter_cnt := by
    intro i e hi
    have := hsame i
    cases h2 : ids1 i with
    | none => simp [hi, h2] at this
    | some e1 =>
      simp [hi, h2] at this
      exact ⟨e1, rfl, this.1.symm, this.2.symm⟩
  constructor
  · exact h.cur_lt
  · intro i hi; exact (hnone i).2 (h.fresh i hi)
  · obtain ⟨e, he, hst⟩ := h.cur_ready
    obtain ⟨e1, he1, h1, _⟩ := hsome' _ _ he
    exact ⟨e1, he1, by rw [← h1]; exact hst⟩
  · intro i e1 hi
    obtain ⟨e, he, _, h2⟩ := hsome i e1 hi
    rw [← h2]; exact h.cnt_eq i e he
  · intro i hi; exact h.dead_unheld i ((hnone i).1 hi)
  · intro i e1 hi hne
    obtain ⟨e, he, h1, h2⟩ := hsome i e1 hi
    rw [← h1, ← h2]; exact h.others i e he hne
  · intro i j ei ej hi hj hni hnj
    obtain ⟨x, hx, _⟩ := hsome i ei hi
    obtain ⟨y, hy, _⟩ := hsome j ej hj
    exact h.unique i j x y hx hy hni hnj
  · exact h.tr_lt
  · exact h.tr_pair
  · intro E hE
    rcases h.tr_started E hE with h1 | ⟨e, he, hst⟩
    · exact Or.inl ((hnone E).2 h1)
    · obtain ⟨e1, he1, h1, _⟩ := hsome' _ _ he
      exact Or.inr ⟨e1, he1, by rw [← h1]; exact hst⟩
  · exact h.tr_count
  · exact h.tr_after
  · exact h.tr_enter
  · intro i e1 hi hne
    obtain ⟨e, he, _⟩ := hsome i e1 hi
    exact h.tr_prep i e he hne

theorem cpInvC_delete {ids : Nat → Option cp_id_base} {n cur : Nat} {ph : Bool}
    {tr : List CpEvent} {held : List Nat} (h : CpInvC ids n cur ph tr held)
    {id : Nat} {e : cp_id_base} (he : ids id = some e) (hst : e.cp_state = cp_status_t.cp_start) :
    CpInvC (Function.update ids id none) n cur false tr held := by
  have hcur : id ≠ cur := by
    intro hh
    obtain ⟨ec, hec, hstc⟩ := h.cur_ready
    rw [← hh, he] at hec
    cases hec
    rw [hst] at hstc
    cases hstc
  have hcnt0 : e.enter_cnt = 0 := by
    rcases (h.others id e he hcur).2.2 with ⟨h2, _⟩ | ⟨_, h2⟩
    · rw [hst] at h2; cases h2
    · exact h2
  have hold : ∀ i x, Function.update ids id none i = some x → i ≠ id ∧ ids i = some x := by
    intro i x hi
    by_cases hc : i = id
    · subst hc; simp at hi
    · simp [Function.update_apply, hc] at hi; exact ⟨hc, hi⟩
  constructor
  · exact h.cur_lt
  · intro i hi
    by_cases hc : i = id
    · subst hc; simp
    · simpa [Function.update_apply, hc] using h.fresh i hi
  · obtain ⟨ec, hec, hstc⟩ := h.cur_ready
    exact ⟨ec, by simp [Function.update_apply, Ne.symm hcur, hec], hstc⟩
  · intro i x hi
    exact h.cnt_eq i x (hold i x hi).2
  · intro i hi
    by_cases hc : i = id
    · subst hc
      have := h.cnt_eq i e he
      intro hm
      have hpos : 0 < held.count i := List.count_pos_iff.2 hm
      omega
    · simp [Function.update_apply, hc] at hi
      exact h.dead_unheld i hi
  · intro i x hi hne
    obtain ⟨hc, hi'⟩ := hold i x hi
    exact absurd (h.unique i id x e hi' he hne hcur) hc
  · intro i j ei ej hi hj hni hnj
    obtain ⟨hc, hi'⟩ := hold i ei hi
    exact absurd (h.unique i id ei e hi' he hni hcur) hc
  · exact h.tr_lt
  · exact h.tr_pair
  · intro E hE
    by_cases hc : E = id
    · subst hc; left; simp
    · simpa [Function.update_apply, hc] using h.tr_started E hE
  · exact h.tr_count
  · exact h.tr_after
  · exact h.tr_enter
  · intro i x hi hne
    exact h.tr_prep i x (hold i x hi).2 hne

theorem cpInv_trigger_id {s : CpSys} (h : CpInv s) {id : Nat} (hid : id ∈ s.held) :
    ∃ cp1, s.cp.trigger_cp_id id = some cp1 ∧ CpInv ⟨cp1, s.held⟩ := by
  obtain ⟨e, he, _, hns, _⟩ := cpInvC_held_alive h hid
  have h1 : CpInv ⟨s.cp.store id (some { e with cp_trigger_waiting := true }), s.held⟩ := by
    apply cpInvC_congr h
    intro i
    simp only [CheckPoint.store, Function.update_apply]
    by_cases hc : i = id
    · subst hc; simp [he]
    · simp [hc]
  obtain ⟨cp1, hcp1, hinv1, _⟩ := cpInv_trigger h1
  exact ⟨cp1, by simp [CheckPoint.trigger_cp_id, he, hns]; exact hcp1, hinv1⟩

theorem cpInv_end {s : CpSys} (h : CpInv s) {id : Nat} {e : cp_id_base}
    (hph : s.cp.in_cp_phase = true) (he : s.cp.ids id = some e)
    (hst : e.cp_state = cp_status_t.cp_start) :
    ∃ cp1, s.cp.cp_end id = some cp1 ∧ CpInv ⟨cp1, s.held⟩ := by
  have h0 : CpInv ⟨({ s.cp with in_cp_phase := false } : CheckPoint).store id none, s.held⟩ :=
    cpInvC_delete h he hst
  obtain ⟨cp1, hcp1, hinv1, _, hcur1, _, _⟩ := cpInv_enter h0
  have hcur0 : (({ s.cp with in_cp_phase := false } : CheckPoint).store id none).m_cur_cp_id =
      s.cp.m_cur_cp_id := rfl
  rw [hcur0] at hcp1 hinv1 hcur1
  obtain ⟨ce, hce, _⟩ := hinv1.cur_ready
  have hce' : cp1.ids s.cp.m_cur_cp_id = some ce := by rw [← hcur1]; exact hce
  have hmem : s.cp.m_cur_cp_id ∈ s.cp.m_cur_cp_id :: s.held := List.mem_cons_self _ _
  have hfin : ∀ cp2, CpInv ⟨cp2, s.cp.m_cur_cp_id :: s.held⟩ →
      ∃ cp3, cp2.cp_io_exit s.cp.m_cur_cp_id = some cp3 ∧ CpInv ⟨cp3, s.held⟩ := by
    intro cp2 hinv2
    obtain ⟨cp3, hcp3, hinv3, _⟩ := cpInv_exit hinv2 hmem
    exact ⟨cp3, hcp3, by simpa using hinv3⟩
  simp only [CheckPoint.cp_end, hph, he, hst, hcp1, hce']
  cases hw : ce.cp_trigger_waiting with
  | false =>
    obtain ⟨cp3, hcp3, hinv3⟩ := hfin cp1 hinv1
    exact ⟨cp3, by simp [hcp3], hinv3⟩
  | true =>
    obtain ⟨cp2, hcp2, hinv2, _⟩ := cpInv_trigger hinv1
    obtain ⟨cp3, hcp3, hinv3⟩ := hfin cp2 hinv2
    have hcp2' : cp1.trigger_cp = some cp2 := hcp2
    exact ⟨cp3, by simp [hcp2', hcp3], hinv3⟩

theorem cpInv_step {s s1 : CpSys} (h : CpInv s) {op : CpOp} (hs : s.step op = some s1) :
    CpInv s1 := by
  cases op with
  | io_enter =>
    obtain ⟨cp1, hcp1, hinv, _⟩ := cpInv_enter h
    simp only [CpSys.step, hcp1] at hs
    cases hs
    exact hinv
  | io_exit id =>
    by_cases hid : id ∈ s.held
    · obtain ⟨cp1, hcp1, hinv, _⟩ := cpInv_exit h hid
      simp only [CpSys.step, hid, if_true, hcp1] at hs
      cases hs
      exact hinv
    · simp [CpSys.step, hid] at hs
  | trigger =>
    obtain ⟨cp1, hcp1, hinv, _⟩ := cpInv_trigger h
    simp only [CpSys.step, hcp1] at hs
    cases hs
    exact hinv
  | trigger_id id =>
    by_cases hid : id ∈ s.held
    · obtain ⟨cp1, hcp1, hinv⟩ := cpInv_trigger_id h hid
      simp only [CpSys.step, hid, if_true, hcp1] at hs
      cases hs
      exact hinv
    · simp [CpSys.step, hid] at hs
  | cp_end id =>
    cases hph : s.cp.in_cp_phase with
    | false => simp [CpSys.step, CheckPoint.cp_end, hph] at hs
    | true =>
      cases he : s.cp.ids id with
      | none => simp [CpSys.step, CheckPoint.cp_end, hph, he] at hs
      | some e =>
        by_cases hst : e.cp_state = cp_status_t.cp_start
        · obtain ⟨cp1, hcp1, hinv⟩ := cpInv_end h hph he hst
          simp only [CpSys.step, hcp1] at hs
          cases hs
          exact hinv
        · simp [CpSys.step, CheckPoint.cp_end, hph, he, hst] at hs

theorem cpInv_run {ops : List CpOp} : ∀ {s s1 : CpSys}, CpInv s → s.run ops = some s1 → CpInv s1 := by
  induction ops with
  | nil =>
    intro s s1 h hr
    simp only [CpSys.run] at hr
    cases hr
    exact h
  | cons op ops ih =>
    intro s s1 h hr
    simp only [CpSys.run] at hr
    cases hs : s.step op with
    | none => simp [hs] at hr
    | some s2 =>
      simp only [hs] at hr
      exact ih (cpInv_step h hs) hr

theorem cpInv_reachable {ops : List CpOp} {s : CpSys} (h : CpSys.init.run ops = some s) :
    CpInv s := cpInv_run cpInv_init h

/-- C1. In every sequential run of `cp_io_enter`, `cp_io_exit`, `trigger_cp` and `cp_end` in which
each `cp_io_exit(E)` gives back a reference taken before, and for every checkpoint id `E`:
the callback `cp_start(E)` is invoked at most once; when it was invoked, its invocation comes
right after a `cp_io_exit(E)` that fetched the counter value 1 while `E` was in `cp_prepare`,
and `E` is in `cp_start` from then on until it is deleted. The last part states the step
itself: a `cp_io_exit(E)` that returns either found counter 1 and state `cp_prepare`, moved
`E` to `cp_start` with counter 0 and invoked `cp_start(E)`, or it invoked nothing. -/
theorem cp_start_only_on_last_exit (ops : List CpOp) (s : CpSys)
    (h : CpSys.init.run ops = some s) (E : Nat) :
    s.cp.trace.count (CpEvent.cp_start E) ≤ 1 ∧
    (CpEvent.cp_start E ∈ s.cp.trace →
      RightAfter s.cp.trace (CpEvent.io_exit E 1 cp_status_t.cp_prepare) (CpEvent.cp_start E) ∧
      (s.cp.ids E = none ∨ s.cp.state_of E = some cp_status_t.cp_start)) ∧
    (∀ (cp cp1 : CheckPoint), cp.cp_io_exit E = some cp1 →
      ∃ e, cp.ids E = some e ∧
        ((e.enter_cnt = 1 ∧ e.cp_state = cp_status_t.cp_prepare ∧
            cp1.trace = cp.trace ++
              [CpEvent.io_exit E 1 cp_status_t.cp_prepare, CpEvent.cp_start E] ∧
            cp1.ids E = some { e with enter_cnt := 0, cp_state := cp_status_t.cp_start }) ∨
         (¬ (e.enter_cnt = 1 ∧ e.cp_state = cp_status_t.cp_prepare) ∧
            cp1.trace = cp.trace ++ [CpEvent.io_exit E e.enter_cnt e.cp_state]))) := by
  have hinv := cpInv_reachable h
  refine ⟨hinv.tr_count E, ?_, ?_⟩
  · intro hE
    refine ⟨hinv.tr_after E hE, ?_⟩
    rcases hinv.tr_started E hE with h1 | ⟨e, he, hst⟩
    · exact Or.inl h1
    · exact Or.inr (by simp [CheckPoint.state_of, he, hst])
  · intro cp cp1 hx
    cases he : cp.ids E with
    | none => simp [CheckPoint.cp_io_exit, he] at hx
    | some e =>
      refine ⟨e, rfl, ?_⟩
      by_cases hst : e.cp_state = cp_status_t.cp_start
      · simp [CheckPoint.cp_io_exit, he, hst] at hx
      · by_cases hc : e.enter_cnt = 1 ∧ e.cp_state = cp_status_t.cp_prepare
        · left
          simp only [CheckPoint.cp_io_exit, he, hst, if_false, hc, and_self, if_true] at hx
          cases hx
          refine ⟨hc.1, hc.2, ?_, ?_⟩
          · simp [CheckPoint.store, CheckPoint.emit, hc.1, hc.2]
          · simp [CheckPoint.store, CheckPoint.emit, hc.1]
        · right
          simp only [CheckPoint.cp_io_exit, he, hst, if_false, hc] at hx
          cases hx
          exact ⟨hc, by simp [CheckPoint.store, CheckPoint.emit]⟩

theorem cp_start_only_on_last_exit_witness :
    CpSys.init.run cp_sample_ops = some cp_sample_sys ∧
    cp_sample_sys.cp.trace.count (CpEvent.cp_start 0) ≤ 1 ∧
    CpEvent.cp_start 0 ∈ cp_sample_sys.cp.trace ∧
    RightAfter cp_sample_sys.cp.trace (CpEvent.io_exit 0 1 cp_status_t.cp_prepare)
      (CpEvent.cp_start 0) :=
  have key := cp_start_only_on_last_exit cp_sample_ops cp_sample_sys rfl 0
  have hmem : CpEvent.cp_start 0 ∈ cp_sample_sys.cp.trace := by decide
  ⟨rfl, key.1, hmem, (key.2.1 hmem).1⟩

theorem cpInvC_flushing_ne_cur {ids : Nat → Option cp_id_base} {n cur : Nat} {ph : Bool}
    {tr : List CpEvent} {held : List Nat} (h : CpInvC ids n cur ph tr held) {i : Nat}
    (hi : (ids i).map (fun e => e.cp_state) = some cp_status_t.cp_prepare ∨
      (ids i).map (fun e => e.cp_state) = some cp_status_t.cp_start) :
    i ≠ cur ∧ ∃ e, ids i = some e := by
  obtain ⟨ec, hec, hstc⟩ := h.cur_ready
  cases hx : ids i with
  | none => simp [hx] at hi
  | some e =>
    refine ⟨?_, e, rfl⟩
    intro hh
    subst hh
    rw [hx] at hec
    cases hec
    simp [hx, hstc] at hi

/-- C2. In every state reachable by sequential `cp_io_enter` / `cp_io_exit` / `trigger_cp` /
`cp_end` steps at most one checkpoint id is in state `cp_prepare` or `cp_start`, such an id
exists only while `in_cp_phase` is set, and a `trigger_cp()` issued while `in_cp_phase` is
set returns the `CheckPoint` unchanged (same current id, same state of every id). -/
theorem at_most_one_cp_in_flight (ops : List CpOp) (s : CpSys)
    (h : CpSys.init.run ops = some s) :
    (∀ i j,
      (s.cp.state_of i = some cp_status_t.cp_prepare ∨
        s.cp.state_of i = some cp_status_t.cp_start) →
      (s.cp.state_of j = some cp_status_t.cp_prepare ∨
        s.cp.state_of j = some cp_status_t.cp_start) → i = j) ∧
    (∀ i,
      (s.cp.state_of i = some cp_status_t.cp_prepare ∨
        s.cp.state_of i = some cp_status_t.cp_start) → s.cp.in_cp_phase = true) ∧
    (s.cp.in_cp_phase = true → s.cp.trigger_cp = some s.cp) := by
  have hinv := cpInv_reachable h
  refine ⟨?_, ?_, ?_⟩
  · intro i j hi hj
    obtain ⟨hni, ei, hei⟩ := cpInvC_flushing_ne_cur hinv hi
    obtain ⟨hnj, ej, hej⟩ := cpInvC_flushing_ne_cur hinv hj
    exact hinv.unique i j ei ej hei hej hni hnj
  · intro i hi
    obtain ⟨hni, ei, hei⟩ := cpInvC_flushing_ne_cur hinv hi
    exact (hinv.others i ei hei hni).1
  · intro hph
    simp [CheckPoint.trigger_cp, hph]

theorem at_most_one_cp_in_flight_witness :
    CpSys.init.run cp_sample_ops = some cp_sample_sys ∧
    (∀ i j,
      (cp_sample_sys.cp.state_of i = some cp_status_t.cp_prepare ∨
        cp_sample_sys.cp.state_of i = some cp_status_t.cp_start) →
      (cp_sample_sys.cp.state_of j = some cp_status_t.cp_prepare ∨
        cp_sample_sys.cp.state_of j = some cp_status_t.cp_start) → i = j) :=
  ⟨rfl, (at_most_one_cp_in_flight cp_sample_ops cp_sample_sys rfl).1⟩

/-- C3. In every reachable state `cp_io_enter` succeeds (its assertion holds): it returns the
current id, whose state is `cp_io_ready` or `cp_trigger` and whose `enter_cnt` it has raised by
one, and it leaves every other id alone. Every `cp_io_enter` of the history, the ones inside
`trigger_cp` and `cp_end` included, saw one of these two states, and none of them returned an
id after that id was moved to `cp_prepare` or started (`NoEnterAfter` holds for every ordered
pair of events). An id in `cp_prepare` or `cp_start` has its move to `cp_prepare` in the
history, and an id with such a move or a start in the history is not the current id, so no
later `cp_io_enter` returns it. `trigger_cp` and an allowed `cp_end` never stop at an
assertion either. -/
theorem cp_io_enter_returns_open_epoch (ops : List CpOp) (s : CpSys)
    (h : CpSys.init.run ops = some s) :
    (∃ cp1 e e1, s.cp.cp_io_enter = some (cp1, s.cp.m_cur_cp_id) ∧
      s.cp.ids s.cp.m_cur_cp_id = some e ∧ cp1.ids s.cp.m_cur_cp_id = some e1 ∧
      (e1.cp_state = cp_status_t.cp_io_ready ∨ e1.cp_state = cp_status_t.cp_trigger) ∧
      e1.enter_cnt = e.enter_cnt + 1 ∧
      (∀ i, i ≠ s.cp.m_cur_cp_id → cp1.ids i = s.cp.ids i)) ∧
    (∀ id st c, CpEvent.io_enter id st c ∈ s.cp.trace →
      st = cp_status_t.cp_io_ready ∨ st = cp_status_t.cp_trigger) ∧
    s.cp.trace.Pairwise NoEnterAfter ∧
    (∀ E, (s.cp.state_of E = some cp_status_t.cp_prepare ∨
        s.cp.state_of E = some cp_status_t.cp_start) → CpEvent.set_prepare E ∈ s.cp.trace) ∧
    (∀ E, (CpEvent.set_prepare E ∈ s.cp.trace ∨ CpEvent.cp_start E ∈ s.cp.trace) →
      E ≠ s.cp.m_cur_cp_id) ∧
    (∃ cp2, s.cp.trigger_cp = some cp2) ∧
    (∀ id, s.cp.in_cp_phase = true → s.cp.state_of id = some cp_status_t.cp_start →
      ∃ cp2, s.cp.cp_end id = some cp2) := by
  have hinv := cpInv_reachable h
  refine ⟨?_, hinv.tr_enter, hinv.tr_pair, ?_, ?_, ?_, ?_⟩
  · obtain ⟨e, he, hst⟩ := hinv.cur_ready
    refine ⟨(s.cp.store s.cp.m_cur_cp_id (some { e with enter_cnt := e.enter_cnt + 1 })).emit
      (CpEvent.io_enter s.cp.m_cur_cp_id e.cp_state (e.enter_cnt + 1)), e,
      { e with enter_cnt := e.enter_cnt + 1 }, ?_, he, ?_, Or.inl hst, rfl, ?_⟩
    · simp [CheckPoint.cp_io_enter, he, hst]
    · simp [CheckPoint.store, CheckPoint.emit]
    · intro i hi
      simp [CheckPoint.store, CheckPoint.emit, Function.update_apply, hi]
  · intro E hs
    obtain ⟨hne, e, he⟩ := cpInvC_flushing_ne_cur hinv hs
    exact hinv.tr_prep E e he hne
  · intro E hE
    exact Nat.ne_of_lt (hinv.tr_lt E hE)
  · obtain ⟨cp2, hcp2, _⟩ := cpInv_trigger hinv
    exact ⟨cp2, hcp2⟩
  · intro id hph hst
    cases he : s.cp.ids id with
    | none => simp [CheckPoint.state_of, he] at hst
    | some e =>
      have hst' : e.cp_state = cp_status_t.cp_start := by
        simpa [CheckPoint.state_of, he] using hst
      obtain ⟨cp2, hcp2, _⟩ := cpInv_end hinv hph he hst'
      exact ⟨cp2, hcp2⟩

theorem cp_io_enter_returns_open_epoch_witness :
    CpSys.init.run cp_sample_ops = some cp_sample_sys ∧
    (∃ cp2, cp_sample_sys.cp.trigger_cp = some cp2) ∧
    (∀ E, (CpEvent.set_prepare E ∈ cp_sample_sys.cp.trace ∨
        CpEvent.cp_start E ∈ cp_sample_sys.cp.trace) → E ≠ cp_sample_sys.cp.m_cur_cp_id) :=
  have key := cp_io_enter_returns_open_epoch cp_sample_ops cp_sample_sys rfl
  ⟨rfl, key.2.2.2.2.2.1, key.2.2.2.2.1⟩

/-! ## Append-log virtual device -/

theorem u64_of_lt {x : Nat} (h : x < 18446744073709551616) : u64 x = x := by
  unfold u64; omega

theorem u64_sub_of_le {a b : Nat} (hb : b ≤ a) (ha : a < 18446744073709551616) :
    u64_sub a b = a - b := by
  unfold u64_sub; omega

theorem l2d_chunks_spec (cs : Nat) (hcs : 0 < cs) :
    ∀ (chunks : List Nat) (c off : Nat), off < 18446744073709551616 →
      (off < chunks.length * cs → ∃ c1, l2d_chunks cs chunks c off = Sum.inr (c1, off % cs)) ∧
      (chunks.length * cs ≤ off → l2d_chunks cs chunks c off = Sum.inl (off - chunks.length * cs)) := by
  intro chunks
  induction chunks with
  | nil =>
    intro c off _
    simp [l2d_chunks]
  | cons x rest ih =>
    intro c off hoff
    simp only [l2d_chunks, List.length_cons]
    have hmul : (rest.length + 1) * cs = rest.length * cs + cs := by ring
    by_cases hge : off ≥ cs
    · rw [if_pos hge, u64_sub_of_le hge hoff]
      have ih1 := ih (c + 1) (off - cs) (by omega)
      constructor
      · intro hlt
        obtain ⟨c1, hc1⟩ := ih1.1 (by omega)
        refine ⟨c1, ?_⟩
        rw [hc1]
        have : (off - cs) % cs = off % cs := by
          conv_rhs => rw [show off = off - cs + cs by omega]
          simp
        rw [this]
      · intro hle
        rw [ih1.2 (by omega)]
        congr 1
        omega
    · rw [if_neg hge]
      constructor
      · intro _
        exact ⟨c, by rw [Nat.mod_eq_of_lt (by omega)]⟩
      · intro hle
        omega

theorem l2d_devs_spec (cs : Nat) (hcs : 0 < cs) :
    ∀ (devs : List (List Nat)) (d off : Nat), off < 18446744073709551616 →
      off < (devs.map List.length).sum * cs →
      ∃ d1 c1, l2d_devs cs devs d off = some (d1, c1, off % cs) := by
  intro devs
  induction devs with
  | nil =>
    intro d off _ h
    simp at h
  | cons dev rest ih =>
    intro d off hoff h
    simp only [List.map_cons, List.sum_cons] at h
    have hsp := l2d_chunks_spec cs hcs dev 0 off hoff
    by_cases hlt : off < dev.length * cs
    · obtain ⟨c1, hc1⟩ := hsp.1 hlt
      exact ⟨d, c1, by simp [l2d_devs, hc1]⟩
    · have h2 := hsp.2 (by omega)
      have hrest : off - dev.length * cs < (rest.map List.length).sum * cs := by
        have : (dev.length + (rest.map List.length).sum) * cs =
            dev.length * cs + (rest.map List.length).sum * cs := by ring
        omega
      obtain ⟨d1, c1, h3⟩ := ih (d + 1) (off - dev.length * cs) (by omega) hrest
      refine ⟨d1, c1, ?_⟩
      simp only [l2d_devs, h2, h3]
      congr 3
      have : off = off - dev.length * cs + dev.length * cs := by omega
      conv_rhs => rw [this]
      simp

theorem logical_to_dev_offset_in_chunk (vd : VirtualDev) (off : Nat)
    (hcs : 0 < vd.m_chunk_size) (hoff : off < 18446744073709551616)
    (h : off < vd.num_chunks * vd.m_chunk_size) :
    (vd.logical_to_dev_offset off).2.2 = off % vd.m_chunk_size := by
  obtain ⟨d1, c1, h1⟩ := l2d_devs_spec vd.m_chunk_size hcs vd.m_primary_pdev_chunks_list 0 off
    hoff h
  simp [VirtualDev.logical_to_dev_offset, u64_of_lt hoff, h1]

theorem update_end_of_chunk_num_chunks (vd : VirtualDev) (d c off : Nat) :
    (vd.update_end_of_chunk d c off).num_chunks = vd.num_chunks := by
  unfold VirtualDev.num_chunks VirtualDev.update_end_of_chunk
  simp only
  congr 1
  generalize vd.m_primary_pdev_chunks_list = l
  induction l generalizing d with
  | nil => simp [set_end_of_chunk]
  | cons x rest ih =>
    cases d with
    | zero => simp [set_end_of_chunk]
    | succ d => simpa [set_end_of_chunk] using ih d

theorem high_watermark_check_frame (vd : VirtualDev) :
    vd.high_watermark_check.size = vd.size ∧
    vd.high_watermark_check.data_start_offset = vd.data_start_offset ∧
    vd.high_watermark_check.m_chunk_size = vd.m_chunk_size ∧
    vd.high_watermark_check.m_primary_pdev_chunks_list = vd.m_primary_pdev_chunks_list ∧
    vd.high_watermark_check.m_reserved_sz = vd.m_reserved_sz ∧
    vd.high_watermark_check.m_write_sz_in_total = vd.m_write_sz_in_total ∧
    vd.high_watermark_check.m_seek_cursor = vd.m_seek_cursor := by
  unfold VirtualDev.high_watermark_check
  simp only
  split_ifs <;> simp

theorem reserve_at_tail_geom (vd : VirtualDev) (sz : Nat) :
    (vd.reserve_at_tail sz).2 = vd.get_tail_offset true ∧
    (vd.reserve_at_tail sz).1.m_chunk_size = vd.m_chunk_size ∧
    (vd.reserve_at_tail sz).1.num_chunks = vd.num_chunks := by
  unfold VirtualDev.reserve_at_tail
  simp only
  obtain ⟨_, _, h3, h4, _⟩ := high_watermark_check_frame
    { vd with m_reserved_sz := u64 (vd.m_reserved_sz + sz) }
  refine ⟨trivial, h3, ?_⟩
  unfold VirtualDev.num_chunks
  rw [h4]

theorem pwrite_within_chunk_of_fits (vd : VirtualDev) (off sz len : Nat)
    (hC : 0 < vd.m_chunk_size) (hC64 : vd.m_chunk_size < 18446744073709551616)
    (hoff : off < 18446744073709551616) (h : off < vd.num_chunks * vd.m_chunk_size)
    (hfit : off % vd.m_chunk_size + sz ≤ vd.m_chunk_size) (hlen : len ≤ sz) :
    vd.pwrite_within_chunk len off := by
  unfold VirtualDev.pwrite_within_chunk
  rw [logical_to_dev_offset_in_chunk vd off hC hoff h, u64_sub_of_le (by omega) hC64]
  omega

theorem tail_raw_eq (D W R S : Nat) (hD : D < S) (hS : S < 9223372036854775808)
    (hU : (W + R) % 18446744073709551616 ≤ S) :
    ((D + W) % 18446744073709551616 + R) % 18446744073709551616 =
      D + (W + R) % 18446744073709551616 := by
  have h1 : ((D + W) % 18446744073709551616 + R) % 18446744073709551616 =
      (D + (W + R)) % 18446744073709551616 := by
    rw [Nat.add_mod, Nat.mod_mod, ← Nat.add_mod, Nat.add_assoc]
  have h2 : (D + (W + R)) % 18446744073709551616 =
      (D + (W + R) % 18446744073709551616) % 18446744073709551616 := by
    rw [Nat.add_mod, Nat.add_mod D ((W + R) % 18446744073709551616), Nat.mod_mod]
  rw [h1, h2]
  exact Nat.mod_eq_of_lt (by omega)

theorem used_after_pad (W R P : Nat) :
    ((W + P) % 18446744073709551616 + R) % 18446744073709551616 =
      ((W + R) % 18446744073709551616 + P) % 18446744073709551616 := by
  rw [Nat.add_mod, Nat.mod_mod, ← Nat.add_mod, Nat.add_mod ((W + R) % 18446744073709551616),
    Nat.mod_mod, ← Nat.add_mod]
  congr 1
  omega

theorem get_tail_offset_eq (vd : VirtualDev) (hds : vd.data_start_offset < vd.size)
    (hsize : vd.size < 9223372036854775808) (hused : vd.get_used_space ≤ vd.size) :
    vd.get_tail_offset true =
      if vd.data_start_offset + vd.get_used_space ≥ vd.size then
        vd.data_start_offset + vd.get_used_space - vd.size
      else vd.data_start_offset + vd.get_used_space := by
  unfold VirtualDev.get_used_space u64 at hused ⊢
  unfold VirtualDev.get_tail_offset u64
  simp only [if_true]
  rw [tail_raw_eq _ _ _ _ hds hsize hused]
  split_ifs with h
  · unfold u64_sub
    omega
  · rfl

/-- C5. For an append-log `VirtualDev` whose size is `num_chunks * m_chunk_size` and fits an
`off_t`, with `data_start_offset < size` and used space at most the size, and a reservation of
at most one chunk: when `alloc_next_append_blk(sz)` returns an offset other than
`INVALID_OFFSET`, that offset is below the size, `offset mod m_chunk_size + sz` is at most the
chunk size, and the chunk-boundary assertion of `process_pwrite_offset` holds in the state
after the call for every write of up to `sz` bytes at that offset. -/
theorem alloc_next_append_blk_within_chunk (vd : VirtualDev) (sz : Nat)
    (hgeom : vd.size = vd.num_chunks * vd.m_chunk_size)
    (hsize : vd.size < 9223372036854775808)
    (hds : vd.data_start_offset < vd.size)
    (hused : vd.get_used_space ≤ vd.size)
    (hreq : sz ≤ vd.m_chunk_size)
    (hret : (vd.alloc_next_append_blk sz).2 ≠ INVALID_OFFSET) :
    (vd.alloc_next_append_blk sz).2 < vd.size ∧
    (vd.alloc_next_append_blk sz).2 % vd.m_chunk_size + sz ≤ vd.m_chunk_size ∧
    ∀ len, len ≤ sz →
      (vd.alloc_next_append_blk sz).1.pwrite_within_chunk len (vd.alloc_next_append_blk sz).2 := by
  have hC : 0 < vd.m_chunk_size := by
    rcases Nat.eq_zero_or_pos vd.m_chunk_size with h0 | h0
    · rw [h0] at hgeom; omega
    · exact h0
  have hCle : vd.m_chunk_size ≤ vd.size := by
    rcases Nat.eq_zero_or_pos vd.num_chunks with h0 | h0
    · rw [h0] at hgeom; omega
    · rw [hgeom]; exact Nat.le_mul_of_pos_left _ h0
  have hE : vd.get_tail_offset true < vd.size := by
    rw [get_tail_offset_eq vd hds hsize hused]
    split_ifs <;> omega
  have hoic := logical_to_dev_offset_in_chunk vd (vd.get_tail_offset true) hC (by omega)
    (by rw [← hgeom]; exact hE)
  have hdm := Nat.div_add_mod (vd.get_tail_offset true) vd.m_chunk_size
  have hmlt := Nat.mod_lt (vd.get_tail_offset true) hC
  -- the shape every successful reservation has
  have key : ∀ (vd1 : VirtualDev), vd1.m_chunk_size = vd.m_chunk_size →
      vd1.num_chunks = vd.num_chunks →
      vd1.get_tail_offset true < vd.size →
      vd1.get_tail_offset true % vd.m_chunk_size + sz ≤ vd.m_chunk_size →
      (vd1.reserve_at_tail sz).2 < vd.size ∧
      (vd1.reserve_at_tail sz).2 % vd.m_chunk_size + sz ≤ vd.m_chunk_size ∧
      ∀ len, len ≤ sz →
        (vd1.reserve_at_tail sz).1.pwrite_within_chunk len (vd1.reserve_at_tail sz).2 := by
    intro vd1 hc1 hn1 ht1 hf1
    obtain ⟨g1, g2, g3⟩ := reserve_at_tail_geom vd1 sz
    rw [g1]
    refine ⟨ht1, hf1, ?_⟩
    intro len hlen
    apply pwrite_within_chunk_of_fits _ _ sz len
    · rw [g2, hc1]; exact hC
    · rw [g2, hc1]; omega
    · omega
    · rw [g2, g3, hc1, hn1, ← hgeom]; exact ht1
    · rw [g2, hc1]; exact hf1
    · exact hlen
  unfold VirtualDev.alloc_next_append_blk at hret ⊢
  simp only [hoic] at hret ⊢
  split_ifs at hret ⊢ with h1 h2 h3
  · exact absurd rfl hret
  · apply key vd rfl rfl hE
    rw [u64_of_lt (by omega)] at h2
    exact h2
  · rw [u64_of_lt (by omega)] at h2
    have hpad : u64_sub vd.m_chunk_size (vd.get_tail_offset true % vd.m_chunk_size) =
        vd.m_chunk_size - vd.get_tail_offset true % vd.m_chunk_size :=
      u64_sub_of_le (by omega) (by omega)
    rw [hpad] at h3 ⊢
    have hEeq := get_tail_offset_eq vd hds hsize hused
    have hu64 : vd.get_used_space + (vd.m_chunk_size - vd.get_tail_offset true % vd.m_chunk_size)
        < 18446744073709551616 := by omega
    rw [u64_of_lt (by omega)] at h1
    rw [u64_of_lt hu64, u64_of_lt (by omega)] at h3
    generalize hW : u64 (vd.m_write_sz_in_total +
      (vd.m_chunk_size - vd.get_tail_offset true % vd.m_chunk_size)) = W1
    have hu1 : ({ vd with m_write_sz_in_total := W1 } : VirtualDev).get_used_space =
        vd.get_used_space +
          (vd.m_chunk_size - vd.get_tail_offset true % vd.m_chunk_size) := by
      rw [← hW]
      unfold VirtualDev.get_used_space u64 at hu64 ⊢
      simp only
      rw [used_after_pad]
      exact Nat.mod_eq_of_lt hu64
    have hF := get_tail_offset_eq { vd with m_write_sz_in_total := W1 } hds hsize
      (by rw [hu1]; show _ ≤ vd.size; omega)
    rw [hu1] at hF
    simp only at hF
    generalize hEE : vd.get_tail_offset true = E at hEeq hE hdm hmlt h2 h3 hF
    generalize hQ : vd.m_chunk_size * (E / vd.m_chunk_size) = A at hdm
    generalize hUU : vd.get_used_space = U at hEeq h1 h3 hF hused
    generalize hFF : ({ vd with m_write_sz_in_total := W1 } : VirtualDev).get_tail_offset true
      = F at hF
    have hFc : F < vd.size ∧ (F = A + vd.m_chunk_size ∨
        (vd.size ≤ A + vd.m_chunk_size ∧ F = A + vd.m_chunk_size - vd.size)) := by
      split_ifs at hEeq hF <;> omega
    apply key
    · rfl
    · rw [update_end_of_chunk_num_chunks, update_end_of_chunk_num_chunks]; rfl
    · show ({ vd with m_write_sz_in_total := W1 } : VirtualDev).get_tail_offset true < vd.size
      rw [hFF]; exact hFc.1
    · have hmod : F % vd.m_chunk_size = 0 := by
        rcases hFc.2 with hFe | ⟨hle, hFe⟩
        · rw [hFe, ← hQ]
          simp
        · rw [hFe, ← hQ, hgeom]
          have : vd.m_chunk_size * (E / vd.m_chunk_size) + vd.m_chunk_size -
              vd.num_chunks * vd.m_chunk_size =
              (E / vd.m_chunk_size + 1 - vd.num_chunks) * vd.m_chunk_size := by
            rw [Nat.sub_mul, Nat.add_mul, Nat.one_mul, Nat.mul_comm]
          rw [this]
          simp
      show ({ vd with m_write_sz_in_total := W1 } : VirtualDev).get_tail_offset true %
        vd.m_chunk_size + sz ≤ vd.m_chunk_size
      rw [hFF, hmod]
      omega
  · exact absurd rfl hret

/-! ## Extent index: puts that meet newer entries -/

theorem put_step_newer (cfg : MapCfg) (req : Bool) (end_lba : Nat) (new_val : MappingValue)
    (new_ve : ValueEntry) (acc : PutAcc) (k : MappingKey) (ve : ValueEntry) (tl : List ValueEntry)
    (hseq : new_ve.seqId ≤ ve.seqId) :
    ∃ fbes, put_step cfg req end_lba new_val new_ve acc (k, ve :: tl) =
      some { start_lba := u64 (acc.start_lba + ve.nlba),
             new_val_offset := u32 (acc.new_val_offset + ve.nlba),
             replace_kv := acc.replace_kv ++ [(k, ve :: tl)],
             fbes := fbes } := by
  simp only [put_step, hseq, if_true]
  exact ⟨_, rfl⟩

theorem put_loop_all_newer (cfg : MapCfg) (req : Bool) (end_lba : Nat) (new_val : MappingValue)
    (new_ve : ValueEntry) :
    ∀ (match_kv : List (MappingKey × MappingValue)) (acc : PutAcc),
      (∀ kv ∈ match_kv, ∃ ve tl, kv.2 = ve :: tl ∧ new_ve.seqId ≤ ve.seqId ∧
        ve.nlba = kv.1.n_lba) →
      acc.start_lba + (match_kv.map (fun kv => kv.1.n_lba)).sum < 18446744073709551616 →
      ∃ acc1, put_loop cfg req end_lba new_val new_ve acc match_kv = some acc1 ∧
        acc1.replace_kv = acc.replace_kv ++ match_kv ∧
        acc1.start_lba = acc.start_lba + (match_kv.map (fun kv => kv.1.n_lba)).sum := by
  intro match_kv
  induction match_kv with
  | nil =>
    intro acc _ _
    exact ⟨acc, rfl, by simp, by simp⟩
  | cons kv rest ih =>
    intro acc hnew hb
    obtain ⟨ve, tl, hkv, hseq, hn⟩ := hnew kv (List.mem_cons_self _ _)
    obtain ⟨k, v⟩ := kv
    simp only at hkv hn
    subst hkv
    simp only [List.map_cons, List.sum_cons] at hb
    obtain ⟨fbes, hstep⟩ := put_step_newer cfg req end_lba new_val new_ve acc k ve tl hseq
    have hu : u64 (acc.start_lba + ve.nlba) = acc.start_lba + k.n_lba := by
      rw [hn]; unfold u64; omega
    obtain ⟨acc1, h1, h2, h3⟩ := ih
      { start_lba := u64 (acc.start_lba + ve.nlba),
        new_val_offset := u32 (acc.new_val_offset + ve.nlba),
        replace_kv := acc.replace_kv ++ [(k, ve :: tl)],
        fbes := fbes }
      (fun kv1 hkv1 => hnew kv1 (List.mem_cons_of_mem _ hkv1))
      (by simp only [hu]; omega)
    refine ⟨acc1, ?_, ?_, ?_⟩
    · simp only [put_loop, hstep]
      exact h1
    · rw [h2]; simp
    · rw [h3]; simp only [hu, List.map_cons, List.sum_cons]; omega

theorem covered_card_le_sum :
    ∀ (l : List (MappingKey × MappingValue)) (T : Finset Nat),
      (∀ x ∈ T, ∃ kv ∈ l, kv.1.covers x) → T.card ≤ (l.map (fun kv => kv.1.n_lba)).sum := by
  intro l
  induction l with
  | nil =>
    intro T h
    have : T = ∅ := by
      apply Finset.eq_empty_of_forall_not_mem
      intro x hx
      obtain ⟨kv, hkv, _⟩ := h x hx
      simp at hkv
    simp [this]
  | cons kv rest ih =>
    intro T h
    have hsplit := Finset.filter_card_add_filter_neg_card_eq_card (s := T)
      (fun x => kv.1.covers x)
    have h1 : (T.filter (fun x => kv.1.covers x)).card ≤ kv.1.n_lba := by
      have hsub : T.filter (fun x => kv.1.covers x) ⊆
          Finset.Ico kv.1.start (kv.1.start + kv.1.n_lba) := by
        intro x hx
        simp only [Finset.mem_filter, MappingKey.covers] at hx
        simp only [Finset.mem_Ico]
        exact hx.2
      have := Finset.card_le_card hsub
      simpa using this
    have h2 : (T.filter (fun x => ¬ kv.1.covers x)).card ≤
        (rest.map (fun kv => kv.1.n_lba)).sum := by
      apply ih
      intro x hx
      simp only [Finset.mem_filter] at hx
      obtain ⟨kv1, hkv1, hc⟩ := h x hx.1
      rcases List.mem_cons.1 hkv1 with h3 | h3
      · subst h3; exact absurd hc hx.2
      · exact ⟨kv1, h3, hc⟩
    simp only [List.map_cons, List.sum_cons]
    omega

/-- C8. Replaying an applied record changes nothing: when the matched existing entries cover
every LBA of `[s, e]` and the first value entry of each has a sequence id at least that of the
replayed value (and as many LBAs as its key), `match_item_cb_put` returns `replace_kv` equal
to `match_kv`: same keys, same values, same order. -/
theorem replay_put_keeps_index_entries (cfg : MapCfg) (req : Bool) (new_key : MappingKey)
    (new_ve : ValueEntry) (tl : List ValueEntry) (s e : Nat)
    (match_kv : List (MappingKey × MappingValue))
    (hse : s ≤ e)
    (hnewer : ∀ kv ∈ match_kv, ∃ ve vtl, kv.2 = ve :: vtl ∧ new_ve.seqId ≤ ve.seqId ∧
      ve.nlba = kv.1.n_lba)
    (hcov : ∀ l, s ≤ l → l ≤ e → ∃ kv ∈ match_kv, kv.1.covers l)
    (hbound : s + (match_kv.map (fun kv => kv.1.n_lba)).sum < 18446744073709551616) :
    ∃ fbes, match_item_cb_put cfg req new_key (new_ve :: tl) s e match_kv =
      some (match_kv, fbes) := by
  obtain ⟨acc1, h1, h2, h3⟩ := put_loop_all_newer cfg req e (new_ve :: tl) new_ve match_kv
    ⟨s, u32 (u64_sub s new_key.start), [], []⟩ hnewer hbound
  have hcard := covered_card_le_sum match_kv (Finset.Icc s e) (by
    intro x hx
    simp only [Finset.mem_Icc] at hx
    exact hcov x hx.1 hx.2)
  simp only [Nat.card_Icc] at hcard
  simp only at h2 h3
  have hgt : ¬ acc1.start_lba ≤ e := by omega
  refine ⟨acc1.fbes, ?_⟩
  simp only [match_item_cb_put, h1, hgt, if_false]
  rw [h2]
  simp

/-! ## Extent index: puts over older entries -/

theorem entries_at_append (rkv : List (MappingKey × MappingValue)) (x : MappingKey × MappingValue)
    (l : Nat) :
    entries_at (rkv ++ [x]) l = entries_at rkv l ++ (if x.1.covers l then [x] else []) := by
  unfold entries_at
  rw [List.filter_append]
  by_cases h : x.1.covers l <;> simp [List.filter, h]

theorem Pieces.append_new {cfg : MapCfg} {v : ValueEntry} {s0 s e p : Nat}
    {rkv : List (MappingKey × MappingValue)} (h : Pieces cfg v s0 s e p rkv) (b : Nat)
    (hpb : p ≤ b) (hbe : b ≤ e) :
    Pieces cfg v s0 s e (b + 1) (rkv ++ [new_piece cfg v s0 p (b - p + 1)]) := by
  have hlo := h.lo
  constructor
  · omega
  · omega
  · intro l hl1 hl2
    rw [entries_at_append]
    by_cases hlp : l < p
    · obtain ⟨a, n, ha, hsa⟩ := h.done l hl1 hlp
      refine ⟨a, n, ?_, hsa⟩
      have : ¬ (new_piece cfg v s0 p (b - p + 1)).1.covers l := by
        simp only [new_piece, MappingKey.covers]; omega
      simp [ha, this]
    · have hc : (new_piece cfg v s0 p (b - p + 1)).1.covers l := by
        simp only [new_piece, MappingKey.covers]; omega
      refine ⟨p, b - p + 1, ?_, hlo⟩
      rw [h.todo l (by omega) (by omega)]
      simp [hc]
  · intro l hl1 hl2
    rw [entries_at_append, h.todo l (by omega) hl2]
    have : ¬ (new_piece cfg v s0 p (b - p + 1)).1.covers l := by
      simp only [new_piece, MappingKey.covers]; omega
    simp [this]

theorem Pieces.append_other {cfg : MapCfg} {v : ValueEntry} {s0 s e p : Nat}
    {rkv : List (MappingKey × MappingValue)} (h : Pieces cfg v s0 s e p rkv)
    (x : MappingKey × MappingValue) (hx : ∀ l, s ≤ l → l ≤ e → ¬ x.1.covers l) :
    Pieces cfg v s0 s e p (rkv ++ [x]) := by
  have hlo := h.lo
  have hhi := h.hi
  constructor
  · exact h.lo
  · exact h.hi
  · intro l hl1 hl2
    rw [entries_at_append]
    obtain ⟨a, n, ha, hsa⟩ := h.done l hl1 hl2
    refine ⟨a, n, ?_, hsa⟩
    simp [ha, hx l hl1 (by omega)]
  · intro l hl1 hl2
    rw [entries_at_append, h.todo l hl1 hl2]
    simp [hx l (by omega) hl2]

theorem u8_of_lt {x : Nat} (h : x < 256) : u8 x = x := by unfold u8; omega

theorem u16_of_lt {x : Nat} (h : x < 65536) : u16 x = x := by unfold u16; omega

theorem u32_of_lt {x : Nat} (h : x < 4294967296) : u32 x = x := by unfold u32; omega

theorem MappingKey.make_of_lt {a n : Nat} (ha : a < 281474976710656) (hn : n < 256) :
    MappingKey.make a n = ⟨a, n⟩ := by
  unfold MappingKey.make LBA_BITS NBLKS_BITS
  have h1 : a % 2 ^ 48 = a := Nat.mod_eq_of_lt (by norm_num; exact ha)
  have h2 : n % 2 ^ 8 = n := Nat.mod_eq_of_lt (by norm_num; exact hn)
  rw [h1, h2]

theorem MappingValue.sub_new (cfg : MapCfg) (v : ValueEntry) (tl : List ValueEntry) (off n : Nat)
    (hn : n < 256)
    (hblk : v.blk_offset + (cfg.m_vol_page_size / cfg.data_pagesz) * off < 256) (hoff : off < 256) :
    MappingValue.sub cfg (v :: tl) (u16 off) n =
      some [{ v with nlba := n,
                     blk_offset := v.blk_offset + (cfg.m_vol_page_size / cfg.data_pagesz) * off,
                     carr := (v.carr.drop off).take n }] := by
  have h16 : u16 off = off := u16_of_lt (by omega)
  have h32 : u32 n = n := u32_of_lt (by omega)
  simp only [MappingValue.sub, ValueEntry.add_offset, h16, h32, u8_of_lt hoff, u8_of_lt hn]
  have hr : (cfg.m_vol_page_size / cfg.data_pagesz) * off < 256 := by omega
  rw [u32_of_lt (by omega), u8_of_lt hr, u8_of_lt hblk]

theorem add_new_interval_new (cfg : MapCfg) (v : ValueEntry) (tl : List ValueEntry)
    (s a b : Nat) (rkv : List (MappingKey × MappingValue))
    (hsa : s ≤ a) (hab : a ≤ b) (hb : b < 281474976710656) (hn : b - a + 1 < 256)
    (hblk : v.blk_offset + (cfg.m_vol_page_size / cfg.data_pagesz) * (a - s) < 256)
    (hoff : a - s < 256) :
    add_new_interval cfg a b (v :: tl) (a - s) rkv =
      some (rkv ++ [new_piece cfg v s a (b - a + 1)]) := by
  have h1 : u64 (u64_sub b a + 1) = b - a + 1 := by
    rw [u64_sub_of_le hab (by omega), u64_of_lt (by omega)]
  simp only [add_new_interval, h1, MappingValue.sub_new cfg v tl (a - s) (b - a + 1) hn hblk hoff,
    MappingKey.make_of_lt (show a < 281474976710656 by omega) hn, new_piece]

theorem add_new_interval_other (cfg : MapCfg) (ve : ValueEntry) (tl : List ValueEntry)
    (a b off : Nat) (rkv : List (MappingKey × MappingValue))
    (hab : a ≤ b) (hb : b < 281474976710656) (hn : b - a + 1 < 256) :
    ∃ val, add_new_interval cfg a b (ve :: tl) off rkv =
      some (rkv ++ [(⟨a, b - a + 1⟩, val)]) := by
  have h1 : u64 (u64_sub b a + 1) = b - a + 1 := by
    rw [u64_sub_of_le hab (by omega), u64_of_lt (by omega)]
  simp only [add_new_interval, h1, MappingValue.sub,
    MappingKey.make_of_lt (show a < 281474976710656 by omega) hn]
  exact ⟨_, rfl⟩

theorem compute_and_add_overlap_new (cfg : MapCfg) (req : Bool) (v : ValueEntry)
    (tl : List ValueEntry) (ve : ValueEntry) (etl : List ValueEntry) (s a b eoff : Nat)
    (acc : PutAcc)
    (hsa : s ≤ a) (hab : a ≤ b) (hb : b < 281474976710656) (hn : b - a + 1 < 256)
    (hblk : v.blk_offset + (cfg.m_vol_page_size / cfg.data_pagesz) * (a - s) < 256)
    (hoff : a - s < 256) :
    ∃ fbes, compute_and_add_overlap cfg req a b (v :: tl) (a - s) (ve :: etl) eoff acc =
      some { acc with fbes := fbes,
                      replace_kv := acc.replace_kv ++ [new_piece cfg v s a (b - a + 1)] } := by
  have h1 : u64 (u64_sub b a + 1) = b - a + 1 := by
    rw [u64_sub_of_le hab (by omega), u64_of_lt (by omega)]
  simp only [compute_and_add_overlap, h1,
    MappingValue.sub_new cfg v tl (a - s) (b - a + 1) hn hblk hoff,
    MappingKey.make_of_lt (show a < 281474976710656 by omega) hn, new_piece]
  exact ⟨_, rfl⟩

theorem PutBounds.blk_at {cfg : MapCfg} {v : ValueEntry} {s0 s e : Nat}
    (hb : PutBounds cfg v s0 s e)
    {a : Nat} (ha : a ≤ e) :
    v.blk_offset + (cfg.m_vol_page_size / cfg.data_pagesz) * (a - s0) < 256 := by
  have h1 : (cfg.m_vol_page_size / cfg.data_pagesz) * (a - s0) ≤
      (cfg.m_vol_page_size / cfg.data_pagesz) * (e - s0 + 1) :=
    Nat.mul_le_mul_left _ (by omega)
  have := hb.blk
  omega

theorem put_gap_older (cfg : MapCfg) (v : ValueEntry) (tl : List ValueEntry) (s0 s e p : Nat)
    (acc : PutAcc) (k : MappingKey) (hb : PutBounds cfg v s0 s e)
    (hk4 : k.start ≤ e) (hp : p ≤ e)
    (hst : acc.start_lba = p) (hoff : acc.new_val_offset = p - s0)
    (hpc : Pieces cfg v s0 s e p acc.replace_kv) :
    ∃ a1, put_gap cfg (v :: tl) k acc = some a1 ∧
      a1.start_lba = max p k.start ∧ a1.new_val_offset = max p k.start - s0 ∧
      Pieces cfg v s0 s e (max p k.start) a1.replace_kv := by
  have hlo := hpc.lo
  have hse := hb.se
  have hs0 := hb.s0s
  have he48 := hb.e48
  have hn8 := hb.n8
  unfold put_gap
  by_cases hgt : k.start > acc.start_lba
  · rw [if_pos hgt]
    rw [hst] at hgt
    have hmax : max p k.start = k.start := by omega
    have h1 : u64_sub k.start 1 = k.start - 1 := u64_sub_of_le (by omega) (by omega)
    have h2 : u64_sub k.start p = k.start - p := u64_sub_of_le (by omega) (by omega)
    have hanew := add_new_interval_new cfg v tl s0 p (k.start - 1) acc.replace_kv (by omega)
      (by omega)
      (by omega) (by omega) (hb.blk_at hp) (by omega)
    rw [hst, hoff, h1, hanew]
    simp only
    refine ⟨_, rfl, ?_, ?_, ?_⟩
    · simp [hmax]
    · simp only [hmax, h2]
      rw [u32_of_lt (by omega)]
      omega
    · simp only [hmax]
      have := hpc.append_new (k.start - 1) (by omega) (by omega)
      have h3 : k.start - 1 + 1 = k.start := by omega
      rw [h3] at this
      exact this
  · rw [if_neg hgt]
    rw [hst] at hgt
    have hmax : max p k.start = p := by omega
    exact ⟨acc, rfl, by rw [hmax]; exact hst, by rw [hmax]; exact hoff, by rw [hmax]; exact hpc⟩

theorem put_split_start_older (cfg : MapCfg) (v : ValueEntry) (s0 s e p : Nat)
    (acc : PutAcc) (k : MappingKey) (ve : ValueEntry) (etl : List ValueEntry)
    (hb : PutBounds cfg v s0 s e)
    (hk3 : k.n_lba < 256) (hk5 : p < k.start + k.n_lba) (hk6 : k.start < p → p = s)
    (hp : p ≤ e)
    (hst : acc.start_lba = p) (hoff : acc.new_val_offset = p - s0)
    (hpc : Pieces cfg v s0 s e p acc.replace_kv) :
    ∃ a2 eoff, put_split_start cfg k (ve :: etl) acc = some (a2, eoff) ∧
      a2.start_lba = p ∧ a2.new_val_offset = p - s0 ∧
      Pieces cfg v s0 s e p a2.replace_kv := by
  have he48 := hb.e48
  unfold put_split_start
  by_cases hlt : k.start < acc.start_lba
  · rw [if_pos hlt]
    rw [hst] at hlt
    have hps := hk6 hlt
    have h1 : u64_sub p 1 = p - 1 := u64_sub_of_le (by omega) (by omega)
    obtain ⟨val, hval⟩ := add_new_interval_other cfg ve etl k.start (p - 1) 0 acc.replace_kv
      (by omega) (by omega) (by omega)
    rw [hst, h1, hval]
    refine ⟨_, _, rfl, rfl, hoff, ?_⟩
    apply hpc.append_other
    intro l hl1 hl2
    simp only [MappingKey.covers]
    omega
  · rw [if_neg hlt]
    exact ⟨acc, 0, rfl, hst, hoff, hpc⟩

theorem end_lba_eq (k : MappingKey) (hk1 : k.start + k.n_lba ≤ 281474976710656)
    (hk2 : 1 ≤ k.n_lba) : k.end_lba = k.start + k.n_lba - 1 := by
  unfold MappingKey.end_lba
  rw [u64_of_lt (by omega), u64_sub_of_le (by omega) (by omega)]

theorem put_overlap_older (cfg : MapCfg) (req : Bool) (v : ValueEntry) (tl : List ValueEntry)
    (s0 s e p : Nat) (acc : PutAcc) (k : MappingKey) (ve : ValueEntry) (etl : List ValueEntry)
    (eoff : Nat) (hb : PutBounds cfg v s0 s e)
    (hk1 : k.start + k.n_lba ≤ 281474976710656) (hk2 : 1 ≤ k.n_lba)
    (hk5 : p < k.start + k.n_lba) (hp : p ≤ e)
    (hst : acc.start_lba = p) (hoff : acc.new_val_offset = p - s0)
    (hpc : Pieces cfg v s0 s e p acc.replace_kv) :
    ∃ a4 eoff1, put_overlap cfg req e (v :: tl) k (ve :: etl) acc eoff = some (a4, eoff1) ∧
      a4.start_lba = min (k.start + k.n_lba - 1) e + 1 ∧
      a4.new_val_offset = min (k.start + k.n_lba - 1) e + 1 - s0 ∧
      Pieces cfg v s0 s e (min (k.start + k.n_lba - 1) e + 1) a4.replace_kv := by
  have hlo := hpc.lo
  have hse := hb.se
  have hs0 := hb.s0s
  have he48 := hb.e48
  have hn8 := hb.n8
  have hend := end_lba_eq k hk1 hk2
  have hq : (if k.end_lba < e then k.end_lba else e) = min (k.start + k.n_lba - 1) e := by
    rw [hend]
    split_ifs <;> omega
  generalize hqq : min (k.start + k.n_lba - 1) e = q at hq ⊢
  have hpq : p ≤ q := by omega
  have hqe : q ≤ e := by omega
  obtain ⟨fbes, hov⟩ := compute_and_add_overlap_new cfg req v tl ve etl s0 p q eoff acc
    (by omega) hpq
    (by omega) (by omega) (hb.blk_at hp) (by omega)
  unfold put_overlap
  simp only [hq, hst, hoff, hov]
  have h1 : u32 (u64_sub q p + 1) = q - p + 1 := by
    rw [u64_sub_of_le hpq (by omega), u32_of_lt (by omega)]
  refine ⟨_, _, rfl, ?_, ?_, ?_⟩
  · simp only [hst, h1]
    rw [u64_of_lt (by omega)]
    omega
  · simp only [hoff, hst, h1]
    rw [u32_of_lt (by omega)]
    omega
  · exact hpc.append_new q hpq hqe

theorem put_split_end_older (cfg : MapCfg) (v : ValueEntry) (s0 s e : Nat)
    (acc : PutAcc) (k : MappingKey) (ve : ValueEntry) (etl : List ValueEntry) (eoff : Nat)
    (hk1 : k.start + k.n_lba ≤ 281474976710656) (hk2 : 1 ≤ k.n_lba) (hk3 : k.n_lba < 256)
    (hk4 : k.start ≤ e)
    (hst : acc.start_lba = min (k.start + k.n_lba - 1) e + 1)
    (hpc : Pieces cfg v s0 s e (min (k.start + k.n_lba - 1) e + 1) acc.replace_kv) :
    ∃ a5, put_split_end cfg e k (ve :: etl) acc eoff = some a5 ∧
      a5.start_lba = acc.start_lba ∧ a5.new_val_offset = acc.new_val_offset ∧
      Pieces cfg v s0 s e (min (k.start + k.n_lba - 1) e + 1) a5.replace_kv := by
  have hend := end_lba_eq k hk1 hk2
  unfold put_split_end
  by_cases hgt : k.end_lba > e
  · rw [if_pos hgt]
    rw [hend] at hgt
    have hmin : min (k.start + k.n_lba - 1) e = e := by omega
    rw [hmin] at hst
    obtain ⟨val, hval⟩ := add_new_interval_other cfg ve etl (e + 1) (k.start + k.n_lba - 1) eoff
      acc.replace_kv (by omega) (by omega) (by omega)
    rw [hst, hend, hval]
    refine ⟨_, rfl, rfl, rfl, ?_⟩
    apply hpc.append_other
    intro l hl1 hl2
    simp only [MappingKey.covers]
    omega
  · rw [if_neg hgt]
    exact ⟨acc, rfl, rfl, rfl, hpc⟩

theorem put_step_older (cfg : MapCfg) (req : Bool) (v : ValueEntry) (tl : List ValueEntry)
    (s0 s e p : Nat) (acc : PutAcc) (k : MappingKey) (ve : ValueEntry) (etl : List ValueEntry)
    (hb : PutBounds cfg v s0 s e) (hseq : ve.seqId < v.seqId)
    (hk1 : k.start + k.n_lba ≤ 281474976710656) (hk2 : 1 ≤ k.n_lba) (hk3 : k.n_lba < 256)
    (hk4 : k.start ≤ e) (hk5 : p < k.start + k.n_lba) (hk6 : k.start < p → p = s)
    (hp : p ≤ e)
    (hst : acc.start_lba = p) (hoff : acc.new_val_offset = p - s0)
    (hpc : Pieces cfg v s0 s e p acc.replace_kv) :
    ∃ a5, put_step cfg req e (v :: tl) v acc (k, ve :: etl) = some a5 ∧
      a5.start_lba = min (k.start + k.n_lba - 1) e + 1 ∧
      a5.new_val_offset = a5.start_lba - s0 ∧
      Pieces cfg v s0 s e a5.start_lba a5.replace_kv := by
  have hnseq : ¬ v.seqId ≤ ve.seqId := by omega
  obtain ⟨a1, h1, h1s, h1o, h1p⟩ := put_gap_older cfg v tl s0 s e p acc k hb hk4 hp hst hoff hpc
  have hp1 : max p k.start ≤ e := by omega
  obtain ⟨a2, eoff, h2, h2s, h2o, h2p⟩ := put_split_start_older cfg v s0 s e (max p k.start) a1 k ve
    etl hb hk3 (by omega) (by omega) hp1 h1s h1o h1p
  obtain ⟨a4, eoff1, h4, h4s, h4o, h4p⟩ := put_overlap_older cfg req v tl s0 s e (max p k.start) a2
    k ve etl eoff hb hk1 hk2 (by omega) hp1 h2s h2o h2p
  obtain ⟨a5, h5, h5s, h5o, h5p⟩ := put_split_end_older cfg v s0 s e a4 k ve etl eoff1 hk1 hk2 hk3
    hk4 h4s h4p
  refine ⟨a5, ?_, by rw [h5s, h4s], by rw [h5o, h4o, h5s, h4s], by rw [h5s, h4s]; exact h5p⟩
  simp only [put_step, hnseq, if_false, h1, h2, h4]
  exact h5

theorem put_loop_older (cfg : MapCfg) (req : Bool) (v : ValueEntry) (tl : List ValueEntry)
    (s0 s e : Nat) (hb : PutBounds cfg v s0 s e) :
    ∀ (match_kv : List (MappingKey × MappingValue)) (acc : PutAcc) (p : Nat),
      match_kv.Pairwise (fun a b => a.1.start + a.1.n_lba ≤ b.1.start) →
      (∀ kv ∈ match_kv, OlderOverlapping v s e kv ∧ p < kv.1.start + kv.1.n_lba ∧
        (kv.1.start < p → p = s)) →
      acc.start_lba = p → acc.new_val_offset = p - s0 → Pieces cfg v s0 s e p acc.replace_kv →
      ∃ acc1, put_loop cfg req e (v :: tl) v acc match_kv = some acc1 ∧
        acc1.new_val_offset = acc1.start_lba - s0 ∧
        Pieces cfg v s0 s e acc1.start_lba acc1.replace_kv := by
  intro match_kv
  induction match_kv with
  | nil =>
    intro acc p _ _ hst hoff hpc
    exact ⟨acc, rfl, by rw [hoff, hst], by rw [hst]; exact hpc⟩
  | cons kv rest ih =>
    intro acc p hpw hall hst hoff hpc
    obtain ⟨⟨⟨ve, etl, hval, hseq⟩, hk1, hk2, hk3, hk4, _⟩, hk5, hk6⟩ :=
      hall kv (List.mem_cons_self _ _)
    obtain ⟨k, val⟩ := kv
    simp only at hval hk1 hk2 hk3 hk4 hk5 hk6
    subst hval
    have hse := hb.se
    have hs0 := hb.s0s
    have hp : p ≤ e := by
      by_cases h : k.start < p
      · rw [hk6 h]; exact hse
      · omega
    obtain ⟨a5, h5, h5s, h5o, h5p⟩ := put_step_older cfg req v tl s0 s e p acc k ve etl hb hseq
      hk1 hk2 hk3 hk4 hk5 hk6 hp hst hoff hpc
    have hpw' := List.pairwise_cons.1 hpw
    obtain ⟨acc1, h6, h6o, h6p⟩ := ih a5 a5.start_lba hpw'.2 (by
      intro kv1 hkv1
      have hord := hpw'.1 kv1 hkv1
      simp only at hord
      obtain ⟨hoo, _, _⟩ := hall kv1 (List.mem_cons_of_mem _ hkv1)
      have hn1 := hoo.2.2.1
      refine ⟨hoo, ?_, ?_⟩
      · rw [h5s]; omega
      · intro hlt; rw [h5s] at hlt; omega) rfl h5o h5p
    exact ⟨acc1, by simp only [put_loop, h5]; exact h6, h6o, h6p⟩

/-- C7. A range put of the single-entry value `[v]` whose key is `new_key` (the range
`[s, e]` of the put), processed by `match_item_cb_put` on any sub-range `[ss, se]` of the key,
the whole key included, where the matched existing entries are sorted and disjoint, overlap
`[ss, se]` and carry a sequence id lower than `v`: the callback returns, and every LBA `l` of
`[ss, se]` is covered by exactly one entry of `replace_kv`; that entry holds one value entry
with the sequence id and block id of `v`, block offset
`v.blk_offset + (vol_page_size / data_pagesz) * (start of the entry - start of the key)`, as
many LBAs as its key, and the checksums of `v` from position
`start of the entry - start of the key` on. -/
theorem put_over_older_entries_installs_value (cfg : MapCfg) (req : Bool) (v : ValueEntry)
    (new_key : MappingKey) (ss se : Nat) (match_kv : List (MappingKey × MappingValue))
    (hks : new_key.start ≤ ss) (hse : ss ≤ se) (hke : se < new_key.start + new_key.n_lba)
    (he48 : se < 281474976710656) (hn8 : new_key.n_lba ≤ 255)
    (hblk : v.blk_offset + (cfg.m_vol_page_size / cfg.data_pagesz) * new_key.n_lba ≤
      v.blkId.nblks)
    (hnblks : v.blkId.nblks ≤ 255)
    (hsorted : match_kv.Pairwise (fun a b => a.1.start + a.1.n_lba ≤ b.1.start))
    (holder : ∀ kv ∈ match_kv, OlderOverlapping v ss se kv) :
    ∃ rkv fbes,
      match_item_cb_put cfg req new_key [v] ss se match_kv = some (rkv, fbes) ∧
      ∀ l, ss ≤ l → l ≤ se →
        ∃ k ve, entries_at rkv l = [(k, [ve])] ∧
          ve.seqId = v.seqId ∧ ve.blkId = v.blkId ∧
          ve.blk_offset = v.blk_offset +
            (cfg.m_vol_page_size / cfg.data_pagesz) * (k.start - new_key.start) ∧
          ve.nlba = k.n_lba ∧
          ve.carr = (v.carr.drop (k.start - new_key.start)).take k.n_lba ∧
          ss ≤ k.start := by
  have hmul : (cfg.m_vol_page_size / cfg.data_pagesz) * (se - new_key.start + 1) ≤
      (cfg.m_vol_page_size / cfg.data_pagesz) * new_key.n_lba :=
    Nat.mul_le_mul_left _ (by omega)
  have hb : PutBounds cfg v new_key.start ss se := ⟨hks, hse, he48, by omega, by omega⟩
  have h0 : Pieces cfg v new_key.start ss se ss [] := by
    refine ⟨le_refl _, by omega, ?_, ?_⟩
    · intro l h1 h2; omega
    · intro l _ _; rfl
  have hinit : u32 (u64_sub ss new_key.start) = ss - new_key.start := by
    rw [u64_sub_of_le hks (by omega), u32_of_lt (by omega)]
  obtain ⟨acc1, h1, h1o, h1p⟩ := put_loop_older cfg req v [] new_key.start ss se hb match_kv
    ⟨ss, u32 (u64_sub ss new_key.start), [], []⟩ ss hsorted (by
      intro kv hkv
      have hoo := holder kv hkv
      exact ⟨hoo, hoo.2.2.2.2.2, fun _ => rfl⟩) rfl hinit h0
  have hfin : ∃ rkv, match_item_cb_put cfg req new_key [v] ss se match_kv =
      some (rkv, acc1.fbes) ∧ Pieces cfg v new_key.start ss se (se + 1) rkv := by
    by_cases hle : acc1.start_lba ≤ se
    · have hanew := add_new_interval_new cfg v [] new_key.start acc1.start_lba se
        acc1.replace_kv (by have := h1p.lo; omega) hle
        he48 (by have := h1p.lo; omega) (hb.blk_at hle) (by have := h1p.lo; omega)
      refine ⟨_, ?_, h1p.append_new se hle (le_refl _)⟩
      simp only [match_item_cb_put, h1, hle, if_true, h1o, hanew]
    · have heq : acc1.start_lba = se + 1 := by have := h1p.hi; omega
      refine ⟨acc1.replace_kv, ?_, by rw [← heq]; exact h1p⟩
      simp only [match_item_cb_put, h1, hle, if_false]
  obtain ⟨rkv, hres, hpc⟩ := hfin
  refine ⟨rkv, acc1.fbes, hres, ?_⟩
  intro l hl1 hl2
  obtain ⟨a, n, hent, hsa⟩ := hpc.done l hl1 (by omega)
  exact ⟨⟨a, n⟩, _, hent, rfl, rfl, rfl, rfl, rfl, hsa⟩

/-! ## Samples: the code at concrete inputs -/

/-- C4 (code evaluated at the failing input). `truncate(20)` on a log device whose data starts
at offset 0 with only 10 bytes written: the invariant
`m_write_sz_in_total + m_reserved_sz <= size` holds before the call, the forward branch
subtracts 20 from the unsigned counter without a check, and the call returns with
`m_write_sz_in_total = 2^64 - 10`, far above the size of 100. The loop-back branch has the
missing check: with the data start at 50 the same call stops at its release assertion. -/
theorem truncate_forward_underflows_write_size :
    vdev_sample.space_ok ∧
    vdev_sample.truncate 20 =
      some { vdev_sample with m_write_sz_in_total := 18446744073709551606,
                              data_start_offset := 20 } ∧
    ¬ ({ vdev_sample with m_write_sz_in_total := 18446744073709551606,
                          data_start_offset := 20 } : VirtualDev).space_ok ∧
    ({ vdev_sample with data_start_offset := 50 } : VirtualDev).truncate 20 = none := by
  unfold VirtualDev.space_ok
  decide

theorem alloc_next_append_blk_within_chunk_witness :
    (vdev_striped_sample.alloc_next_append_blk 30).2 = 100 ∧
    (vdev_striped_sample.alloc_next_append_blk 30).2 < vdev_striped_sample.size ∧
    (vdev_striped_sample.alloc_next_append_blk 30).2 % vdev_striped_sample.m_chunk_size + 30 ≤
      vdev_striped_sample.m_chunk_size :=
  have key := alloc_next_append_blk_within_chunk vdev_striped_sample 30 (by decide) (by decide)
    (by decide) (by decide) (by decide) (by decide)
  ⟨by decide, key.1, key.2.1⟩

/-- C6 (code evaluated at the failing input). A put of LBAs 5..10 (sequence id 5, block id
1000) meets the existing entry 3..7 with sequence id 9. The existing entry is emitted
unchanged and one free-block entry naming block id 1000 is pushed, but it has offset 0 and
length 5, the whole length of the existing entry, although only the 3 LBAs 5..7 of the new
range are overlapped; `start_lba` then jumps to 10, so LBAs 8 and 9 get no entry at all. With
a gap in front of the newer entry (put of 0..9 over the existing entry 5..9) the pushed offset
is 0 instead of 5 and the tail interval is emitted on top of the existing key. -/
theorem match_item_cb_put_newer_entry_frees_whole_entry :
    match_item_cb_put put_cfg_sample true ⟨5, 6⟩ [put_new_entry_sample] 5 10
        [put_newer_existing_sample] =
      some ([put_newer_existing_sample, (⟨10, 1⟩, [⟨5, ⟨1000, 6, 0⟩, 1, 5, [55]⟩])],
            [⟨⟨1000, 6, 0⟩, 0, 5⟩]) ∧
    ((List.range' 5 6).filter
      (fun l => decide (put_newer_existing_sample.1.covers l))).length = 3 ∧
    match_item_cb_put put_cfg_sample true ⟨0, 10⟩
        [⟨5, ⟨1000, 10, 0⟩, 10, 0, [50, 51, 52, 53, 54, 55, 56, 57, 58, 59]⟩] 0 9
        [(⟨5, 5⟩, [⟨9, ⟨200, 5, 0⟩, 5, 0, [7, 7, 7, 7, 7]⟩])] =
      some ([(⟨5, 5⟩, [⟨9, ⟨200, 5, 0⟩, 5, 0, [7, 7, 7, 7, 7]⟩]),
             (⟨5, 5⟩, [⟨5, ⟨1000, 10, 0⟩, 5, 5, [55, 56, 57, 58, 59]⟩])],
            [⟨⟨1000, 10, 0⟩, 0, 5⟩]) := by
  decide

theorem put_over_older_entries_installs_value_witness :
    ∃ rkv fbes,
      match_item_cb_put put_cfg_sample true ⟨5, 6⟩ [put_new_entry_sample] 7 10
        put_older_sample = some (rkv, fbes) ∧
      ∀ l, 7 ≤ l → l ≤ 10 →
        ∃ k ve, entries_at rkv l = [(k, [ve])] ∧
          ve.seqId = put_new_entry_sample.seqId ∧ ve.blkId = put_new_entry_sample.blkId ∧
          ve.blk_offset = put_new_entry_sample.blk_offset +
            (put_cfg_sample.m_vol_page_size / put_cfg_sample.data_pagesz) * (k.start - 5) ∧
          ve.nlba = k.n_lba ∧
          ve.carr = (put_new_entry_sample.carr.drop (k.start - 5)).take k.n_lba ∧
          7 ≤ k.start :=
  put_over_older_entries_installs_value put_cfg_sample true put_new_entry_sample ⟨5, 6⟩ 7 10
    put_older_sample (by decide) (by decide) (by decide) (by decide) (by decide) (by decide)
    (by decide) (by decide)
    (by
      intro kv hkv
      simp only [put_older_sample, List.mem_cons, List.mem_singleton, List.not_mem_nil,
        or_false] at hkv
      rcases hkv with rfl | rfl
      · exact ⟨⟨_, _, rfl, by decide⟩, by decide, by decide, by decide, by decide, by decide⟩
      · exact ⟨⟨_, _, rfl, by decide⟩, by decide, by decide, by decide, by decide, by decide⟩)

theorem replay_put_keeps_index_entries_witness :
    ∃ fbes, match_item_cb_put put_cfg_sample false ⟨5, 6⟩ [put_new_entry_sample] 5 10
      put_newer_cover_sample = some (put_newer_cover_sample, fbes) :=
  replay_put_keeps_index_entries put_cfg_sample false ⟨5, 6⟩ put_new_entry_sample [] 5 10
    put_newer_cover_sample (by decide)
    (by
      intro kv hkv
      simp only [put_newer_cover_sample, List.mem_cons, List.mem_singleton, List.not_mem_nil,
        or_false] at hkv
      rcases hkv with rfl | rfl
      · exact ⟨_, _, rfl, by decide, by decide⟩
      · exact ⟨_, _, rfl, by decide, by decide⟩)
    (by
      intro l h1 h2
      interval_cases l <;> decide)
    (by decide)

/-- C9 (code evaluated at the failing input). Retry of a write of LBAs 0..3 backed by one
block id of 4 blocks after the first attempt installed LBAs 0..1 (`end_lba = 1`). The branch
for the partly written block id assigns `start_lba = initial_start_lba` first, so the three
differences `initial_start_lba - start_lba` that follow are 0: the put issued has key
`[2, 5]` (4 LBAs, two of them beyond the request), block offset 0 and the checksums of LBAs
0..3, where the remaining range is `[2, 3]` with block offset 2 and the checksums of LBAs 2
and 3; the recorded `end_lba` becomes 5. -/
theorem update_indx_tbl_retry_puts_whole_blkid :
    (update_indx_tbl put_all 4096 4096 vreq_retry_sample).2.2 =
      [(⟨2, 4⟩, ⟨9, ⟨100, 4, 0⟩, 4, 0, [10, 11, 12, 13]⟩)] ∧
    (update_indx_tbl put_all 4096 4096 vreq_retry_sample).2.1.cp_info_list =
      [⟨1, 7, 0⟩, ⟨5, 8, 0⟩] := by
  decide

/-- C10 (code evaluated at the failing input). Two block ids of 4 blocks back a write of 8
LBAs of which 6 were installed. The first block id is pushed whole; for the second one the
code passes the offset `data_size - size_written` to `get_blkid_at`, so the extent pushed is
blocks 202..203, the last two blocks of the block id, while LBAs 4 and 5 are backed by its
first two blocks 200..201. -/
theorem update_indx_alloc_blkids_pushes_trailing_extent :
    update_indx_alloc_blkids 4096 4096 vreq_short_sample = [⟨100, 4, 0⟩, ⟨202, 2, 0⟩] ∧
    (⟨200, 4, 0⟩ : BlkId).get_blkid_at 0 (2 * 4096) 4096 = ⟨200, 2, 0⟩ := by
  decide

/-! ## Append-log virtual device: truncate -/

theorem off_t_val_of_lt {x : Nat} (h : x < 9223372036854775808) : off_t_val x = (x : Int) := by
  unfold off_t_val
  have h1 : x % 18446744073709551616 = x := Nat.mod_eq_of_lt (by omega)
  rw [h1, if_pos h]

theorem get_tail_offset_false_eq (vd : VirtualDev)
    (hS : vd.size < 9223372036854775808) (hds : vd.data_start_offset < vd.size)
    (hw : vd.m_write_sz_in_total ≤ vd.size) :
    vd.get_tail_offset false =
      if vd.data_start_offset + vd.m_write_sz_in_total ≥ vd.size
      then vd.data_start_offset + vd.m_write_sz_in_total - vd.size
      else vd.data_start_offset + vd.m_write_sz_in_total := by
  unfold VirtualDev.get_tail_offset
  have h1 : u64 (vd.data_start_offset + vd.m_write_sz_in_total)
      = vd.data_start_offset + vd.m_write_sz_in_total := u64_of_lt (by omega)
  simp only [h1, Bool.false_eq_true, if_false]
  split_ifs with h
  · exact u64_sub_of_le h (by omega)
  · rfl

/-- C17. For an append-log `VirtualDev` whose size fits an `off_t`, with
`data_start_offset < size` and `m_write_sz_in_total + m_reserved_sz <= size`, and an offset
`x < size` whose circular distance `d` from the data start is at most the written bytes:
`truncate(x)` returns, sets `data_start_offset` to `x`, lowers `m_write_sz_in_total` by
exactly `d` and leaves `get_tail_offset(false)`, the size and the reservation unchanged, in
the forward and in the loop-back branch. -/
theorem truncate_moves_data_start (vd : VirtualDev) (x : Nat)
    (hS : vd.size < 9223372036854775808)
    (hds : vd.data_start_offset < vd.size)
    (hsp : vd.m_write_sz_in_total + vd.m_reserved_sz ≤ vd.size)
    (hx : x < vd.size)
    (hd : (if x ≥ vd.data_start_offset then x - vd.data_start_offset
            else vd.size - (vd.data_start_offset - x)) ≤ vd.m_write_sz_in_total) :
    ∃ vd1, vd.truncate x = some vd1 ∧
      vd1.data_start_offset = x ∧
      vd1.m_write_sz_in_total +
          (if x ≥ vd.data_start_offset then x - vd.data_start_offset
            else vd.size - (vd.data_start_offset - x)) = vd.m_write_sz_in_total ∧
      vd1.get_tail_offset false = vd.get_tail_offset false ∧
      vd1.size = vd.size ∧ vd1.m_reserved_sz = vd.m_reserved_sz := by
  have hox : off_t_val x = (x : Int) := off_t_val_of_lt (by omega)
  have hod : off_t_val vd.data_start_offset = (vd.data_start_offset : Int) :=
    off_t_val_of_lt (by omega)
  by_cases hge : x ≥ vd.data_start_offset
  · rw [if_pos hge] at hd ⊢
    have hs1 : u64_sub x vd.data_start_offset = x - vd.data_start_offset :=
      u64_sub_of_le hge (by omega)
    have hs2 : u64_sub vd.m_write_sz_in_total (x - vd.data_start_offset)
        = vd.m_write_sz_in_total - (x - vd.data_start_offset) := u64_sub_of_le hd (by omega)
    have ht : vd.truncate x = some { vd with
        m_write_sz_in_total := vd.m_write_sz_in_total - (x - vd.data_start_offset),
        data_start_offset := x, m_truncate_done := true } := by
      unfold VirtualDev.truncate
      simp only [hox, hod]
      rw [if_pos (by exact_mod_cast hge), hs1, hs2]
    refine ⟨_, ht, rfl, ?_, ?_, rfl, rfl⟩
    · show vd.m_write_sz_in_total - (x - vd.data_start_offset) + (x - vd.data_start_offset) = _
      omega
    · have e := get_tail_offset_false_eq { vd with
          m_write_sz_in_total := vd.m_write_sz_in_total - (x - vd.data_start_offset),
          data_start_offset := x, m_truncate_done := true } hS hx
          (by show vd.m_write_sz_in_total - _ ≤ vd.size; omega)
      rw [e, get_tail_offset_false_eq vd hS hds (by omega)]
      show (if x + (vd.m_write_sz_in_total - (x - vd.data_start_offset)) ≥ vd.size then _ else _)
        = _
      have : x + (vd.m_write_sz_in_total - (x - vd.data_start_offset))
          = vd.data_start_offset + vd.m_write_sz_in_total := by omega
      simp only [this]
  · rw [if_neg hge] at hd ⊢
    have hlt : x < vd.data_start_offset := by omega
    have hs0 : u64_sub vd.data_start_offset x = vd.data_start_offset - x :=
      u64_sub_of_le (by omega) (by omega)
    have hs1 : u64_sub vd.size (vd.data_start_offset - x) = vd.size - (vd.data_start_offset - x) :=
      u64_sub_of_le (by omega) (by omega)
    have hs2 : u64_sub vd.m_write_sz_in_total (vd.size - (vd.data_start_offset - x))
        = vd.m_write_sz_in_total - (vd.size - (vd.data_start_offset - x)) :=
      u64_sub_of_le hd (by omega)
    have htl : vd.get_tail_offset true
        = vd.data_start_offset + vd.m_write_sz_in_total + vd.m_reserved_sz - vd.size := by
      unfold VirtualDev.get_tail_offset
      have h1 : u64 (vd.data_start_offset + vd.m_write_sz_in_total)
          = vd.data_start_offset + vd.m_write_sz_in_total := u64_of_lt (by omega)
      have h2 : u64 (vd.data_start_offset + vd.m_write_sz_in_total + vd.m_reserved_sz)
          = vd.data_start_offset + vd.m_write_sz_in_total + vd.m_reserved_sz :=
        u64_of_lt (by omega)
      simp only [h1, if_true, h2]
      rw [if_pos (by omega)]
      exact u64_sub_of_le (by omega) (by omega)
    have hot : off_t_val (vd.get_tail_offset true) = ((vd.get_tail_offset true : Nat) : Int) :=
      off_t_val_of_lt (by rw [htl]; omega)
    have ht : vd.truncate x = some { vd with
        m_write_sz_in_total :=
          vd.m_write_sz_in_total - (vd.size - (vd.data_start_offset - x)),
        data_start_offset := x, m_truncate_done := true } := by
      unfold VirtualDev.truncate
      simp only [hox, hod, hot]
      rw [if_neg (by omega), hs0, hs1, hs2, if_pos]
      refine ⟨hd, ?_⟩
      rw [htl]
      exact_mod_cast (by omega : x ≤ vd.data_start_offset + vd.m_write_sz_in_total
        + vd.m_reserved_sz - vd.size)
    refine ⟨_, ht, rfl, ?_, ?_, rfl, rfl⟩
    · show vd.m_write_sz_in_total - (vd.size - (vd.data_start_offset - x))
        + (vd.size - (vd.data_start_offset - x)) = _
      omega
    · have e := get_tail_offset_false_eq { vd with
          m_write_sz_in_total :=
            vd.m_write_sz_in_total - (vd.size - (vd.data_start_offset - x)),
          data_start_offset := x, m_truncate_done := true } hS hx
          (by show vd.m_write_sz_in_total - _ ≤ vd.size; omega)
      rw [e, get_tail_offset_false_eq vd hS hds (by omega)]
      show (if x + (vd.m_write_sz_in_total - (vd.size - (vd.data_start_offset - x))) ≥ vd.size
        then x + (vd.m_write_sz_in_total - (vd.size - (vd.data_start_offset - x))) - vd.size
        else x + (vd.m_write_sz_in_total - (vd.size - (vd.data_start_offset - x)))) = _
      rw [if_neg (by omega), if_pos (by omega)]
      omega

/-- The statement of `truncate_moves_data_start` at the wrapped sample log, truncated to
offset 5 across the end of the device. -/
theorem truncate_moves_data_start_witness :
    ∃ vd1, vdev_wrapped_sample.truncate 5 = some vd1 ∧ vd1.data_start_offset = 5 ∧
      vd1.m_write_sz_in_total + 55 = 60 ∧
      vd1.get_tail_offset false = vdev_wrapped_sample.get_tail_offset false :=
  (truncate_moves_data_start vdev_wrapped_sample 5 (by decide) (by decide) (by decide)
    (by decide) (by decide)).imp fun _ h => ⟨h.1, h.2.1, h.2.2.1, h.2.2.2.1⟩

/-! ## Append-log virtual device: the high-watermark callback -/

theorem get_tail_offset_ne_invalid (vd : VirtualDev) (b : Bool) (h0 : 0 < vd.size)
    (hS : vd.size < 18446744073709551615) : vd.get_tail_offset b ≠ INVALID_OFFSET := by
  have key : ∀ t, t < 18446744073709551616 →
      (if t ≥ vd.size then u64_sub t vd.size else t) ≠ 18446744073709551615 := by
    intro t ht
    split_ifs with h
    · rw [u64_sub_of_le h ht]
      omega
    · omega
  have hu : ∀ x, u64 x < 18446744073709551616 := fun x => Nat.mod_lt _ (by decide)
  unfold VirtualDev.get_tail_offset INVALID_OFFSET
  cases b
  · exact key _ (hu _)
  · exact key _ (hu _)

theorem high_watermark_check_spec (vd : VirtualDev) (h0 : 0 < vd.size)
    (h100 : 100 * vd.size < 18446744073709551616) (hu : vd.get_used_space ≤ vd.size) :
    vd.high_watermark_check =
      if 100 * vd.get_used_space / vd.size ≥ 80 ∧ vd.m_hwm_cb = true ∧ vd.m_truncate_done = true
      then { vd with hwm_cb_calls := vd.hwm_cb_calls + 1, m_truncate_done := false }
      else vd := by
  unfold VirtualDev.high_watermark_check vdev_high_watermark_per
  have h1 : u64 (100 * vd.get_used_space) = 100 * vd.get_used_space := u64_of_lt (by omega)
  have h2 : 100 * vd.get_used_space / vd.size ≤ 100 := by
    apply Nat.div_le_of_le_mul
    nlinarith
  have h3 : 100 * vd.get_used_space / vd.size % 4294967296 = 100 * vd.get_used_space / vd.size :=
    Nat.mod_eq_of_lt (by omega)
  simp only [h1, h3]
  split_ifs <;> simp_all

theorem u64_add_u64_right (a b : Nat) : u64 (a + u64 b) = u64 (a + b) := by
  unfold u64
  rw [Nat.add_mod, Nat.mod_mod, ← Nat.add_mod]

theorem u64_add_u64_left (a b : Nat) : u64 (u64 a + b) = u64 (a + b) := by
  unfold u64
  rw [Nat.add_mod, Nat.mod_mod, ← Nat.add_mod]

theorem reserve_at_tail_hwm (s : VirtualDev) (sz : Nat) (h0 : 0 < s.size)
    (h100 : 100 * s.size < 18446744073709551616)
    (hg : u64 (s.get_used_space + sz) ≤ s.size) :
    (s.reserve_at_tail sz).2 ≠ INVALID_OFFSET ∧
    (s.reserve_at_tail sz).1.size = s.size ∧
    (s.reserve_at_tail sz).1.m_hwm_cb = s.m_hwm_cb ∧
    (s.reserve_at_tail sz).1.get_used_space = u64 (s.get_used_space + sz) ∧
    (s.reserve_at_tail sz).1.hwm_cb_calls = s.hwm_cb_calls +
      (if 100 * u64 (s.get_used_space + sz) / s.size ≥ 80 ∧ s.m_hwm_cb = true ∧
          s.m_truncate_done = true then 1 else 0) ∧
    (s.reserve_at_tail sz).1.m_truncate_done =
      (if 100 * u64 (s.get_used_space + sz) / s.size ≥ 80 ∧ s.m_hwm_cb = true ∧
          s.m_truncate_done = true then false else s.m_truncate_done) := by
  have hused : ({ s with m_reserved_sz := u64 (s.m_reserved_sz + sz) } : VirtualDev).get_used_space
      = u64 (s.get_used_space + sz) := by
    unfold VirtualDev.get_used_space
    show u64 (s.m_write_sz_in_total + u64 (s.m_reserved_sz + sz)) = _
    rw [u64_add_u64_right, u64_add_u64_left, Nat.add_assoc]
  have hspec := high_watermark_check_spec
    { s with m_reserved_sz := u64 (s.m_reserved_sz + sz) } h0 h100 (by rw [hused]; exact hg)
  rw [hused] at hspec
  unfold VirtualDev.reserve_at_tail
  simp only
  refine ⟨get_tail_offset_ne_invalid s true h0 (by omega), ?_⟩
  rw [hspec]
  split_ifs with hc
  · exact ⟨rfl, rfl, hused, rfl, rfl⟩
  · exact ⟨rfl, rfl, hused, rfl, rfl⟩

theorem alloc_next_append_blk_cases (vd : VirtualDev) (sz : Nat) :
    vd.alloc_next_append_blk sz = (vd, INVALID_OFFSET) ∨
    ∃ s : VirtualDev, vd.alloc_next_append_blk sz = s.reserve_at_tail sz ∧ s.size = vd.size ∧
      s.m_hwm_cb = vd.m_hwm_cb ∧ s.hwm_cb_calls = vd.hwm_cb_calls ∧
      s.m_truncate_done = vd.m_truncate_done ∧ u64 (s.get_used_space + sz) ≤ s.size := by
  unfold VirtualDev.alloc_next_append_blk
  by_cases h1 : u64 (vd.get_used_space + sz) > vd.size
  · rw [if_pos h1]
    exact Or.inl rfl
  · rw [if_neg h1]
    simp only
    split_ifs with h2 h3
    · exact Or.inr ⟨vd, rfl, rfl, rfl, rfl, rfl, by omega⟩
    · refine Or.inr ⟨_, rfl, rfl, rfl, rfl, rfl, ?_⟩
      refine le_trans (le_of_eq ?_) h3
      unfold VirtualDev.update_end_of_chunk VirtualDev.get_used_space
      simp only [u64_add_u64_left]
      congr 1
      omega
    · exact Or.inl rfl

theorem alloc_next_append_blk_hwm (vd : VirtualDev) (sz : Nat) (h0 : 0 < vd.size)
    (h100 : 100 * vd.size < 18446744073709551616) :
    (vd.alloc_next_append_blk sz).1.size = vd.size ∧
    (vd.alloc_next_append_blk sz).1.m_hwm_cb = vd.m_hwm_cb ∧
    (vd.alloc_next_append_blk sz).1.hwm_cb_calls = vd.hwm_cb_calls +
      (if (vd.alloc_next_append_blk sz).2 ≠ INVALID_OFFSET ∧
          100 * (vd.alloc_next_append_blk sz).1.get_used_space / vd.size ≥ 80 ∧
          vd.m_hwm_cb = true ∧ vd.m_truncate_done = true then 1 else 0) ∧
    (vd.alloc_next_append_blk sz).1.m_truncate_done =
      (if (vd.alloc_next_append_blk sz).2 ≠ INVALID_OFFSET ∧
          100 * (vd.alloc_next_append_blk sz).1.get_used_space / vd.size ≥ 80 ∧
          vd.m_hwm_cb = true ∧ vd.m_truncate_done = true then false
        else vd.m_truncate_done) := by
  rcases alloc_next_append_blk_cases vd sz with h | ⟨s, hs, h1, h2, h3, h4, h5⟩
  · rw [h]
    simp
  · obtain ⟨a, b, c, d, e, f⟩ := reserve_at_tail_hwm s sz (by omega) (by omega) h5
    rw [hs, d, e, f, b, c, h1, h2, h3, h4]
    simp [a]

theorem since_last_truncate_append (pre mid : List LogEvent)
    (h : LogEvent.truncated ∉ mid) :
    since_last_truncate (pre ++ mid) = since_last_truncate pre ++ mid := by
  unfold since_last_truncate
  rw [List.reverse_append, List.takeWhile_append_of_pos, List.reverse_append, List.reverse_reverse]
  intro a ha
  have : a ≠ LogEvent.truncated := fun e => h (e ▸ List.mem_reverse.mp ha)
  simpa using this

theorem since_last_truncate_truncated (tr : List LogEvent) :
    since_last_truncate (tr ++ [LogEvent.truncated]) = [] := by
  unfold since_last_truncate
  simp

theorem oncePerTruncate_snoc (tr : List LogEvent) (e : LogEvent) (h : OncePerTruncate tr)
    (he : e = LogEvent.hwm_cb → LogEvent.hwm_cb ∉ since_last_truncate tr) :
    OncePerTruncate (tr ++ [e]) := by
  intro pre mid post heq hmid
  rcases List.eq_nil_or_concat post with hp | ⟨post1, b, hp⟩
  · subst hp
    rw [List.append_nil] at heq
    rcases List.eq_nil_or_concat mid with hm | ⟨mid1, c, hm⟩
    · subst hm; simp
    · subst hm
      rw [List.concat_eq_append, ← List.append_assoc] at heq
      obtain ⟨h1, h2⟩ := List.append_inj' heq rfl
      have hce : c = e := by simpa using h2.symm
      subst hce
      rw [List.concat_eq_append] at hmid ⊢
      have hm1 : LogEvent.truncated ∉ mid1 := fun hx => hmid (List.mem_append_left _ hx)
      cases c with
      | truncated => exact absurd (List.mem_append_right _ (List.mem_singleton_self _)) hmid
      | hwm_cb =>
        have hno := he rfl
        rw [h1, since_last_truncate_append pre mid1 hm1] at hno
        have : mid1.count LogEvent.hwm_cb = 0 :=
          List.count_eq_zero_of_not_mem fun hx => hno (List.mem_append_right _ hx)
        rw [List.count_append, this]
        simp
  · subst hp
    rw [List.concat_eq_append, ← List.append_assoc] at heq
    have h1 : tr = pre ++ mid ++ post1 := (List.append_inj' heq rfl).1
    exact h pre mid post1 h1 hmid

theorem truncate_rearms (vd vd1 : VirtualDev) (x : Nat) (h : vd.truncate x = some vd1) :
    vd1.size = vd.size ∧ vd1.m_hwm_cb = vd.m_hwm_cb ∧ vd1.m_truncate_done = true := by
  unfold VirtualDev.truncate at h
  simp only at h
  split_ifs at h <;> (cases h; exact ⟨rfl, rfl, rfl⟩)

theorem log_step_alloc (vd : VirtualDev) (sz : Nat) (h0 : 0 < vd.size)
    (h100 : 100 * vd.size < 18446744073709551616) (hcb : vd.m_hwm_cb = true) :
    vd.log_step (LogOp.alloc sz) = some ((vd.alloc_next_append_blk sz).1,
      if (vd.alloc_next_append_blk sz).2 ≠ INVALID_OFFSET ∧
          100 * (vd.alloc_next_append_blk sz).1.get_used_space / vd.size ≥ 80 ∧
          vd.m_truncate_done = true then [LogEvent.hwm_cb] else []) := by
  obtain ⟨_, _, h3, _⟩ := alloc_next_append_blk_hwm vd sz h0 h100
  unfold VirtualDev.log_step
  simp only [h3, hcb, true_and]
  split_ifs <;> simp

/-- The invariant of the histories of an append log: the callback is armed
(`m_truncate_done`) exactly when no callback was delivered since the last truncate. -/
theorem log_step_inv (vd vd1 : VirtualDev) (tr ev : List LogEvent) (op : LogOp)
    (h0 : 0 < vd.size) (h100 : 100 * vd.size < 18446744073709551616)
    (hcb : vd.m_hwm_cb = true)
    (harm : vd.m_truncate_done = true ↔ LogEvent.hwm_cb ∉ since_last_truncate tr)
    (hone : OncePerTruncate tr) (hs : vd.log_step op = some (vd1, ev)) :
    vd1.size = vd.size ∧ vd1.m_hwm_cb = true ∧
    (vd1.m_truncate_done = true ↔ LogEvent.hwm_cb ∉ since_last_truncate (tr ++ ev)) ∧
    OncePerTruncate (tr ++ ev) := by
  cases op with
  | alloc sz =>
    obtain ⟨a1, a2, _, a4⟩ := alloc_next_append_blk_hwm vd sz h0 h100
    rw [log_step_alloc vd sz h0 h100 hcb] at hs
    simp only [Option.some.injEq, Prod.mk.injEq] at hs
    obtain ⟨hv, he⟩ := hs
    subst hv
    refine ⟨a1, a2.trans hcb, ?_⟩
    rw [a4]
    simp only [hcb, true_and] at he ⊢
    split_ifs at he ⊢ with hc
    · subst he
      refine ⟨?_, oncePerTruncate_snoc tr _ hone fun _ => harm.mp hc.2.2⟩
      rw [since_last_truncate_append tr _ (by simp)]
      simp
    · subst he
      rw [List.append_nil]
      exact ⟨harm, hone⟩
  | truncate x =>
    unfold VirtualDev.log_step at hs
    cases ht : vd.truncate x with
    | none => simp [ht] at hs
    | some v =>
      simp only [ht, Option.some.injEq, Prod.mk.injEq] at hs
      obtain ⟨hv, he⟩ := hs
      subst hv; subst he
      obtain ⟨t1, t2, t3⟩ := truncate_rearms vd v x ht
      refine ⟨t1, t2.trans hcb, ?_, oncePerTruncate_snoc tr _ hone (by simp)⟩
      rw [since_last_truncate_truncated]
      simp [t3]

theorem log_run_inv : ∀ (ops : List LogOp) (vd vd1 : VirtualDev) (tr tr1 : List LogEvent),
    0 < vd.size → 100 * vd.size < 18446744073709551616 → vd.m_hwm_cb = true →
    (vd.m_truncate_done = true ↔ LogEvent.hwm_cb ∉ since_last_truncate tr) →
    OncePerTruncate tr → vd.log_run tr ops = some (vd1, tr1) →
    vd1.size = vd.size ∧ vd1.m_hwm_cb = true ∧
    (vd1.m_truncate_done = true ↔ LogEvent.hwm_cb ∉ since_last_truncate tr1) ∧
    OncePerTruncate tr1 := by
  intro ops
  induction ops with
  | nil =>
    intro vd vd1 tr tr1 _ _ hcb harm hone hr
    simp only [VirtualDev.log_run, Option.some.injEq, Prod.mk.injEq] at hr
    obtain ⟨rfl, rfl⟩ := hr
    exact ⟨rfl, hcb, harm, hone⟩
  | cons op ops ih =>
    intro vd vd1 tr tr1 h0 h100 hcb harm hone hr
    unfold VirtualDev.log_run at hr
    cases hs : vd.log_step op with
    | none => simp [hs] at hr
    | some p =>
      obtain ⟨v, ev⟩ := p
      simp only [hs] at hr
      obtain ⟨s1, s2, s3, s4⟩ := log_step_inv vd v tr ev op h0 h100 hcb harm hone hs
      obtain ⟨r1, r2, r3, r4⟩ := ih v vd1 (tr ++ ev) tr1 (by omega) (by omega) s2 s3 s4 hr
      exact ⟨r1.trans s1, r2, r3, r4⟩

/-- C18. For every sequence of `alloc_next_append_blk` and `truncate` calls on a freshly
constructed `VirtualDev` with a high-watermark callback (size positive, `100 * size` within
64 bits): in the state reached, a reservation delivers the callback exactly when it succeeds,
`100 * used / size >= 80` after adding it, and the history holds no callback after its last
truncate; every stretch of the history without a truncate holds at most one callback; and
after a truncate the first successful reservation at or above the mark delivers it again. -/
theorem hwm_callback_once_per_truncate (vd0 vd : VirtualDev) (ops : List LogOp)
    (tr : List LogEvent) (h0 : 0 < vd0.size) (h100 : 100 * vd0.size < 18446744073709551616)
    (hcb : vd0.m_hwm_cb = true) (hnew : vd0.m_truncate_done = true)
    (hrun : vd0.log_run [] ops = some (vd, tr)) :
    (∀ sz, vd.log_step (LogOp.alloc sz) = some ((vd.alloc_next_append_blk sz).1,
        if (vd.alloc_next_append_blk sz).2 ≠ INVALID_OFFSET ∧
            100 * (vd.alloc_next_append_blk sz).1.get_used_space / vd.size ≥ 80 ∧
            LogEvent.hwm_cb ∉ since_last_truncate tr
        then [LogEvent.hwm_cb] else [])) ∧
    (∀ pre mid post, tr = pre ++ mid ++ post → LogEvent.truncated ∉ mid →
        mid.count LogEvent.hwm_cb ≤ 1) ∧
    (∀ x vd1, vd.truncate x = some vd1 →
        LogEvent.hwm_cb ∉ since_last_truncate (tr ++ [LogEvent.truncated]) ∧
        ∀ sz, (vd1.alloc_next_append_blk sz).2 ≠ INVALID_OFFSET →
          100 * (vd1.alloc_next_append_blk sz).1.get_used_space / vd1.size ≥ 80 →
          vd1.log_step (LogOp.alloc sz) =
            some ((vd1.alloc_next_append_blk sz).1, [LogEvent.hwm_cb])) := by
  obtain ⟨r1, r2, r3, r4⟩ := log_run_inv ops vd0 vd [] tr h0 h100 hcb
    (by simp [hnew, since_last_truncate]) (by
      intro pre mid post h _
      have : mid = [] := by
        have := congrArg List.length h
        simp at this
        exact List.eq_nil_of_length_eq_zero (by omega)
      simp [this]) hrun
  refine ⟨fun sz => ?_, r4, fun x vd1 hx => ?_⟩
  · rw [log_step_alloc vd sz (by omega) (by omega) r2]
    simp only [r3]
  · obtain ⟨t1, t2, t3⟩ := truncate_rearms vd vd1 x hx
    refine ⟨by rw [since_last_truncate_truncated]; simp, fun sz ha hu => ?_⟩
    rw [log_step_alloc vd1 sz (by omega) (by omega) (t2.trans r2), if_pos ⟨ha, hu, t3⟩]

/-- The statement of `hwm_callback_once_per_truncate` at the sample log: the second
reservation crosses 80 percent and delivers the callback, the fourth does not. -/
theorem hwm_callback_once_per_truncate_witness :
    vdev_hwm_sample.log_run [] hwm_ops_sample
      = some (vdev_hwm_after_sample, [LogEvent.hwm_cb]) ∧
    vdev_hwm_after_sample.log_step (LogOp.alloc 1)
      = some ((vdev_hwm_after_sample.alloc_next_append_blk 1).1, []) := by
  refine ⟨by decide, ?_⟩
  have h := (hwm_callback_once_per_truncate vdev_hwm_sample vdev_hwm_after_sample
    hwm_ops_sample [LogEvent.hwm_cb] (by decide) (by decide) rfl rfl (by decide)).1 1
  rwa [if_neg (by decide)] at h

/-! ## Append-log virtual device: the read at the seek cursor -/

/-- C19. A read of 100 bytes at offset 50 of the last chunk, which ends at 80, transfers 30
bytes and leaves the seek cursor at 200, the size of the device: not the logical start 0 of
the first chunk, and an offset that `logical_to_dev_offset` finds in no chunk. A read that
crosses the end of the first chunk moves the cursor to 100, the start of the next chunk. -/
theorem read_across_last_chunk_leaves_cursor_at_size :
    (vdev_read_sample.read 100).map (fun r => (r.1.m_seek_cursor, r.2)) = some (200, 30) ∧
    vdev_read_sample.size = 200 ∧
    l2d_devs vdev_read_sample.m_chunk_size vdev_read_sample.m_primary_pdev_chunks_list 0 200
      = none ∧
    vdev_read_sample.get_next_chunk 0 1 = (0, 0) ∧
    (({ vdev_read_sample with m_seek_cursor := 50 } : VirtualDev).read 100).map
      (fun r => (r.1.m_seek_cursor, r.2)) = some (100, 50) := by
  decide

/-! ## Extent index: reads with the gaps filled -/

theorem gapFree_append {a b c : Nat} : ∀ {xs ys : List (MappingKey × MappingValue)},
    GapFree a b xs → GapFree b c ys → GapFree a c (xs ++ ys) := by
  intro xs
  induction xs generalizing a with
  | nil => intro ys h1 h2; cases h1; exact h2
  | cons kv rest ih =>
    intro ys h1 h2
    exact ⟨h1.1, h1.2.1, ih h1.2.2 h2⟩

theorem get_fill_gap_spec : ∀ (n l : Nat), l + n ≤ 281474976710656 →
    (get_fill_gap n l).2 = l + n ∧ GapFree l (l + n) (get_fill_gap n l).1 ∧
    ∀ kv, kv ∈ (get_fill_gap n l).1 ↔ ∃ x, l ≤ x ∧ x < l + n ∧ kv = (⟨x, 1⟩, []) := by
  intro n
  induction n with
  | zero =>
    intro l _
    refine ⟨rfl, rfl, fun kv => ?_⟩
    simp only [get_fill_gap, List.not_mem_nil, false_iff]
    rintro ⟨x, h1, h2, _⟩
    omega
  | succ n ih =>
    intro l hl
    have hu : u64 (l + 1) = l + 1 := u64_of_lt (by omega)
    have hm : MappingKey.make l 1 = ⟨l, 1⟩ := MappingKey.make_of_lt (by omega) (by omega)
    obtain ⟨i1, i2, i3⟩ := ih (l + 1) (by omega)
    simp only [get_fill_gap, hu, hm]
    refine ⟨by omega, ⟨rfl, Nat.one_pos, ?_⟩, fun kv => ?_⟩
    · have : l + 1 + n = l + (n + 1) := by omega
      rw [this] at i2
      exact i2
    · rw [List.mem_cons, i3]
      constructor
      · rintro (h | ⟨x, h1, h2, h3⟩)
        · exact ⟨l, le_refl _, by omega, h⟩
        · exact ⟨x, by omega, by omega, h3⟩
      · rintro ⟨x, h1, h2, h3⟩
        by_cases hx : x = l
        · left; rw [h3, hx]
        · right; exact ⟨x, by omega, by omega, h3⟩

theorem get_gap_count_eq (start last : Nat) (h1 : last ≤ start)
    (h2 : start < 281474976710656) (h3 : start - last < 2147483648) :
    get_gap_count start last = start - last := by
  unfold get_gap_count
  rw [u64_sub_of_le h1 (by omega)]
  have : (start - last) % 4294967296 = start - last := Nat.mod_eq_of_lt (by omega)
  simp only [this]
  rw [if_pos h3]

theorem inRange_of_sorted : ∀ (res : List (MappingKey × MappingValue)) (lo hi1 : Nat),
    lo ≤ hi1 →
    res.Pairwise (fun a b => a.1.start + a.1.n_lba ≤ b.1.start) →
    (∀ kv ∈ res, lo ≤ kv.1.start ∧ 0 < kv.1.n_lba ∧ kv.1.start + kv.1.n_lba ≤ hi1) →
    InRange lo hi1 res := by
  intro res
  induction res with
  | nil => intro lo hi1 h _ _; exact h
  | cons kv rest ih =>
    intro lo hi1 _ hs hin
    obtain ⟨h1, h2, h3⟩ := hin kv (List.mem_cons_self _ _)
    rw [List.pairwise_cons] at hs
    refine ⟨h1, h2, h3, ih _ _ h3 hs.2 fun k hk => ?_⟩
    obtain ⟨_, k2, k3⟩ := hin k (List.mem_cons_of_mem _ hk)
    exact ⟨hs.1 k hk, k2, k3⟩

theorem get_fill_loop_spec : ∀ (res : List (MappingKey × MappingValue)) (last hi1 : Nat),
    hi1 ≤ 281474976710656 → hi1 - last < 2147483648 → InRange last hi1 res →
    last ≤ (get_fill_loop last res).2 ∧ (get_fill_loop last res).2 ≤ hi1 ∧
    GapFree last (get_fill_loop last res).2 (get_fill_loop last res).1 ∧
    (∀ kv ∈ res, kv ∈ (get_fill_loop last res).1) ∧
    (∀ kv ∈ (get_fill_loop last res).1, kv ∈ res ∨ (kv.1.n_lba = 1 ∧ kv.2 = [])) ∧
    (∀ x, last ≤ x → x < (get_fill_loop last res).2 → (∀ k ∈ res, ¬ k.1.covers x) →
      ((⟨x, 1⟩, []) : MappingKey × MappingValue) ∈ (get_fill_loop last res).1) := by
  intro res
  induction res with
  | nil =>
    intro last hi1 _ _ hin
    refine ⟨le_refl _, hin, rfl, by simp, by simp [get_fill_loop], fun x h1 h2 _ => ?_⟩
    simp only [get_fill_loop] at h2
    omega
  | cons kv rest ih =>
    intro last hi1 hhi hd hin
    obtain ⟨h1, h2, h3, h4⟩ := hin
    have hc : get_gap_count kv.1.start last = kv.1.start - last :=
      get_gap_count_eq _ _ h1 (by omega) (by omega)
    have he : u64 (kv.1.end_lba + 1) = kv.1.start + kv.1.n_lba := by
      rw [end_lba_eq kv.1 (by omega) h2, u64_of_lt (by omega)]
      omega
    obtain ⟨g1, g2, g3⟩ := get_fill_gap_spec (kv.1.start - last) last (by omega)
    have hlast : last + (kv.1.start - last) = kv.1.start := by omega
    rw [hlast] at g1 g2 g3
    obtain ⟨i1, i2, i3, i4, i5, i6⟩ := ih (kv.1.start + kv.1.n_lba) hi1 hhi (by omega) h4
    simp only [get_fill_loop, hc, he]
    refine ⟨by omega, i2, gapFree_append g2 ⟨rfl, h2, i3⟩, ?_, ?_, ?_⟩
    · intro k hk
      rcases List.mem_cons.mp hk with hk | hk
      · rw [hk]; simp
      · exact List.mem_append_right _ (List.mem_cons_of_mem _ (i4 k hk))
    · intro k hk
      rcases List.mem_append.mp hk with hk | hk
      · obtain ⟨x, _, _, hx⟩ := (g3 k).mp hk
        right; rw [hx]; exact ⟨rfl, rfl⟩
      · rcases List.mem_cons.mp hk with hk | hk
        · left; rw [hk]; exact List.mem_cons_self _ _
        · rcases i5 k hk with h | h
          · left; exact List.mem_cons_of_mem _ h
          · right; exact h
    · intro x hx1 hx2 hun
      by_cases hlt : x < kv.1.start
      · exact List.mem_append_left _ ((g3 _).mpr ⟨x, hx1, hlt, rfl⟩)
      · have hnc := hun kv (List.mem_cons_self _ _)
        unfold MappingKey.covers at hnc
        have hge : kv.1.start + kv.1.n_lba ≤ x := by omega
        exact List.mem_append_right _ (List.mem_cons_of_mem _
          (i6 x hge hx2 fun k hk => hun k (List.mem_cons_of_mem _ hk)))

theorem get_fill_tail_spec : ∀ (fuel last e : Nat), last ≤ e + 1 → e + 1 - last ≤ fuel →
    e < 18446744073709551615 →
    get_fill_tail fuel last e = some (get_fill_gap (e + 1 - last) last).1 := by
  intro fuel
  induction fuel with
  | zero =>
    intro last e h1 h2 _
    have : e + 1 - last = 0 := by omega
    rw [this]
    simp only [get_fill_tail, get_fill_gap]
    rw [if_neg (by omega)]
  | succ fuel ih =>
    intro last e h1 h2 h3
    unfold get_fill_tail
    by_cases hle : last ≤ e
    · rw [if_pos hle]
      have hu : u64 (last + 1) = last + 1 := u64_of_lt (by omega)
      rw [hu, ih (last + 1) e (by omega) (by omega) h3]
      have : e + 1 - last = (e + 1 - (last + 1)) + 1 := by omega
      rw [this]
      simp [get_fill_gap, hu]
    · rw [if_neg hle]
      have : e + 1 - last = 0 := by omega
      rw [this]
      rfl

theorem GapFree.sorted : ∀ (vs : List (MappingKey × MappingValue)) (a b : Nat),
    GapFree a b vs →
    a ≤ b ∧ (∀ kv ∈ vs, a ≤ kv.1.start ∧ kv.1.start + kv.1.n_lba ≤ b) ∧
    vs.Pairwise (fun x y => x.1.start + x.1.n_lba ≤ y.1.start) := by
  intro vs
  induction vs with
  | nil => intro a b h; cases h; simp
  | cons kv rest ih =>
    intro a b h
    obtain ⟨h1, h2, h3⟩ := h
    obtain ⟨i1, i2, i3⟩ := ih _ _ h3
    refine ⟨by omega, fun k hk => ?_, List.pairwise_cons.mpr ⟨fun k hk => (i2 k hk).1, i3⟩⟩
    rcases List.mem_cons.mp hk with hk | hk
    · rw [hk]; omega
    · have := i2 k hk
      omega

/-- C20. For a request `lba`, `nlbas` inside the 48-bit LBA space with `0 < nlbas < 2^31`, and
a query result whose keys are sorted by start, pairwise disjoint, non-empty and inside the
request range: `mapping::get` with `fill_gaps = true` returns a list that starts at `lba`,
has every next key start right after the end of the one before and ends at the last LBA of
the request (so it is in ascending key order and covers each LBA once); it contains every
query result entry; every other entry is a key of one LBA with the empty value; and every LBA
of the range that no query result covers has such an entry. -/
theorem mapping_get_fills_gaps (lba nlbas : Nat) (res : List (MappingKey × MappingValue))
    (hn : 0 < nlbas) (hb : lba + nlbas ≤ 281474976710656) (hi : nlbas < 2147483648)
    (hs : res.Pairwise (fun a b => a.1.start + a.1.n_lba ≤ b.1.start))
    (hin : ∀ kv ∈ res, lba ≤ kv.1.start ∧ 0 < kv.1.n_lba ∧
      kv.1.start + kv.1.n_lba ≤ lba + nlbas) :
    ∃ values, mapping_get lba nlbas res true = some values ∧
      GapFree lba (lba + nlbas) values ∧
      values.Pairwise (fun a b => a.1.start + a.1.n_lba ≤ b.1.start) ∧
      (∀ kv ∈ res, kv ∈ values) ∧
      (∀ kv ∈ values, kv ∈ res ∨ (kv.1.n_lba = 1 ∧ kv.2 = [])) ∧
      (∀ x, lba ≤ x → x < lba + nlbas → (∀ k ∈ res, ¬ k.1.covers x) →
        ((⟨x, 1⟩, []) : MappingKey × MappingValue) ∈ values) := by
  have hR := inRange_of_sorted res lba (lba + nlbas) (by omega) hs hin
  obtain ⟨l1, l2, l3, l4, l5, l6⟩ :=
    get_fill_loop_spec res lba (lba + nlbas) hb (by omega) hR
  have hend : u64_sub (u64 (lba + nlbas)) 1 = lba + nlbas - 1 := by
    rw [u64_of_lt (by omega), u64_sub_of_le (by omega) (by omega)]
  have ht := get_fill_tail_spec nlbas (get_fill_loop lba res).2 (lba + nlbas - 1)
    (by omega) (by omega) (by omega)
  obtain ⟨g1, g2, g3⟩ := get_fill_gap_spec (lba + nlbas - 1 + 1 - (get_fill_loop lba res).2)
    (get_fill_loop lba res).2 (by omega)
  have hsum : (get_fill_loop lba res).2 + (lba + nlbas - 1 + 1 - (get_fill_loop lba res).2)
      = lba + nlbas := by omega
  rw [hsum] at g2 g3
  have hG := gapFree_append l3 g2
  refine ⟨_, ?_, hG, (GapFree.sorted _ _ _ hG).2.2, ?_, ?_, ?_⟩
  · unfold mapping_get
    simp only [hend, if_true, ht, Option.map_some']
  · intro kv hk
    exact List.mem_append_left _ (l4 kv hk)
  · intro kv hk
    rcases List.mem_append.mp hk with hk | hk
    · exact l5 kv hk
    · obtain ⟨x, _, _, hx⟩ := (g3 kv).mp hk
      right; rw [hx]; exact ⟨rfl, rfl⟩
  · intro x hx1 hx2 hun
    by_cases hlt : x < (get_fill_loop lba res).2
    · exact List.mem_append_left _ (l6 x hx1 hlt hun)
    · exact List.mem_append_right _ ((g3 _).mpr ⟨x, by omega, hx2, rfl⟩)

/-- The statement of `mapping_get_fills_gaps` at the sample query result over LBAs 10..19. -/
theorem mapping_get_fills_gaps_witness :
    ∃ values, mapping_get 10 10 get_result_sample true = some values ∧
      GapFree 10 20 values ∧
      (∀ kv ∈ get_result_sample, kv ∈ values) ∧
      ((⟨14, 1⟩, []) : MappingKey × MappingValue) ∈ values :=
  (mapping_get_fills_gaps 10 10 get_result_sample (by decide) (by decide) (by decide)
    (by decide) (by decide)).imp fun _ h =>
      ⟨h.1, h.2.1, h.2.2.2.1, h.2.2.2.2.2 14 (by decide) (by decide) (by decide)⟩

/-! ## Device manager: the generation of the DM-info -/

theorem write_dm_chunks_spec (gen : Nat) (mem : dm_info) :
    ∀ (n i : Nat) (pdevs : Nat → Option PhysicalDev),
    (∀ j, i ≤ j → j < i + n → ∃ p, pdevs j = some p) →
    ∃ pd1, write_dm_chunks gen mem n i pdevs = some pd1 ∧
      (∀ j, i ≤ j → j < i + n →
        ∃ p, pdevs j = some p ∧ pd1 j = some (p.write_dm_chunk gen mem)) ∧
      (∀ j, ¬ (i ≤ j ∧ j < i + n) → pd1 j = pdevs j) := by
  intro n
  induction n with
  | zero =>
    intro i pdevs _
    exact ⟨pdevs, rfl, fun j h1 h2 => by omega, fun _ _ => rfl⟩
  | succ n ih =>
    intro i pdevs h
    obtain ⟨p, hp⟩ := h i (le_refl _) (by omega)
    have hrest : ∀ j, i + 1 ≤ j → j < i + 1 + n →
        ∃ q, Function.update pdevs i (some (p.write_dm_chunk gen mem)) j = some q := by
      intro j h1 h2
      obtain ⟨q, hq⟩ := h j (by omega) (by omega)
      exact ⟨q, by rw [Function.update_noteq (by omega)]; exact hq⟩
    obtain ⟨pd1, e1, e2, e3⟩ := ih (i + 1) _ hrest
    refine ⟨pd1, by simp only [write_dm_chunks, hp]; exact e1, fun j h1 h2 => ?_, fun j hj => ?_⟩
    · by_cases hj : j = i
      · subst hj
        refine ⟨p, hp, ?_⟩
        rw [e3 j (by omega)]
        simp
      · obtain ⟨q, q1, q2⟩ := e2 j (by omega) (by omega)
        rw [Function.update_noteq hj] at q1
        exact ⟨q, q1, q2⟩
    · rw [e3 j (by omega), Function.update_noteq (by omega)]

theorem write_info_blocks_spec (dmgr : DeviceManager) (hs : dmgr.m_scan_cmpltd = true)
    (hg : dmgr.m_gen_cnt < 18446744073709551615)
    (hp : ∀ i, i < dmgr.dm.num_phys_devs → ∃ p, dmgr.m_pdevs i = some p) :
    ∃ d1, dmgr.write_info_blocks = Outcome.ok d1 ∧ d1.m_gen_cnt = dmgr.m_gen_cnt + 1 ∧
      d1.events = dmgr.events ++ [DmEvent.write_info_blocks (dmgr.m_gen_cnt + 1)] ∧
      d1.dm.num_phys_devs = dmgr.dm.num_phys_devs ∧ d1.m_scan_cmpltd = true ∧
      (∀ i, i < dmgr.dm.num_phys_devs → ∃ p, dmgr.m_pdevs i = some p ∧
        d1.m_pdevs i = some (p.write_dm_chunk (dmgr.m_gen_cnt + 1) dmgr.dm)) ∧
      (∀ i, dmgr.dm.num_phys_devs ≤ i → d1.m_pdevs i = dmgr.m_pdevs i) := by
  have hu : u64 (dmgr.m_gen_cnt + 1) = dmgr.m_gen_cnt + 1 := u64_of_lt (by omega)
  obtain ⟨pd1, e1, e2, e3⟩ := write_dm_chunks_spec (dmgr.m_gen_cnt + 1) dmgr.dm
    dmgr.dm.num_phys_devs 0 dmgr.m_pdevs (fun j _ h => hp j (by omega))
  refine ⟨{ dmgr with m_gen_cnt := dmgr.m_gen_cnt + 1, m_pdevs := pd1,
                       events := dmgr.events ++
                        [DmEvent.write_info_blocks (dmgr.m_gen_cnt + 1)] },
    ?_, rfl, rfl, rfl, hs, fun i hi => e2 i (Nat.zero_le _) (by omega),
    fun i hi => e3 i (by omega)⟩
  unfold DeviceManager.write_info_blocks
  simp only [hs, Bool.not_true, Bool.false_eq_true, if_false, hu, e1]

theorem init_devices_loop_spec (sz : Nat) : ∀ (devices : List (Nat × Nat)) (off psz : Nat)
    (dmgr : DeviceManager), (∀ d ∈ devices, d.2 = sz) → (psz = 0 ∨ psz = sz) →
    dmgr.m_pdev_id + devices.length < 4294967296 →
    ∃ d1, init_devices_loop devices off psz dmgr = Outcome.ok d1 ∧
      d1.m_gen_cnt = dmgr.m_gen_cnt ∧ d1.m_scan_cmpltd = dmgr.m_scan_cmpltd ∧
      d1.dm.num_phys_devs = dmgr.dm.num_phys_devs ∧ d1.events = dmgr.events ∧
      (∀ i, i < dmgr.m_pdev_id → d1.m_pdevs i = dmgr.m_pdevs i) ∧
      (∀ i, dmgr.m_pdev_id ≤ i → i < dmgr.m_pdev_id + devices.length →
        ∃ p, d1.m_pdevs i = some p ∧ p.gen_cnt = 0 ∧ p.dm_writes = [] ∧ p.get_dev_id = i) := by
  intro devices
  induction devices with
  | nil =>
    intro off psz dmgr _ _ _
    exact ⟨dmgr, rfl, rfl, rfl, rfl, rfl, fun _ _ => rfl, fun i h1 h2 => by simp at h2; omega⟩
  | cons d rest ih =>
    intro off psz dmgr hsz hpsz hlen
    have hd : d.2 = sz := hsz d (List.mem_cons_self _ _)
    simp only [List.length_cons] at hlen
    have hu : u32 (dmgr.m_pdev_id + 1) = dmgr.m_pdev_id + 1 := u32_of_lt (by omega)
    have hno : ¬ (psz ≠ 0 ∧ psz ≠ (PhysicalDev.format d.1 d.2 dmgr.m_pdev_id off).m_devsize) := by
      show ¬ (psz ≠ 0 ∧ psz ≠ d.2)
      rcases hpsz with h | h
      · simp [h]
      · simp [h, hd]
    obtain ⟨d1, e1, e2, e3, e4, e5, e6, e7⟩ := ih
      (u64 (off + (PhysicalDev.format d.1 d.2 dmgr.m_pdev_id off).m_devsize))
      (if psz = 0 then (PhysicalDev.format d.1 d.2 dmgr.m_pdev_id off).m_devsize else psz)
      { dmgr with
          m_pdev_id := dmgr.m_pdev_id + 1,
          m_pdevs := Function.update dmgr.m_pdevs
            (PhysicalDev.format d.1 d.2 dmgr.m_pdev_id off).get_dev_id
            (some (PhysicalDev.format d.1 d.2 dmgr.m_pdev_id off)),
          dm := { dmgr.dm with
            m_pdev_info := Function.update dmgr.dm.m_pdev_info
              (PhysicalDev.format d.1 d.2 dmgr.m_pdev_id off).get_dev_id
              (PhysicalDev.format d.1 d.2 dmgr.m_pdev_id off).m_info_blk } }
      (fun x hx => hsz x (List.mem_cons_of_mem _ hx))
      (by
        show (if psz = 0 then d.2 else psz) = 0 ∨ (if psz = 0 then d.2 else psz) = sz
        rcases hpsz with h | h
        · right; rw [if_pos h]; exact hd
        · by_cases h0 : psz = 0
          · right; rw [if_pos h0]; exact hd
          · right; rw [if_neg h0]; exact h)
      (by show dmgr.m_pdev_id + 1 + rest.length < 4294967296; omega)
    refine ⟨d1, ?_, e2, e3, e4, e5, fun i hi => ?_, fun i h1 h2 => ?_⟩
    · simp only [init_devices_loop, hu, if_neg hno]
      exact e1
    · rw [e6 i (by show i < dmgr.m_pdev_id + 1; omega)]
      show Function.update dmgr.m_pdevs dmgr.m_pdev_id _ i = _
      rw [Function.update_noteq (by omega)]
    · by_cases hi : i = dmgr.m_pdev_id
      · subst hi
        rw [e6 _ (by show dmgr.m_pdev_id < dmgr.m_pdev_id + 1; omega)]
        refine ⟨PhysicalDev.format d.1 d.2 dmgr.m_pdev_id off, ?_, rfl, rfl, rfl⟩
        show Function.update dmgr.m_pdevs dmgr.m_pdev_id _ dmgr.m_pdev_id = _
        simp
      · simp only [List.length_cons] at h2
        exact e7 i (by show dmgr.m_pdev_id + 1 ≤ i; omega)
          (by show i < dmgr.m_pdev_id + 1 + rest.length; omega)

/-- C14. A `write_info_blocks` made before the scan of the devices has completed returns
without a change. Made after the scan, with the devices `0 .. num_phys_devs - 1` present and
the counter below its maximum, it returns with `m_gen_cnt` raised by exactly one and has
called `write_dm_chunk` with that new generation and the DM-info in memory on each of these
devices and on no other. A first-time `init_devices` of devices of one size on a new
`DeviceManager` ends with generation 1 in the manager and on every device, written once. -/
theorem write_info_blocks_bumps_generation (dmgr : DeviceManager)
    (hg : dmgr.m_gen_cnt < 18446744073709551615)
    (hp : ∀ i, i < dmgr.dm.num_phys_devs → ∃ p, dmgr.m_pdevs i = some p) :
    (dmgr.m_scan_cmpltd = false → dmgr.write_info_blocks = Outcome.ok dmgr) ∧
    (dmgr.m_scan_cmpltd = true →
      ∃ d1, dmgr.write_info_blocks = Outcome.ok d1 ∧ d1.m_gen_cnt = dmgr.m_gen_cnt + 1 ∧
        d1.events = dmgr.events ++ [DmEvent.write_info_blocks (dmgr.m_gen_cnt + 1)] ∧
        (∀ i, i < dmgr.dm.num_phys_devs → ∃ p, dmgr.m_pdevs i = some p ∧
          d1.m_pdevs i = some (p.write_dm_chunk (dmgr.m_gen_cnt + 1) dmgr.dm)) ∧
        (∀ i, dmgr.dm.num_phys_devs ≤ i → d1.m_pdevs i = dmgr.m_pdevs i)) ∧
    (∀ (devices : List (Nat × Nat)) (sz max_chunks max_vdevs max_error : Nat) (ro : Bool),
      devices.length < 4294967296 → (∀ d ∈ devices, d.2 = sz) →
      ∃ d1, (DeviceManager.new max_chunks max_vdevs ro max_error).init_devices devices
          = Outcome.ok d1 ∧ d1.m_gen_cnt = 1 ∧
        ∀ i, i < devices.length →
          ∃ p, d1.m_pdevs i = some p ∧ p.gen_cnt = 1 ∧ p.dm_writes = [1]) := by
  refine ⟨fun hs => ?_, fun hs => ?_, ?_⟩
  · unfold DeviceManager.write_info_blocks
    simp [hs]
  · obtain ⟨d1, e1, e2, e3, _, _, e6, e7⟩ := write_info_blocks_spec dmgr hs hg hp
    exact ⟨d1, e1, e2, e3, e6, e7⟩
  · intro devices sz mc mv me ro hlen hsz
    have hu : u32 devices.length = devices.length := u32_of_lt hlen
    obtain ⟨d1, e1, e2, e3, e4, e5, e6, e7⟩ := init_devices_loop_spec sz devices 0 0
      { DeviceManager.new mc mv ro me with
          dm := { (DeviceManager.new mc mv ro me).dm with
            num_vdevs := 0, first_vdev_id := INVALID_ID, num_chunks := 0,
            num_phys_devs := devices.length } }
      hsz (Or.inl rfl) (by show 0 + devices.length < 4294967296; omega)
    have hn : d1.dm.num_phys_devs = devices.length := e4
    have e2 : d1.m_gen_cnt = 0 := e2
    obtain ⟨d2, w1, w2, _, _, _, w6, _⟩ := write_info_blocks_spec
      { d1 with m_scan_cmpltd := true } rfl
      (by show d1.m_gen_cnt < _; omega)
      (fun i hi => by
        obtain ⟨p, hp, _⟩ := e7 i (Nat.zero_le _)
          (by show i < 0 + devices.length; rw [← hn]; simpa using hi)
        exact ⟨p, hp⟩)
    refine ⟨d2, ?_, ?_, fun i hi => ?_⟩
    · unfold DeviceManager.init_devices
      simp only [hu, e1]
      exact w1
    · rw [w2]
      show d1.m_gen_cnt + 1 = 1
      rw [e2]
    · obtain ⟨p, hp1, hp2, hp3, _⟩ := e7 i (Nat.zero_le _)
        (by show i < 0 + devices.length; omega)
      obtain ⟨q, hq1, hq2⟩ := w6 i (by show i < d1.dm.num_phys_devs; omega)
      have hpq : p = q := Option.some.inj (hp1.symm.trans hq1)
      subst hpq
      refine ⟨_, hq2, ?_, ?_⟩
      · show d1.m_gen_cnt + 1 = 1
        rw [e2]
      · show p.dm_writes ++ [d1.m_gen_cnt + 1] = [1]
        rw [hp3, e2]; rfl

/-! ## Device manager: loading the devices -/

theorem max_sb_gen_append (l : List PhysicalDev) (p : PhysicalDev) :
    max_sb_gen (l ++ [p]) = if p.formatted then max (max_sb_gen l) p.gen_cnt else max_sb_gen l := by
  unfold max_sb_gen
  by_cases h : p.formatted = true
  · simp [List.filter_append, h, List.foldl_append]
  · simp [List.filter_append, h]

theorem load_scan_append (ro : Bool) (s : LoadScan) (l : List PhysicalDev) (p : PhysicalDev) :
    load_scan ro s (l ++ [p]) = load_scan_step ro (load_scan ro s l) p := by
  unfold load_scan
  rw [List.foldl_append]
  rfl

/-- The first loop of `load_and_repair_devices` from a new manager: the generation is the
highest one seen; the formatted devices stand in `m_pdevs` under their ids; and, once a
generation above zero was seen, `device_id` names a device that carries the highest one. -/
theorem load_scan_spec (ro : Bool) (pd0 : Nat → Option PhysicalDev) (hpd0 : ∀ i, pd0 i = none) :
    ∀ devices : List PhysicalDev,
    ((devices.filter fun p => p.formatted).map fun p => p.get_dev_id).Nodup →
    (load_scan ro ⟨0, pd0, [], INVALID_ID, false, 0⟩ devices).m_gen_cnt = max_sb_gen devices ∧
    (∀ p ∈ devices, p.formatted = true →
      (load_scan ro ⟨0, pd0, [], INVALID_ID, false, 0⟩ devices).m_pdevs p.get_dev_id = some p) ∧
    (∀ i p, (load_scan ro ⟨0, pd0, [], INVALID_ID, false, 0⟩ devices).m_pdevs i = some p →
      p ∈ devices ∧ p.formatted = true ∧ p.get_dev_id = i) ∧
    (0 < max_sb_gen devices → ∃ p ∈ devices, p.formatted = true ∧
      p.gen_cnt = max_sb_gen devices ∧
      (load_scan ro ⟨0, pd0, [], INVALID_ID, false, 0⟩ devices).device_id = p.get_dev_id) := by
  intro devices
  induction devices using List.reverseRecOn with
  | nil =>
    intro _
    refine ⟨rfl, fun p hp => absurd hp (List.not_mem_nil _), fun i p h => ?_, fun h => ?_⟩
    · simp [load_scan, hpd0] at h
    · simp [max_sb_gen] at h
  | append_singleton l q ih =>
    intro hnd
    have hnd1 : ((l.filter fun p => p.formatted).map fun p => p.get_dev_id).Nodup := by
      rw [List.filter_append, List.map_append] at hnd
      exact (List.nodup_append.mp hnd).1
    obtain ⟨i1, i2, i3, i4⟩ := ih hnd1
    rw [load_scan_append, max_sb_gen_append]
    generalize hs : load_scan ro ⟨0, pd0, [], INVALID_ID, false, 0⟩ l = s at i1 i2 i3 i4
    by_cases hf : q.formatted = true
    · have hfresh : ∀ p ∈ l, p.formatted = true → p.get_dev_id ≠ q.get_dev_id := by
        intro p hp hpf heq
        rw [List.filter_append, List.map_append] at hnd
        have hdis := (List.nodup_append.mp hnd).2.2
        refine hdis (a := p.get_dev_id) ?_ ?_
        · exact List.mem_map.mpr ⟨p, List.mem_filter.mpr ⟨hp, by simpa using hpf⟩, rfl⟩
        · rw [heq]
          exact List.mem_map.mpr ⟨q, by simp [hf], rfl⟩
      simp only [hf, if_true]
      unfold load_scan_step
      simp only [hf, Bool.not_true, Bool.false_eq_true, if_false]
      by_cases hlt : s.m_gen_cnt < q.gen_cnt
      · simp only [if_pos hlt]
        refine ⟨?_, ?_, ?_, ?_⟩
        · show q.gen_cnt = _
          rw [← i1]; omega
        · intro p hp hpf
          show Function.update s.m_pdevs q.get_dev_id (some q) p.get_dev_id = some p
          rcases List.mem_append.mp hp with hp | hp
          · rw [Function.update_noteq (hfresh p hp hpf)]
            exact i2 p hp hpf
          · rw [List.mem_singleton.mp hp]; simp
        · intro i p hi
          change Function.update s.m_pdevs q.get_dev_id (some q) i = some p at hi
          by_cases hiq : i = q.get_dev_id
          · rw [hiq, Function.update_same] at hi
            cases hi
            exact ⟨by simp, hf, hiq.symm⟩
          · rw [Function.update_noteq hiq] at hi
            obtain ⟨a, b, c⟩ := i3 i p hi
            exact ⟨List.mem_append_left _ a, b, c⟩
        · intro _
          exact ⟨q, by simp, hf, by rw [← i1]; omega, rfl⟩
      · simp only [if_neg hlt]
        refine ⟨?_, ?_, ?_, ?_⟩
        · show s.m_gen_cnt = _
          rw [← i1]; omega
        · intro p hp hpf
          show Function.update s.m_pdevs q.get_dev_id (some q) p.get_dev_id = some p
          rcases List.mem_append.mp hp with hp | hp
          · rw [Function.update_noteq (hfresh p hp hpf)]
            exact i2 p hp hpf
          · rw [List.mem_singleton.mp hp]; simp
        · intro i p hi
          change Function.update s.m_pdevs q.get_dev_id (some q) i = some p at hi
          by_cases hiq : i = q.get_dev_id
          · rw [hiq, Function.update_same] at hi
            cases hi
            exact ⟨by simp, hf, hiq.symm⟩
          · rw [Function.update_noteq hiq] at hi
            obtain ⟨a, b, c⟩ := i3 i p hi
            exact ⟨List.mem_append_left _ a, b, c⟩
        · intro hpos
          have hm : max (max_sb_gen l) q.gen_cnt = max_sb_gen l := by rw [← i1]; omega
          rw [hm] at hpos ⊢
          obtain ⟨p, a, b, c, d⟩ := i4 hpos
          exact ⟨p, List.mem_append_left _ a, b, c, d⟩
    · simp only [hf, if_false]
      unfold load_scan_step
      simp only [hf, Bool.not_false, if_true]
      refine ⟨i1, ?_, ?_, ?_⟩
      · intro p hp hpf
        rcases List.mem_append.mp hp with hp | hp
        · exact i2 p hp hpf
        · rw [List.mem_singleton.mp hp] at hpf
          exact absurd hpf hf
      · intro i p hi
        obtain ⟨a, b, c⟩ := i3 i p hi
        exact ⟨List.mem_append_left _ a, b, c⟩
      · intro hpos
        obtain ⟨p, a, b, c, d⟩ := i4 hpos
        exact ⟨p, List.mem_append_left _ a, b, c, d⟩

theorem write_info_blocks_events (dmgr d : DeviceManager)
    (h : dmgr.write_info_blocks = Outcome.ok d) : ∀ e ∈ dmgr.events, e ∈ d.events := by
  unfold DeviceManager.write_info_blocks at h
  split_ifs at h
  · cases h; exact fun _ he => he
  · simp only at h
    split at h
    · cases h
    · cases h
      exact fun _ he => List.mem_append_left _ he

theorem write_info_blocks_ne_thrown (dmgr : DeviceManager) (e : homestore_error) :
    dmgr.write_info_blocks ≠ Outcome.thrown e := by
  unfold DeviceManager.write_info_blocks
  split_ifs
  · exact fun h => Outcome.noConfusion h
  · simp only
    split
    · exact fun h => Outcome.noConfusion h
    · exact fun h => Outcome.noConfusion h

theorem load_replace_ne_no_valid (max_chunks : Nat) (info : dm_info) (pdev_size : Nat) :
    ∀ (n dev_id : Nat) (s : LoadScan) (vi : Nat → vdev_info_block),
    load_replace max_chunks info pdev_size n dev_id s vi ≠
      Outcome.thrown homestore_error.no_valid_device_found := by
  intro n
  induction n with
  | zero => intro dev_id s vi h; simp [load_replace] at h
  | succ n ih =>
    intro dev_id s vi
    unfold load_replace
    split
    · exact ih _ _ _
    · split
      · exact fun h => Outcome.noConfusion h
      · intro h; cases h
      · split_ifs
        · intro h; cases h
        · exact ih _ _ _

/-- C12. For a new `DeviceManager` and devices whose formatted members have distinct ids:
when no formatted device has a generation above zero, `load_and_repair_devices` throws
`no_valid_device_found`; otherwise, at the call of `read_info_blocks`, `m_gen_cnt` is the
highest superblock generation of the formatted devices and the device read is one of them
that carries this generation, its DM-info becomes the one in memory, the call does not throw
`no_valid_device_found`, and a load that returns has the read in its history. -/
theorem load_reads_highest_generation (dmgr : DeviceManager) (devices : List PhysicalDev)
    (hgen : dmgr.m_gen_cnt = 0) (hnew : ∀ i, dmgr.m_pdevs i = none)
    (hids : ((devices.filter fun p => p.formatted).map fun p => p.get_dev_id).Nodup) :
    (max_sb_gen devices = 0 → dmgr.load_and_repair_devices devices =
      Outcome.thrown homestore_error.no_valid_device_found) ∧
    (0 < max_sb_gen devices →
      ∃ p d1, p ∈ devices ∧ p.formatted = true ∧ p.gen_cnt = max_sb_gen devices ∧
        ({ dmgr with
            m_gen_cnt := (load_scan dmgr.is_read_only
              ⟨dmgr.m_gen_cnt, dmgr.m_pdevs, [], INVALID_ID, false, 0⟩ devices).m_gen_cnt,
            m_pdevs := (load_scan dmgr.is_read_only
              ⟨dmgr.m_gen_cnt, dmgr.m_pdevs, [], INVALID_ID, false, 0⟩ devices).m_pdevs } :
          DeviceManager).read_info_blocks (load_scan dmgr.is_read_only
            ⟨dmgr.m_gen_cnt, dmgr.m_pdevs, [], INVALID_ID, false, 0⟩ devices).device_id
          = some d1 ∧
        d1.m_gen_cnt = max_sb_gen devices ∧ d1.dm = p.dm ∧
        d1.events = dmgr.events ++
          [DmEvent.read_info_blocks p.get_dev_id (max_sb_gen devices)] ∧
        dmgr.load_and_repair_devices devices ≠
          Outcome.thrown homestore_error.no_valid_device_found ∧
        ∀ d, dmgr.load_and_repair_devices devices = Outcome.ok d →
          DmEvent.read_info_blocks p.get_dev_id (max_sb_gen devices) ∈ d.events) := by
  obtain ⟨s1, s2, _, s4⟩ := load_scan_spec dmgr.is_read_only dmgr.m_pdevs hnew devices hids
  have hinit : (⟨dmgr.m_gen_cnt, dmgr.m_pdevs, [], INVALID_ID, false, 0⟩ : LoadScan)
      = ⟨0, dmgr.m_pdevs, [], INVALID_ID, false, 0⟩ := by rw [hgen]
  rw [← hinit] at s1 s2 s4
  generalize hs : load_scan dmgr.is_read_only
    ⟨dmgr.m_gen_cnt, dmgr.m_pdevs, [], INVALID_ID, false, 0⟩ devices = s at s1 s2 s4
  constructor
  · intro h0
    unfold DeviceManager.load_and_repair_devices
    simp only [hs]
    rw [if_pos (by omega)]
  · intro hpos
    obtain ⟨p, hp1, hp2, hp3, hp4⟩ := s4 hpos
    have hrd : ({ dmgr with m_gen_cnt := s.m_gen_cnt, m_pdevs := s.m_pdevs } :
        DeviceManager).read_info_blocks s.device_id = some
          { dmgr with m_gen_cnt := s.m_gen_cnt, m_pdevs := s.m_pdevs, dm := p.dm,
                      events := dmgr.events ++
                        [DmEvent.read_info_blocks s.device_id s.m_gen_cnt] } := by
      unfold DeviceManager.read_info_blocks
      simp only [hp4, s2 p hp1 hp2]
    have hload : dmgr.load_and_repair_devices devices =
        match load_replace dmgr.max_chunks p.dm s.pdev_size p.dm.num_phys_devs 0 s
            p.dm.m_vdev_info with
        | Outcome.undefined => Outcome.undefined
        | Outcome.thrown e => Outcome.thrown e
        | Outcome.ok (s2, vdev_info) =>
          if s2.rewrite then
            ({ dmgr with m_gen_cnt := s.m_gen_cnt, m_pdevs := s2.m_pdevs,
                         dm := { p.dm with m_vdev_info := vdev_info },
                         events := dmgr.events ++
                          [DmEvent.read_info_blocks s.device_id s.m_gen_cnt],
                         m_pdev_id := p.dm.num_phys_devs, m_scan_cmpltd := true } :
              DeviceManager).write_info_blocks
          else Outcome.ok
            { dmgr with m_gen_cnt := s.m_gen_cnt, m_pdevs := s2.m_pdevs,
                        dm := { p.dm with m_vdev_info := vdev_info },
                        events := dmgr.events ++
                          [DmEvent.read_info_blocks s.device_id s.m_gen_cnt],
                        m_pdev_id := p.dm.num_phys_devs, m_scan_cmpltd := true } := by
      unfold DeviceManager.load_and_repair_devices
      simp only [hs]
      rw [if_neg (by omega), hrd]
    refine ⟨p, _, hp1, hp2, hp3, hrd, s1, rfl, by rw [hp4, s1], ?_, ?_⟩
    · rw [hload]
      cases hlr : load_replace dmgr.max_chunks p.dm s.pdev_size p.dm.num_phys_devs 0 s
          p.dm.m_vdev_info with
      | undefined => exact fun h => Outcome.noConfusion h
      | thrown e =>
        intro h
        cases h
        exact load_replace_ne_no_valid _ _ _ _ _ _ _ hlr
      | ok r =>
        obtain ⟨s2, vi⟩ := r
        simp only
        split_ifs
        · exact write_info_blocks_ne_thrown _ _
        · exact fun h => Outcome.noConfusion h
    · intro d hd
      rw [hload] at hd
      cases hlr : load_replace dmgr.max_chunks p.dm s.pdev_size p.dm.num_phys_devs 0 s
          p.dm.m_vdev_info with
      | undefined => rw [hlr] at hd; cases hd
      | thrown e => rw [hlr] at hd; cases hd
      | ok r =>
        obtain ⟨s2, vi⟩ := r
        rw [hlr] at hd
        simp only at hd
        rw [← hp4, ← s1]
        split_ifs at hd
        · exact write_info_blocks_events _ _ hd _ (by simp)
        · cases hd; simp

/-- The statement of `load_reads_highest_generation` for two devices of generations 5 and
7. -/
theorem load_reads_highest_generation_witness :
    max_sb_gen [pdev_sample 0 5, pdev_sample 1 7] = 7 ∧
    dmgr_new_sample.load_and_repair_devices [pdev_sample 0 5, pdev_sample 1 7] ≠
      Outcome.thrown homestore_error.no_valid_device_found := by
  refine ⟨by decide, ?_⟩
  obtain ⟨p, d1, h⟩ := (load_reads_highest_generation dmgr_new_sample
    [pdev_sample 0 5, pdev_sample 1 7] rfl (fun _ => rfl) (by decide)).2 (by decide)
  exact h.2.2.2.2.2.2.2.1

/-- C13. Two formatted devices that both carry generation 5, all devices of the DM-info
present and no spare: `load_and_repair_devices` still calls `write_info_blocks`, and the
generation counter ends at 6. -/
theorem load_rewrites_when_generations_agree :
    (dmgr_new_sample.load_and_repair_devices [pdev_sample 0 5, pdev_sample 1 5]).toOption.map
        (fun d => (d.m_gen_cnt, d.events))
      = some (6, [DmEvent.read_info_blocks 0 5, DmEvent.write_info_blocks 6]) ∧
    (load_scan false ⟨0, fun _ => none, [], INVALID_ID, false, 0⟩
        [pdev_sample 0 5, pdev_sample 1 5]).rewrite = true := by
  decide

/-- The statement of `write_info_blocks_bumps_generation` at the sample manager of
generation 5. -/
theorem write_info_blocks_bumps_generation_witness :
    ∃ d1, dmgr_sample.write_info_blocks = Outcome.ok d1 ∧ d1.m_gen_cnt = 6 ∧
      d1.events = [DmEvent.write_info_blocks 6] :=
  ((write_info_blocks_bumps_generation dmgr_sample (by decide)
    (fun i hi => by
      have h2 : i < 2 := hi
      exact ⟨pdev_sample i 5, by show (if i < 2 then _ else _) = _; rw [if_pos h2]⟩)).2.1
    rfl).imp fun _ h => ⟨h.1, h.2.1, h.2.2.1⟩

/-- C15. One formatted device of generation 5 whose DM-info records two devices, and no
spare: the replacement loop of `load_and_repair_devices` takes `uninit_devs.back()` of the
empty vector, which is undefined behaviour, and the call does not throw `no_spare_disk`.
With one spare the missing id 1 is given to it with the recorded offset and first chunk. -/
theorem load_without_spare_reads_empty_vector :
    (dmgr_new_sample.load_and_repair_devices [pdev_sample 0 5]).isUndefined = true ∧
    (dmgr_new_sample.load_and_repair_devices [pdev_sample 0 5]).error = none ∧
    (dmgr_new_sample.load_and_repair_devices
        [pdev_sample 0 5, pdev_spare_sample 9]).toOption.map
        (fun d => (d.m_pdevs 1).map fun p => (p.m_devname, p.m_info_blk))
      = some (some (9, ⟨1, INVALID_ID, 1000⟩)) := by
  decide

/-! ## Device manager: chunk slots and chunk allocation -/

/-- C29. A chunk table of two slots, both allocated, with `num_chunks = 2`:
`alloc_new_chunk_slot` starts at `start_slot = 2` and reads `m_chunk_info[2]`, a slot outside
the table, instead of returning null. With a slot free and `num_chunks = 1` it returns
slot 1. -/
theorem alloc_new_chunk_slot_reads_past_full_table :
    allocated_slots dmgr_full_sample.max_chunks dmgr_full_sample.dm.m_chunk_info
      = dmgr_full_sample.dm.num_chunks ∧
    dmgr_full_sample.dm.num_chunks = dmgr_full_sample.max_chunks ∧
    dmgr_full_sample.alloc_new_chunk_slot.isUndefined = true ∧
    dmgr_full_sample.alloc_new_chunk_slot.toOption.map (fun r => r.2) = none ∧
    dmgr_chunk_sample.alloc_new_chunk_slot.toOption.map (fun r => r.2) = some (some 1) := by
  decide

/-- C24. A chunk table of four slots in which device 0 has one free chunk (slot 0, no vdev)
and slots 1..3 are not allocated, with the error threshold 1: `handle_error` of device 0
raises its error count to 1 and calls the vdev-error callback four times, with the descriptor
of index `INVALID_VDEV_ID`, outside the vdev table of four slots, for the free chunk, and with
the descriptor 0, which is not allocated, for each unallocated chunk slot. -/
theorem handle_error_calls_back_for_free_chunk :
    (dmgr_error_sample.dm.m_chunk_info 0).vdev_id = INVALID_ID ∧
    ((List.range 4).map fun i => (dmgr_error_sample.dm.m_chunk_info i).slot_allocated)
      = [true, false, false, false] ∧
    dmgr_error_sample.max_vdevs = 4 ∧
    (dmgr_error_sample.dm.m_vdev_info 0).slot_allocated = false ∧
    (dmgr_error_sample.handle_error 0).map
        (fun d => (d.events, (d.m_pdevs 0).map fun p => p.m_error_cnt))
      = some ([DmEvent.vdev_error_cb 4294967295, DmEvent.vdev_error_cb 0,
          DmEvent.vdev_error_cb 0, DmEvent.vdev_error_cb 0], some 1) := by
  decide

/-- C28. On the vdev table a first-time `init_devices` leaves, `alloc_vdev`, `free_vdev` of
the vdev created and `alloc_vdev` again: `free_vdev` leaves `m_last_vdevid` at the freed
slot, so the second `alloc_vdev` links the new descriptor behind itself and not to
`first_vdev_id`. The table ends with `num_vdevs = 1` and slot 0 allocated, but
`first_vdev_id = INVALID_VDEV_ID`: the walk from `first_vdev_id` visits no slot. -/
theorem free_vdev_keeps_last_vdevid :
    (dmgr_init_sample.dm.num_vdevs, dmgr_init_sample.dm.first_vdev_id,
      dmgr_init_sample.m_last_vdevid) = (0, INVALID_ID, INVALID_ID) ∧
    (dmgr_init_sample.vdev_run [VdevOp.alloc 0 4096 2 8000, VdevOp.free 0,
        VdevOp.alloc 0 4096 2 8000]).toOption.map
      (fun d => (d.dm.num_vdevs, d.dm.first_vdev_id,
        vdev_walk d.dm.m_vdev_info 5 d.dm.first_vdev_id,
        (d.dm.m_vdev_info 0).slot_allocated, (d.dm.m_vdev_info 0).prev_vdev_id))
      = some (1, INVALID_ID, [], true, 0) ∧
    (dmgr_init_sample.vdev_run [VdevOp.alloc 0 4096 2 8000]).toOption.map
      (fun d => (d.dm.num_vdevs, vdev_walk d.dm.m_vdev_info 5 d.dm.first_vdev_id))
      = some (1, [0]) := by
  decide

/-! ## Checkpoint of the index: the order of the calls -/

theorem split_at_left {α : Type} (t : α) : ∀ (A R xs ys : List α),
    xs ++ t :: ys = A ++ R → t ∉ A → ∃ xs1, xs = A ++ xs1 ∧ xs1 ++ t :: ys = R := by
  intro A
  induction A with
  | nil => intro R xs ys h _; exact ⟨xs, rfl, h⟩
  | cons a A ih =>
    intro R xs ys h ht
    cases xs with
    | nil =>
      simp only [List.nil_append, List.cons_append, List.cons.injEq] at h
      exact absurd (h.1 ▸ List.mem_cons_self _ _) ht
    | cons x xs =>
      simp only [List.cons_append, List.cons.injEq] at h
      obtain ⟨xs1, h1, h2⟩ := ih R xs ys h.2 fun hm => ht (List.mem_cons_of_mem _ hm)
      exact ⟨xs1, by rw [h.1, h1]; rfl, h2⟩

theorem split_at_right {α : Type} (t : α) (M B xs ys : List α)
    (h : xs ++ t :: ys = M ++ B) (ht : t ∉ B) : ∃ ys1, ys = ys1 ++ B ∧ xs ++ t :: ys1 = M := by
  have hr : ys.reverse ++ t :: xs.reverse = B.reverse ++ M.reverse := by
    have := congrArg List.reverse h
    simpa using this
  obtain ⟨r, h1, h2⟩ := split_at_left t B.reverse M.reverse ys.reverse xs.reverse hr
    (fun hm => ht (List.mem_reverse.mp hm))
  refine ⟨r.reverse, ?_, ?_⟩
  · have := congrArg List.reverse h1
    simpa using this
  · have := congrArg List.reverse h2
    simpa using this

theorem blkalloc_cp_truncate_mem (l : List (Option vol_cp_id)) (e : IndxCpEvent) :
    e ∈ blkalloc_cp_truncate l ↔
      ∃ v, some v ∈ l ∧ v.flags = cp_state.active_cp ∧ e = IndxCpEvent.vol_truncate v.vol := by
  induction l with
  | nil => simp [blkalloc_cp_truncate]
  | cons a rest ih =>
    cases a with
    | none =>
      simp only [blkalloc_cp_truncate, ih, List.mem_cons]
      constructor
      · rintro ⟨v, h1, h2⟩; exact ⟨v, Or.inr h1, h2⟩
      · rintro ⟨v, h1 | h1, h2⟩
        · cases h1
        · exact ⟨v, h1, h2⟩
    | some w =>
      unfold blkalloc_cp_truncate
      by_cases hw : w.flags = cp_state.active_cp
      · simp only [hw, ne_eq, not_true_eq_false, if_false, List.mem_cons, ih]
        constructor
        · rintro (h | ⟨v, h1, h2⟩)
          · exact ⟨w, Or.inl rfl, hw, h⟩
          · exact ⟨v, Or.inr h1, h2⟩
        · rintro ⟨v, h1 | h1, h2, h3⟩
          · left; cases h1; exact h3
          · right; exact ⟨v, h1, h2, h3⟩
      · simp only [hw, ne_eq, not_false_eq_true, if_true, List.mem_cons, ih]
        constructor
        · rintro ⟨v, h1, h2⟩; exact ⟨v, Or.inr h1, h2⟩
        · rintro ⟨v, h1 | h1, h2, h3⟩
          · cases h1; exact absurd h2 hw
          · exact ⟨v, h1, h2, h3⟩

/-- C11. In `IndxCP::blkalloc_cp` every active volume of `vol_id_list` is truncated and the
log device is truncated, and each of these truncations comes after the calls of
`blkalloc_cp_start` and `write_homeblks_cp_sb` and before the calls of `blkalloc_cp_done` and
`cp_end`. `indx_tbl_cp_done` on the last reference runs `blkalloc_cp` when the id takes a
block-allocator checkpoint, and makes no truncation when it does not. -/
theorem blkalloc_cp_truncates_between_start_and_done (id : homeblks_cp_id) :
    (∀ xs t ys, IndxCP.blkalloc_cp id = xs ++ t :: ys → t.is_truncate = true →
      IndxCpEvent.blkalloc_cp_start ∈ xs ∧ IndxCpEvent.write_homeblks_cp_sb ∈ xs ∧
      IndxCpEvent.blkalloc_cp_done ∈ ys ∧ IndxCpEvent.cp_end ∈ ys ∧
      IndxCpEvent.blkalloc_cp_done ∉ xs ∧ IndxCpEvent.cp_end ∉ xs ∧
      IndxCpEvent.blkalloc_cp_start ∉ ys ∧ IndxCpEvent.write_homeblks_cp_sb ∉ ys) ∧
    (∀ v, some v ∈ id.vol_id_list → v.flags = cp_state.active_cp →
      IndxCpEvent.vol_truncate v.vol ∈ IndxCP.blkalloc_cp id) ∧
    IndxCpEvent.device_truncate ∈ IndxCP.blkalloc_cp id ∧
    (id.ref_cnt = 1 → id.blkalloc_checkpoint = true →
      (IndxCP.indx_tbl_cp_done id).2 = IndxCpEvent.flush_homeblks_free_blks ::
        IndxCP.blkalloc_cp { id with ref_cnt := 0 }) ∧
    (id.blkalloc_checkpoint = false →
      ∀ e ∈ (IndxCP.indx_tbl_cp_done id).2, e.is_truncate = false) := by
  refine ⟨fun xs t ys h ht => ?_, fun v hv hf => ?_, ?_, fun h1 h2 => ?_, fun h e he => ?_⟩
  · have hA : t ∉ [IndxCpEvent.blkalloc_cp_start, IndxCpEvent.write_homeblks_cp_sb] := by
      intro hm
      simp only [List.mem_cons, List.mem_singleton, List.not_mem_nil, or_false] at hm
      rcases hm with hm | hm <;> (rw [hm] at ht; cases ht)
    have hB : t ∉ (List.range id.cb_list).map IndxCpEvent.cb ++
        [IndxCpEvent.blkalloc_cp_done, IndxCpEvent.mapping_cp_done, IndxCpEvent.cp_end] := by
      intro hm
      rcases List.mem_append.mp hm with hm | hm
      · obtain ⟨i, _, hi⟩ := List.mem_map.mp hm
        rw [← hi] at ht; cases ht
      · simp only [List.mem_cons, List.mem_singleton, List.not_mem_nil, or_false] at hm
        rcases hm with hm | hm | hm <;> (rw [hm] at ht; cases ht)
    have hl : IndxCP.blkalloc_cp id =
        [IndxCpEvent.blkalloc_cp_start, IndxCpEvent.write_homeblks_cp_sb] ++
        ((blkalloc_cp_truncate id.vol_id_list ++ [IndxCpEvent.device_truncate]) ++
        ((List.range id.cb_list).map IndxCpEvent.cb ++
          [IndxCpEvent.blkalloc_cp_done, IndxCpEvent.mapping_cp_done, IndxCpEvent.cp_end])) := by
      unfold IndxCP.blkalloc_cp
      simp only [List.append_assoc]
    rw [hl] at h
    obtain ⟨xs1, e1, e2⟩ := split_at_left t _ _ xs ys h.symm hA
    obtain ⟨ys1, e3, e4⟩ := split_at_right t _ _ xs1 ys e2 hB
    have hM : ∀ e, e ∈ blkalloc_cp_truncate id.vol_id_list ++ [IndxCpEvent.device_truncate] →
        e.is_truncate = true := by
      intro e he
      rcases List.mem_append.mp he with he | he
      · obtain ⟨v, _, _, hv⟩ := (blkalloc_cp_truncate_mem _ _).mp he
        rw [hv]; rfl
      · rw [List.mem_singleton.mp he]; rfl
    have hxs1 : ∀ e ∈ xs1, e.is_truncate = true := fun e he =>
      hM e (by rw [← e4]; exact List.mem_append_left _ he)
    have hys1 : ∀ e ∈ ys1, e.is_truncate = true := fun e he =>
      hM e (by rw [← e4]; exact List.mem_append_right _ (List.mem_cons_of_mem _ he))
    rw [e1, e3]
    refine ⟨by simp, by simp, by simp, by simp, ?_, ?_, ?_, ?_⟩
    · intro hm
      rcases List.mem_append.mp hm with hm | hm
      · simp at hm
      · have := hxs1 _ hm; cases this
    · intro hm
      rcases List.mem_append.mp hm with hm | hm
      · simp at hm
      · have := hxs1 _ hm; cases this
    · intro hm
      rcases List.mem_append.mp hm with hm | hm
      · have := hys1 _ hm; cases this
      · simp at hm
    · intro hm
      rcases List.mem_append.mp hm with hm | hm
      · have := hys1 _ hm; cases this
      · simp at hm
  · unfold IndxCP.blkalloc_cp
    have := (blkalloc_cp_truncate_mem id.vol_id_list _).mpr ⟨v, hv, hf, rfl⟩
    simp [this]
  · unfold IndxCP.blkalloc_cp
    simp
  · unfold IndxCP.indx_tbl_cp_done
    simp [h1, h2]
  · unfold IndxCP.indx_tbl_cp_done at he
    simp only [h] at he
    split_ifs at he with c1 c2 c3
    · cases he
    · exact c2.elim
    · simp only [List.mem_append, List.mem_cons, List.mem_singleton, List.not_mem_nil,
        or_false] at he
      rcases he with (he | he) | he | he | he <;> (rw [he]; rfl)
    · simp only [List.append_nil, List.mem_append, List.mem_cons, List.mem_singleton,
        List.not_mem_nil, or_false] at he
      rcases he with he | he | he | he <;> (rw [he]; rfl)

/-- The statement of `blkalloc_cp_truncates_between_start_and_done` at the sample id: the
calls of `blkalloc_cp` in order, with the truncate of the one active volume. -/
theorem blkalloc_cp_truncates_between_start_and_done_witness :
    IndxCpEvent.vol_truncate 1 ∈ IndxCP.blkalloc_cp cp_id_sample ∧
    IndxCP.blkalloc_cp cp_id_sample =
      [IndxCpEvent.blkalloc_cp_start, IndxCpEvent.write_homeblks_cp_sb,
        IndxCpEvent.vol_truncate 1, IndxCpEvent.device_truncate, IndxCpEvent.cb 0,
        IndxCpEvent.cb 1, IndxCpEvent.blkalloc_cp_done, IndxCpEvent.mapping_cp_done,
        IndxCpEvent.cp_end] :=
  ⟨(blkalloc_cp_truncates_between_start_and_done cp_id_sample).2.1 ⟨1, cp_state.active_cp⟩
    (by decide) rfl, by decide⟩

/-! ## Creation of a `VirtualDev`: the chunk layout -/

/-- C30. Two devices, one mirror, and a requested size of 40 TiB, which gives four primary
chunks of 10 TiB: the mirror loop starts from the chunk index `i` and not from the device
index `i mod 2`, so the mirrors of the primary chunks 2 and 3 are requested on the device
indices 3 and 4, outside the list of two devices; the claim gives the indices 1 and 0. -/
theorem create_mirror_index_leaves_pdev_list :
    (VirtualDev.create chunk_cfg_sample 1 true 2 43980465111040).toOption.map
        (fun g => (g.m_num_chunks, g.chunks))
      = some (4, [(0, [1]), (1, [0]), (0, [3]), (1, [4])]) ∧
    (List.range 4).map (fun i => ((i % 2) + 0 + 1) % 2) = [1, 0, 1, 0] := by
  decide

/-! ## Checkpoint coordinator: the end of a checkpoint -/

/-- C23, the claim as stated: a plain `trigger_cp()` made while the checkpoint of epoch 0 is
in flight returns without leaving a trace, and the `cp_end` of epoch 0 then returns with no
checkpoint in flight and no new epoch published. -/
theorem cp_end_drops_plain_trigger :
    cp_in_flight_sample.in_cp_phase = true ∧
    cp_in_flight_sample.state_of 0 = some cp_status_t.cp_start ∧
    cp_in_flight_sample.m_cur_cp_id = 1 ∧
    (cp_in_flight_sample.trigger_cp).map (fun c => (c.in_cp_phase, c.m_cur_cp_id, c.ids 1))
      = some (true, 1, cp_in_flight_sample.ids 1) ∧
    ((cp_in_flight_sample.trigger_cp).bind fun c => c.cp_end 0).map
      (fun c => (c.in_cp_phase, c.m_cur_cp_id, c.ids 0)) = some (false, 1, none) := by
  decide

/-- C23, amended. With the checkpoint of epoch `E` in flight (`in_cp_phase` set, `E` in
`cp_start`, the current epoch another id in `cp_io_ready`): a plain `trigger_cp()` returns the
state as it is; `trigger_cp(id)` on the current epoch sets its `cp_trigger_waiting` and
changes nothing else; and `cp_end(E)` returns with `E` destroyed and, when the current epoch
has `cp_trigger_waiting` set, with `in_cp_phase` set again and a new current epoch published,
otherwise with `in_cp_phase` clear and the current epoch as before. -/
theorem cp_end_triggers_when_flag_set (cp : CheckPoint) (E : Nat) (e c : cp_id_base)
    (hph : cp.in_cp_phase = true) (hE : cp.ids E = some e)
    (hst : e.cp_state = cp_status_t.cp_start)
    (hne : cp.m_cur_cp_id ≠ E) (hc : cp.ids cp.m_cur_cp_id = some c)
    (hcs : c.cp_state = cp_status_t.cp_io_ready) (hcnt : 0 ≤ c.enter_cnt)
    (hn1 : cp.next_id ≠ cp.m_cur_cp_id) (hn2 : cp.next_id ≠ E) :
    cp.trigger_cp = some cp ∧
    cp.trigger_cp_id cp.m_cur_cp_id =
      some (cp.store cp.m_cur_cp_id (some { c with cp_trigger_waiting := true })) ∧
    ∃ cp1, cp.cp_end E = some cp1 ∧ cp1.ids E = none ∧
      (c.cp_trigger_waiting = true →
        cp1.in_cp_phase = true ∧ cp1.m_cur_cp_id = cp.next_id ∧
        cp1.state_of cp.next_id = some cp_status_t.cp_io_ready) ∧
      (c.cp_trigger_waiting = false →
        cp1.in_cp_phase = false ∧ cp1.m_cur_cp_id = cp.m_cur_cp_id ∧
        cp1.ids cp.m_cur_cp_id = some c) := by
  refine ⟨?_, ?_, ?_⟩
  · unfold CheckPoint.trigger_cp
    rw [if_pos hph]
  · unfold CheckPoint.trigger_cp_id
    simp only [hc, hcs]
    rw [if_neg (by decide)]
    unfold CheckPoint.trigger_cp
    rw [if_pos (by exact hph)]
  · obtain ⟨st, cnt, w⟩ := c
    simp only at hcs hcnt
    subst hcs
    have hc1 : cnt + 1 ≠ 0 := by omega
    have hne2 : E ≠ cp.m_cur_cp_id := fun h => hne h.symm
    have hn1b : cp.m_cur_cp_id ≠ cp.next_id := fun h => hn1 h.symm
    have hn2b : E ≠ cp.next_id := fun h => hn2 h.symm
    cases w with
    | false =>
      unfold CheckPoint.cp_end CheckPoint.cp_io_enter CheckPoint.cp_io_exit
        CheckPoint.store CheckPoint.emit
      simp [hph, hE, hst, hc, Function.update_same, Function.update_noteq, hne, hne2]
    | true =>
      unfold CheckPoint.cp_end CheckPoint.trigger_cp CheckPoint.attach_new
        CheckPoint.cp_io_enter CheckPoint.cp_io_exit CheckPoint.store CheckPoint.emit
        CheckPoint.state_of
      by_cases h0 : cnt = 0
      · simp [hph, hE, hst, hc, Function.update_same, Function.update_noteq, hne, hne2, hn1,
          hn2, hn1b, hn2b, hc1, h0]
      · simp [hph, hE, hst, hc, Function.update_same, Function.update_noteq, hne, hne2, hn1,
          hn2, hn1b, hn2b, hc1, h0]

/-- The statement of `cp_end_triggers_when_flag_set` with the checkpoint of epoch 0 in flight
and `cp_trigger_waiting` set on epoch 1: `cp_end` publishes epoch 2. -/
theorem cp_end_triggers_when_flag_set_witness :
    ∃ cp1, cp_waiting_sample.cp_end 0 = some cp1 ∧ cp1.ids 0 = none ∧
      cp1.in_cp_phase = true ∧ cp1.m_cur_cp_id = 2 :=
  (cp_end_triggers_when_flag_set cp_waiting_sample 0 ⟨cp_status_t.cp_start, 0, false⟩
    ⟨cp_status_t.cp_io_ready, 0, true⟩ (by decide) (by decide) rfl (by decide) (by decide) rfl
    (by decide) (by decide) (by decide)).2.2.imp fun _ h =>
      ⟨h.1, h.2.1, (h.2.2.1 rfl).1, (h.2.2.1 rfl).2.1⟩

/-! ## Index update of a write: the checkpoints of a request -/

theorem update_indx_tbl_step_skip (put : PutFn) (ps dps seq : Nat) (carr : List Nat) (I : Nat)
    (st : IndxLoop) (b : BlkId)
    (h : st.start_lba < I ∧ u64_sub I st.start_lba ≥ blkid_nlbas ps dps b) :
    update_indx_tbl_step put ps dps seq carr I st b =
      ({ st with start_lba := u64 (st.start_lba + blkid_nlbas ps dps b),
                 csum_indx := st.csum_indx + blkid_nlbas ps dps b }, true) := by
  unfold update_indx_tbl_step blkid_nlbas at *
  simp only [h.1, h.2, decide_True, Bool.and_self, if_true]

theorem update_indx_tbl_step_put (put : PutFn) (ps dps seq : Nat) (carr : List Nat) (I : Nat)
    (st : IndxLoop) (b : BlkId)
    (h : ¬ (st.start_lba < I ∧ u64_sub I st.start_lba ≥ blkid_nlbas ps dps b))
    (hI : I < 281474976710656) (hs : st.start_lba < 281474976710656)
    (hn : blkid_nlbas ps dps b < 256) :
    ∃ ve, let key : MappingKey := ⟨max st.start_lba I, blkid_nlbas ps dps b⟩
      (update_indx_tbl_step put ps dps seq carr I st b).1.puts = st.puts ++ [(key, ve)] ∧
      (update_indx_tbl_step put ps dps seq carr I st b).1.next_start_lba
        = (put key ve).next_start_lba ∧
      (update_indx_tbl_step put ps dps seq carr I st b).1.ret = (put key ve).ret ∧
      (update_indx_tbl_step put ps dps seq carr I st b).2
        = decide ((put key ve).ret = btree_status_t.success) ∧
      ((put key ve).ret = btree_status_t.success →
        (update_indx_tbl_step put ps dps seq carr I st b).1.start_lba
          = u64 (max st.start_lba I + blkid_nlbas ps dps b)) := by
  have hnl : u32 (u64_sub (blkid_nlbas ps dps b) (u64_sub I I)) = blkid_nlbas ps dps b := by
    have h0 : u64_sub I I = 0 := by
      rw [u64_sub_of_le (le_refl _) (by omega)]; omega
    rw [h0, u64_sub_of_le (Nat.zero_le _) (by omega), Nat.sub_zero, u32_of_lt (by omega)]
  by_cases hlt : st.start_lba < I
  · have hmax : max st.start_lba I = I := by omega
    have hk : MappingKey.make I (blkid_nlbas ps dps b) = ⟨I, blkid_nlbas ps dps b⟩ :=
      MappingKey.make_of_lt hI hn
    have hsk : ¬ (u64_sub I st.start_lba ≥ blkid_nlbas ps dps b) := fun h2 => h ⟨hlt, h2⟩
    refine ⟨ValueEntry.make seq b
      (u32 (u64 (u64_sub I I * ps) / dps)) (blkid_nlbas ps dps b)
      (carr.drop (st.csum_indx + (u64_sub I I : Nat)).toNat), ?_⟩
    unfold update_indx_tbl_step
    unfold blkid_nlbas at hsk hnl hk ⊢
    simp only [hlt, hsk, decide_True, decide_False, Bool.and_false, Bool.false_eq_true,
      if_false, if_true, hnl, hk, hmax]
    split_ifs with hr
    · simp [hr]
    · have hr2 : (put ⟨I, u32 (b.data_size dps / ps)⟩ (ValueEntry.make seq b
        (u32 (u64 (u64_sub I I * ps) / dps)) (u32 (b.data_size dps / ps))
        (carr.drop (st.csum_indx + (u64_sub I I : Nat)).toNat))).ret
          = btree_status_t.success := by simpa using hr
      simp [hr2]
  · have hmax : max st.start_lba I = st.start_lba := by omega
    have hk : MappingKey.make st.start_lba (blkid_nlbas ps dps b)
        = ⟨st.start_lba, blkid_nlbas ps dps b⟩ := MappingKey.make_of_lt hs hn
    refine ⟨ValueEntry.make seq b 0 (blkid_nlbas ps dps b) (carr.drop st.csum_indx.toNat), ?_⟩
    unfold update_indx_tbl_step
    unfold blkid_nlbas at hk ⊢
    simp only [hlt, decide_False, Bool.false_and, Bool.false_eq_true, if_false, hk, hmax]
    split_ifs with hr
    · simp [hr]
    · have hr2 : (put ⟨st.start_lba, u32 (b.data_size dps / ps)⟩ (ValueEntry.make seq b 0
        (u32 (b.data_size dps / ps)) (carr.drop st.csum_indx.toNat))).ret
          = btree_status_t.success := by simpa using hr
      simp [hr2]

theorem update_indx_tbl_loop_after_put (put : PutFn) (ps dps seq : Nat) (carr : List Nat)
    (I : Nat) (hI : I < 281474976710656) (hput : PutContract put) :
    ∀ (L : List BlkId) (st : IndxLoop),
    (∀ b ∈ L, 1 ≤ blkid_nlbas ps dps b ∧ blkid_nlbas ps dps b ≤ 255) →
    st.puts ≠ [] → (∃ kv ∈ st.puts, Installed put kv) → I < st.start_lba → I ≤ st.next_start_lba →
    st.next_start_lba ≤ st.start_lba →
    st.ret = btree_status_t.success →
    st.start_lba + (L.map (blkid_nlbas ps dps)).sum ≤ 281474976710656 →
    (update_indx_tbl_loop put ps dps seq carr I st L).puts ≠ [] ∧
    (∃ kv ∈ (update_indx_tbl_loop put ps dps seq carr I st L).puts, Installed put kv) ∧
    I ≤ (update_indx_tbl_loop put ps dps seq carr I st L).next_start_lba ∧
    (update_indx_tbl_loop put ps dps seq carr I st L).next_start_lba
      ≤ st.start_lba + (L.map (blkid_nlbas ps dps)).sum ∧
    ((update_indx_tbl_loop put ps dps seq carr I st L).ret ≠ btree_status_t.success →
      (update_indx_tbl_loop put ps dps seq carr I st L).next_start_lba
        < st.start_lba + (L.map (blkid_nlbas ps dps)).sum) := by
  intro L
  induction L with
  | nil =>
    intro st _ h1 h2 _ h4 h4b h5 _
    exact ⟨h1, h2, h4, by simpa using h4b, fun h => absurd h5 h⟩
  | cons b rest ih =>
    intro st hL h1 h2 h3 h4 _ h5 h6
    obtain ⟨hb1, hb2⟩ := hL b (List.mem_cons_self _ _)
    simp only [List.map_cons, List.sum_cons] at h6 ⊢
    obtain ⟨ve, e1, e2, e3, e4, e5⟩ := update_indx_tbl_step_put put ps dps seq carr I st b
      (fun h => by omega) hI (by omega) (by omega)
    have hmax : max st.start_lba I = st.start_lba := by omega
    rw [hmax] at e1 e2 e3 e4 e5
    obtain ⟨c1, c2, c3⟩ := hput ⟨st.start_lba, blkid_nlbas ps dps b⟩ ve
    simp only at c1 c2 c3
    unfold update_indx_tbl_loop
    generalize hstep : update_indx_tbl_step put ps dps seq carr I st b = r at e1 e2 e3 e4 e5
    obtain ⟨st1, go⟩ := r
    simp only at e1 e2 e3 e4 e5
    have hin : ∃ kv ∈ st1.puts, Installed put kv := by
      obtain ⟨kv, k1, k2⟩ := h2
      exact ⟨kv, by rw [e1]; exact List.mem_append_left _ k1, k2⟩
    cases go with
    | false =>
      simp only
      have hr : (put ⟨st.start_lba, blkid_nlbas ps dps b⟩ ve).ret ≠ btree_status_t.success := by
        intro h; rw [h] at e4; simp at e4
      have := c3 hr
      refine ⟨by rw [e1]; simp, hin, by rw [e2]; omega, by rw [e2]; omega, fun _ => ?_⟩
      rw [e2]
      omega
    | true =>
      simp only
      have hr : (put ⟨st.start_lba, blkid_nlbas ps dps b⟩ ve).ret = btree_status_t.success := by
        by_contra h
        rw [decide_eq_false h] at e4
        cases e4
      have hs1 : st1.start_lba = st.start_lba + blkid_nlbas ps dps b := by
        rw [e5 hr, u64_of_lt (by omega)]
      obtain ⟨i1, i2, i3, i5, i4⟩ := ih st1 (fun x hx => hL x (List.mem_cons_of_mem _ hx))
        (by rw [e1]; simp) hin (by omega) (by rw [e2, c2 hr]; omega)
        (by rw [e2, c2 hr, hs1]) (by rw [e3, hr]) (by rw [hs1]; omega)
      rw [hs1] at i5
      refine ⟨i1, i2, i3, by omega, fun h => ?_⟩
      have := i4 h
      rw [hs1] at this
      omega

theorem update_indx_tbl_loop_before_put (put : PutFn) (ps dps seq : Nat) (carr : List Nat)
    (I : Nat) (hI : I < 281474976710656) (hput : PutContract put) :
    ∀ (L : List BlkId) (st : IndxLoop),
    (∀ b ∈ L, 1 ≤ blkid_nlbas ps dps b ∧ blkid_nlbas ps dps b ≤ 255) →
    st.puts = [] → st.start_lba ≤ I →
    st.start_lba + (L.map (blkid_nlbas ps dps)).sum + 255 ≤ 281474976710656 →
    ((update_indx_tbl_loop put ps dps seq carr I st L).puts = [] ∧
      (update_indx_tbl_loop put ps dps seq carr I st L).next_start_lba = st.next_start_lba ∧
      (update_indx_tbl_loop put ps dps seq carr I st L).ret = st.ret ∧
      st.start_lba + (L.map (blkid_nlbas ps dps)).sum ≤ I) ∨
    ((update_indx_tbl_loop put ps dps seq carr I st L).puts ≠ [] ∧
      I ≤ (update_indx_tbl_loop put ps dps seq carr I st L).next_start_lba ∧
      ((update_indx_tbl_loop put ps dps seq carr I st L).next_start_lba ≠ I →
        ∃ kv ∈ (update_indx_tbl_loop put ps dps seq carr I st L).puts, Installed put kv) ∧
      (update_indx_tbl_loop put ps dps seq carr I st L).next_start_lba
        ≤ I + (L.map (blkid_nlbas ps dps)).sum ∧
      ((update_indx_tbl_loop put ps dps seq carr I st L).ret ≠ btree_status_t.success →
        (update_indx_tbl_loop put ps dps seq carr I st L).next_start_lba
          < I + (L.map (blkid_nlbas ps dps)).sum)) := by
  intro L
  induction L with
  | nil =>
    intro st _ h1 h2 _
    left
    exact ⟨h1, rfl, rfl, by simpa using h2⟩
  | cons b rest ih =>
    intro st hL h1 h2 h3
    obtain ⟨hb1, hb2⟩ := hL b (List.mem_cons_self _ _)
    simp only [List.map_cons, List.sum_cons] at h3 ⊢
    by_cases hskip : st.start_lba < I ∧ u64_sub I st.start_lba ≥ blkid_nlbas ps dps b
    · have hsub : u64_sub I st.start_lba = I - st.start_lba :=
        u64_sub_of_le (by omega) (by omega)
      rw [hsub] at hskip
      unfold update_indx_tbl_loop
      rw [update_indx_tbl_step_skip put ps dps seq carr I st b (by rw [hsub]; exact hskip)]
      simp only
      have hu : u64 (st.start_lba + blkid_nlbas ps dps b)
          = st.start_lba + blkid_nlbas ps dps b := u64_of_lt (by omega)
      rw [hu]
      rcases ih { st with start_lba := st.start_lba + blkid_nlbas ps dps b,
                          csum_indx := st.csum_indx + blkid_nlbas ps dps b }
        (fun x hx => hL x (List.mem_cons_of_mem _ hx)) h1
        (by show st.start_lba + blkid_nlbas ps dps b ≤ I; omega)
        (by show st.start_lba + blkid_nlbas ps dps b + _ + 255 ≤ _; omega) with
        ⟨a1, a2, a3, a4⟩ | ⟨a1, a2, a3, a5, a4⟩
      · left
        exact ⟨a1, a2, a3, by
          have : st.start_lba + blkid_nlbas ps dps b
            + (rest.map (blkid_nlbas ps dps)).sum ≤ I := a4
          omega⟩
      · right
        exact ⟨a1, a2, a3, by omega, fun h => by have := a4 h; omega⟩
    · right
      obtain ⟨ve, e1, e2, e3, e4, e5⟩ := update_indx_tbl_step_put put ps dps seq carr I st b
        hskip hI (by omega) (by omega)
      have hmax : max st.start_lba I = I := by omega
      rw [hmax] at e1 e2 e3 e4 e5
      obtain ⟨c1, c2, c3⟩ := hput ⟨I, blkid_nlbas ps dps b⟩ ve
      simp only at c1 c2 c3
      unfold update_indx_tbl_loop
      generalize hstep : update_indx_tbl_step put ps dps seq carr I st b = r at e1 e2 e3 e4 e5
      obtain ⟨st1, go⟩ := r
      simp only at e1 e2 e3 e4 e5
      have hmem : (⟨I, blkid_nlbas ps dps b⟩, ve) ∈ st1.puts := by rw [e1]; simp
      cases go with
      | false =>
        simp only
        have hr : (put ⟨I, blkid_nlbas ps dps b⟩ ve).ret ≠ btree_status_t.success := by
          intro h; rw [h] at e4; simp at e4
        have hc3 := c3 hr
        refine ⟨by rw [e1]; simp, by rw [e2]; exact c1, fun hne => ?_, by rw [e2]; omega,
          fun _ => ?_⟩
        · refine ⟨_, hmem, ?_⟩
          show I < (put ⟨I, blkid_nlbas ps dps b⟩ ve).next_start_lba
          rw [e2] at hne
          omega
        · rw [e2]
          omega
      | true =>
        simp only
        have hr : (put ⟨I, blkid_nlbas ps dps b⟩ ve).ret = btree_status_t.success := by
          by_contra h
          rw [decide_eq_false h] at e4
          cases e4
        have hinst : Installed put (⟨I, blkid_nlbas ps dps b⟩, ve) := by
          show I < (put ⟨I, blkid_nlbas ps dps b⟩ ve).next_start_lba
          rw [c2 hr]; omega
        have hnot : ¬ (u64_sub I st.start_lba ≥ blkid_nlbas ps dps b) ∨ ¬ st.start_lba < I := by
          by_contra h
          push_neg at h
          exact hskip ⟨h.2, h.1⟩
        have hgap : I < st.start_lba + blkid_nlbas ps dps b := by
          rcases hnot with h | h
          · rw [u64_sub_of_le h2 (by omega)] at h
            omega
          · omega
        have hs1 : st1.start_lba = I + blkid_nlbas ps dps b := by
          rw [e5 hr, u64_of_lt (by omega)]
        obtain ⟨i1, i2, i3, i5, i4⟩ := update_indx_tbl_loop_after_put put ps dps seq carr I hI
          hput rest st1 (fun x hx => hL x (List.mem_cons_of_mem _ hx)) (by rw [e1]; simp)
          ⟨_, hmem, hinst⟩ (by omega) (by rw [e2, c2 hr]; omega) (by rw [e2, c2 hr, hs1])
          (by rw [e3, hr]) (by rw [hs1]; omega)
        rw [hs1] at i5
        refine ⟨i1, i3, fun _ => i2, by omega, fun h => ?_⟩
        have := i4 h
        rw [hs1] at this
        omega

theorem update_indx_tbl_first_attempt (put : PutFn) (ps dps : Nat) (vreq : volume_req)
    (hput : PutContract put) (h0 : vreq.cp_info_list = [])
    (hb : ∀ b ∈ vreq.alloc_blkid_list, 1 ≤ blkid_nlbas ps dps b ∧ blkid_nlbas ps dps b ≤ 255)
    (hr : vreq.lba + (vreq.alloc_blkid_list.map (blkid_nlbas ps dps)).sum + 255
      ≤ 281474976710656) :
    ((update_indx_tbl put ps dps vreq).2.1.cp_info_list = [] ∨
      ∃ info, (update_indx_tbl put ps dps vreq).2.1.cp_info_list = [info] ∧
        vreq.lba < info.end_lba + 1 ∧ info.end_lba + 1 < 281474976710656 ∧
        ((update_indx_tbl put ps dps vreq).1 ≠ btree_status_t.success →
          info.end_lba + 1 < vreq.lba + (vreq.alloc_blkid_list.map (blkid_nlbas ps dps)).sum)) ∧
    ((update_indx_tbl put ps dps vreq).2.1.cp_info_list ≠ [] →
      ∃ kv ∈ (update_indx_tbl put ps dps vreq).2.2, Installed put kv) ∧
    (update_indx_tbl put ps dps vreq).2.1.lba = vreq.lba ∧
    (update_indx_tbl put ps dps vreq).2.1.alloc_blkid_list = vreq.alloc_blkid_list := by
  have hloop := update_indx_tbl_loop_before_put put ps dps vreq.seqId
    (vreq.csum_list.take vreq.nlbas) vreq.lba (by omega) hput vreq.alloc_blkid_list
    { start_lba := vreq.lba, csum_indx := 0, next_start_lba := vreq.lba,
      ret := btree_status_t.put_failed, fbe_list_size := vreq.fbe_list_size, puts := [] }
    hb rfl (le_refl _) hr
  unfold update_indx_tbl
  simp only [h0, List.getLast?_nil, List.nil_append]
  generalize update_indx_tbl_loop put ps dps vreq.seqId (vreq.csum_list.take vreq.nlbas) vreq.lba
    { start_lba := vreq.lba, csum_indx := 0, next_start_lba := vreq.lba,
      ret := btree_status_t.put_failed, fbe_list_size := vreq.fbe_list_size, puts := [] }
    vreq.alloc_blkid_list = fin at hloop ⊢
  simp only at hloop
  by_cases hn : vreq.lba = fin.next_start_lba
  · rw [if_pos hn]
    simp [h0]
  · rw [if_neg hn]
    rcases hloop with ⟨_, a2, _, _⟩ | ⟨_, a2, a3, a5, a4⟩
    · exact absurd a2.symm hn
    · have hlt : vreq.lba < fin.next_start_lba := by omega
      have hinst := a3 (fun h => hn h.symm)
      have hsub : u64_sub fin.next_start_lba 1 = fin.next_start_lba - 1 :=
        u64_sub_of_le (by omega) (by omega)
      simp only [hsub]
      refine ⟨Or.inr ⟨_, rfl, ?_, ?_, fun h => ?_⟩, fun _ => hinst, trivial, trivial⟩
      · show vreq.lba < fin.next_start_lba - 1 + 1
        omega
      · show fin.next_start_lba - 1 + 1 < 281474976710656
        omega
      · show fin.next_start_lba - 1 + 1 < _
        have := a4 h
        omega

theorem update_indx_tbl_retry (put : PutFn) (ps dps : Nat) (vreq : volume_req)
    (info : io_cp_info) (hput : PutContract put) (h0 : vreq.cp_info_list = [info])
    (hb : ∀ b ∈ vreq.alloc_blkid_list, 1 ≤ blkid_nlbas ps dps b ∧ blkid_nlbas ps dps b ≤ 255)
    (hr : vreq.lba + (vreq.alloc_blkid_list.map (blkid_nlbas ps dps)).sum + 255
      ≤ 281474976710656)
    (h1 : vreq.lba < info.end_lba + 1)
    (h2 : info.end_lba + 1 < vreq.lba + (vreq.alloc_blkid_list.map (blkid_nlbas ps dps)).sum) :
    (update_indx_tbl put ps dps vreq).2.1.cp_info_list.length ≤ 2 ∧
    (1 < (update_indx_tbl put ps dps vreq).2.1.cp_info_list.length →
      ∃ kv ∈ (update_indx_tbl put ps dps vreq).2.2, Installed put kv) := by
  have hu : u64 (info.end_lba + 1) = info.end_lba + 1 := u64_of_lt (by omega)
  have hloop := update_indx_tbl_loop_before_put put ps dps vreq.seqId
    (vreq.csum_list.take vreq.nlbas) (info.end_lba + 1) (by omega) hput vreq.alloc_blkid_list
    { start_lba := vreq.lba, csum_indx := 0, next_start_lba := vreq.lba,
      ret := btree_status_t.put_failed, fbe_list_size := vreq.fbe_list_size, puts := [] }
    hb rfl (by show vreq.lba ≤ info.end_lba + 1; omega) hr
  unfold update_indx_tbl
  simp only [h0, List.getLast?_singleton, hu]
  generalize update_indx_tbl_loop put ps dps vreq.seqId (vreq.csum_list.take vreq.nlbas)
    (info.end_lba + 1)
    { start_lba := vreq.lba, csum_indx := 0, next_start_lba := vreq.lba,
      ret := btree_status_t.put_failed, fbe_list_size := vreq.fbe_list_size, puts := [] }
    vreq.alloc_blkid_list = fin at hloop ⊢
  simp only at hloop
  by_cases hn : info.end_lba + 1 = fin.next_start_lba
  · rw [if_pos hn]
    simp [h0]
  · rw [if_neg hn]
    rcases hloop with ⟨_, _, _, a4⟩ | ⟨_, _, a3, _, _⟩
    · omega
    · exact ⟨by simp, fun _ => a3 (fun h => hn h.symm)⟩

/-- C25. A write request enters `update_indx` with an empty `cp_info_list`, its block ids
cover between 1 and 255 LBAs each and the request ends inside the 48-bit LBA space, and the
index keeps the contract of `mapping::put` in both attempts. Then the request handed to the
journal has at most two `cp_info_list` entries, so `io_cp_info_size` of its journal header is
at most two, and each attempt (the first one, and the retry when there is one) appends an
entry only if one of its puts installed at least one LBA. -/
theorem update_indx_cp_info_at_most_two (put1 put2 : PutFn) (ps dps : Nat) (vreq : volume_req)
    (h1 : PutContract put1) (h2 : PutContract put2) (h0 : vreq.cp_info_list = [])
    (hb : ∀ b ∈ vreq.alloc_blkid_list, 1 ≤ blkid_nlbas ps dps b ∧ blkid_nlbas ps dps b ≤ 255)
    (hr : vreq.lba + (vreq.alloc_blkid_list.map (blkid_nlbas ps dps)).sum + 255
      ≤ 281474976710656) :
    (update_indx_vreq put1 put2 ps dps vreq).cp_info_list.length ≤ 2 ∧
    journal_hdr_io_cp_info_size (update_indx_vreq put1 put2 ps dps vreq) ≤ 2 ∧
    (vreq.cp_info_list.length < (update_indx put1 put2 ps dps vreq).1.cp_info_list.length →
      ∃ kv ∈ (update_indx put1 put2 ps dps vreq).2.1, Installed put1 kv) ∧
    (∀ v2 p2, (update_indx put1 put2 ps dps vreq).2.2 = some (v2, p2) →
      (update_indx put1 put2 ps dps vreq).1.cp_info_list.length < v2.cp_info_list.length →
      ∃ kv ∈ p2, Installed put2 kv) := by
  obtain ⟨f1, f2, f3, f4⟩ := update_indx_tbl_first_attempt put1 ps dps vreq h1 h0 hb hr
  unfold journal_hdr_io_cp_info_size update_indx_vreq update_indx
  by_cases hm : (update_indx_tbl put1 ps dps vreq).1 = btree_status_t.cp_id_mismatch
  · simp only [if_pos hm]
    have hb2 : ∀ b ∈ (update_indx_tbl put1 ps dps vreq).2.1.alloc_blkid_list,
        1 ≤ blkid_nlbas ps dps b ∧ blkid_nlbas ps dps b ≤ 255 := by rw [f4]; exact hb
    have hr2 : (update_indx_tbl put1 ps dps vreq).2.1.lba
        + ((update_indx_tbl put1 ps dps vreq).2.1.alloc_blkid_list.map (blkid_nlbas ps dps)).sum
        + 255 ≤ 281474976710656 := by rw [f3, f4]; exact hr
    have hfirst : vreq.cp_info_list.length
        < (update_indx_tbl put1 ps dps vreq).2.1.cp_info_list.length →
        ∃ kv ∈ (update_indx_tbl put1 ps dps vreq).2.2, Installed put1 kv := by
      intro h
      apply f2
      intro e
      rw [e, h0] at h
      exact absurd h (by simp)
    rcases f1 with e | ⟨info, e, g1, g2, g3⟩
    · obtain ⟨s1, s2, _, _⟩ := update_indx_tbl_first_attempt put2 ps dps
        (update_indx_tbl put1 ps dps vreq).2.1 h2 e hb2 hr2
      have hlen : (update_indx_tbl put2 ps dps
          (update_indx_tbl put1 ps dps vreq).2.1).2.1.cp_info_list.length ≤ 2 := by
        rcases s1 with e2 | ⟨i2, e2, _⟩
        · rw [e2]; simp
        · rw [e2]; simp
      refine ⟨hlen, hlen, hfirst, ?_⟩
      intro v2 p2 hv hl
      simp only [Option.some.injEq, Prod.mk.injEq] at hv
      obtain ⟨hv1, hv2⟩ := hv
      subst hv1 hv2
      apply s2
      intro e3
      rw [e3, e] at hl
      exact absurd hl (by simp)
    · have g3a := g3 (by rw [hm]; decide)
      obtain ⟨s1, s2⟩ := update_indx_tbl_retry put2 ps dps
        (update_indx_tbl put1 ps dps vreq).2.1 info h2 e hb2 hr2 (by rw [f3]; exact g1)
        (by rw [f3, f4]; exact g3a)
      refine ⟨s1, s1, hfirst, ?_⟩
      intro v2 p2 hv hl
      simp only [Option.some.injEq, Prod.mk.injEq] at hv
      obtain ⟨hv1, hv2⟩ := hv
      subst hv1 hv2
      apply s2
      rw [e] at hl
      simpa using hl
  · simp only [if_neg hm]
    have hlen : (update_indx_tbl put1 ps dps vreq).2.1.cp_info_list.length ≤ 2 := by
      rcases f1 with e | ⟨info, e, _⟩
      · rw [e]; simp
      · rw [e]; simp
    refine ⟨hlen, hlen, ?_, ?_⟩
    · intro h
      apply f2
      intro e
      rw [e, h0] at h
      exact absurd h (by simp)
    · intro v2 p2 hv
      exact absurd hv (by simp)

theorem put_two_then_mismatch_contract : PutContract put_two_then_mismatch := by
  intro key ve
  unfold put_two_then_mismatch
  split_ifs with h
  · simp
  · simp
    omega

theorem put_all_contract : PutContract put_all := by
  intro key ve
  simp [put_all]

theorem update_indx_cp_info_at_most_two_witness :
    PutContract put_two_then_mismatch ∧ PutContract put_all ∧
    vreq_new_sample.cp_info_list = [] ∧
    (update_indx put_two_then_mismatch put_all 4096 4096 vreq_new_sample).2.2 ≠ none ∧
    (update_indx_vreq put_two_then_mismatch put_all 4096 4096 vreq_new_sample).cp_info_list.length
      = 2 ∧
    ((update_indx_vreq put_two_then_mismatch put_all 4096 4096
        vreq_new_sample).cp_info_list.length ≤ 2 ∧
      journal_hdr_io_cp_info_size
        (update_indx_vreq put_two_then_mismatch put_all 4096 4096 vreq_new_sample) ≤ 2 ∧
      (vreq_new_sample.cp_info_list.length
          < (update_indx put_two_then_mismatch put_all 4096 4096
              vreq_new_sample).1.cp_info_list.length →
        ∃ kv ∈ (update_indx put_two_then_mismatch put_all 4096 4096 vreq_new_sample).2.1,
          Installed put_two_then_mismatch kv) ∧
      (∀ v2 p2, (update_indx put_two_then_mismatch put_all 4096 4096 vreq_new_sample).2.2
          = some (v2, p2) →
        (update_indx put_two_then_mismatch put_all 4096 4096
          vreq_new_sample).1.cp_info_list.length < v2.cp_info_list.length →
        ∃ kv ∈ p2, Installed put_all kv)) :=
  ⟨put_two_then_mismatch_contract, put_all_contract, rfl, by decide, by decide,
    update_indx_cp_info_at_most_two put_two_then_mismatch put_all 4096 4096 vreq_new_sample
      put_two_then_mismatch_contract put_all_contract rfl (by decide) (by decide)⟩

/-! ## Block allocation of a virtual device: the order of the chunks -/

theorem alloc_blk_chunks_spec {σ : Type} (alloc : ChunkAllocFn σ) :
    ∀ (L : List Nat) (r : AllocBlkRun σ),
    r.status ≠ BlkAllocStatus.BLK_ALLOC_SUCCESS →
    (∀ p ∈ r.tried, p.2 ≠ BlkAllocStatus.BLK_ALLOC_SUCCESS) →
    ((alloc_blk_chunks alloc r L).status ≠ BlkAllocStatus.BLK_ALLOC_SUCCESS ∧
      (∀ p ∈ (alloc_blk_chunks alloc r L).tried, p.2 ≠ BlkAllocStatus.BLK_ALLOC_SUCCESS) ∧
      (alloc_blk_chunks alloc r L).tried.map Prod.fst = r.tried.map Prod.fst ++ L) ∨
    ((alloc_blk_chunks alloc r L).status = BlkAllocStatus.BLK_ALLOC_SUCCESS ∧
      (∃ pre c, (alloc_blk_chunks alloc r L).tried
          = pre ++ [(c, BlkAllocStatus.BLK_ALLOC_SUCCESS)] ∧
        (∀ p ∈ pre, p.2 ≠ BlkAllocStatus.BLK_ALLOC_SUCCESS) ∧
        (alloc_blk_chunks alloc r L).picked_chunk = some c) ∧
      (alloc_blk_chunks alloc r L).tried.map Prod.fst <+: r.tried.map Prod.fst ++ L) := by
  intro L
  induction L with
  | nil =>
    intro r h1 h2
    left
    exact ⟨h1, h2, by simp [alloc_blk_chunks]⟩
  | cons c rest ih =>
    intro r h1 h2
    unfold alloc_blk_chunks
    simp only
    by_cases hs : (alloc r.ba c r.out_blkid).1 = BlkAllocStatus.BLK_ALLOC_SUCCESS
    · rw [if_pos hs]
      right
      refine ⟨hs, ⟨r.tried, c, by simp [hs], h2, rfl⟩, ?_⟩
      simp only [List.map_append, List.map_cons, List.map_nil]
      exact (List.prefix_append_right_inj _).2 (List.prefix_iff_eq_take.2 (by simp))
    · rw [if_neg hs]
      have h2a : ∀ p ∈ r.tried ++ [(c, (alloc r.ba c r.out_blkid).1)],
          p.2 ≠ BlkAllocStatus.BLK_ALLOC_SUCCESS := by
        intro p hp
        rcases List.mem_append.1 hp with h | h
        · exact h2 p h
        · rw [List.mem_singleton.1 h]; exact hs
      rcases ih { r with status := (alloc r.ba c r.out_blkid).1,
                         out_blkid := (alloc r.ba c r.out_blkid).2.1,
                         ba := (alloc r.ba c r.out_blkid).2.2,
                         tried := r.tried ++ [(c, (alloc r.ba c r.out_blkid).1)] } hs h2a with
        ⟨a1, a2, a3⟩ | ⟨a1, a2, a3⟩
      · left
        exact ⟨a1, a2, by rw [a3]; simp⟩
      · right
        refine ⟨a1, a2, ?_⟩
        simpa using a3

theorem alloc_blk_devices_order_succ (chunks : List (List Nat)) (d0 k : Nat) :
    alloc_blk_devices_order chunks d0 (k + 1)
      = alloc_blk_devices_order chunks d0 k ++ chunks.getD ((d0 + k) % chunks.length) [] := by
  simp [alloc_blk_devices_order, List.range_succ]

theorem alloc_blk_devices_order_one (chunks : List (List Nat)) (d0 : Nat)
    (hd : d0 < chunks.length) :
    alloc_blk_devices_order chunks d0 (0 + 1) = chunks.getD d0 [] := by
  rw [alloc_blk_devices_order_succ, Nat.add_zero, Nat.mod_eq_of_lt hd]
  simp [alloc_blk_devices_order]

theorem alloc_blk_devices_order_prefix (chunks : List (List Nat)) (d0 a : Nat) :
    ∀ b, a ≤ b → alloc_blk_devices_order chunks d0 a <+: alloc_blk_devices_order chunks d0 b := by
  intro b hab
  induction b with
  | zero =>
    have : a = 0 := by omega
    rw [this]
  | succ b ih =>
    by_cases h : a = b + 1
    · rw [h]
    · rw [alloc_blk_devices_order_succ]
      exact (ih (by omega)).trans (List.prefix_append _ _)

theorem alloc_blk_devices_order_mem (chunks : List (List Nat)) (d0 k c : Nat)
    (h : c ∈ alloc_blk_devices_order chunks d0 k) : ∃ l ∈ chunks, c ∈ l := by
  induction k with
  | zero => simp [alloc_blk_devices_order] at h
  | succ k ih =>
    rw [alloc_blk_devices_order_succ] at h
    rcases List.mem_append.1 h with h1 | h1
    · exact ih h1
    · by_cases hi : (d0 + k) % chunks.length < chunks.length
      · rw [List.getD_eq_getElem _ _ hi] at h1
        exact ⟨_, List.getElem_mem hi, h1⟩
      · rw [List.getD_eq_default _ _ (by omega)] at h1
        simp at h1

theorem next_dev_ind (n d0 k : Nat) (hd : d0 < n) (hk : k < n) (hn : n < 4294967296) :
    u32 (u32 ((d0 + k) % n + 1) % n) = (d0 + (k + 1)) % n ∧
    ((d0 + (k + 1)) % n = d0 ↔ k + 1 = n) := by
  have hlt : (d0 + k) % n < n := Nat.mod_lt _ (by omega)
  have e1 : u32 ((d0 + k) % n + 1) = (d0 + k) % n + 1 := by
    unfold u32; exact Nat.mod_eq_of_lt (by omega)
  have e2 : ((d0 + k) % n + 1) % n = (d0 + (k + 1)) % n := by
    rw [Nat.mod_add_mod]; rfl
  have hlt2 : (d0 + (k + 1)) % n < n := Nat.mod_lt _ (by omega)
  have e3 : u32 ((d0 + (k + 1)) % n) = (d0 + (k + 1)) % n := by
    unfold u32; exact Nat.mod_eq_of_lt (by omega)
  refine ⟨by rw [e1, e2, e3], ?_⟩
  constructor
  · intro h
    by_contra hne
    by_cases hc : d0 + (k + 1) < n
    · rw [Nat.mod_eq_of_lt hc] at h
      omega
    · rw [Nat.mod_eq_sub_mod (by omega), Nat.mod_eq_of_lt (by omega)] at h
      omega
  · intro h
    rw [h, Nat.add_mod_right, Nat.mod_eq_of_lt hd]

theorem alloc_blk_devs_spec {σ : Type} (alloc : ChunkAllocFn σ) (chunks : List (List Nat))
    (can_look : Bool) (d0 : Nat) (hd : d0 < chunks.length) (hn : chunks.length < 4294967296) :
    ∀ (fuel k : Nat) (r : AllocBlkRun σ), fuel + k = chunks.length → k < chunks.length →
    (can_look = false → k = 0) →
    r.status ≠ BlkAllocStatus.BLK_ALLOC_SUCCESS →
    (∀ p ∈ r.tried, p.2 ≠ BlkAllocStatus.BLK_ALLOC_SUCCESS) →
    r.tried.map Prod.fst = alloc_blk_devices_order chunks d0 k →
    ∃ r1, alloc_blk_devs alloc chunks can_look d0 fuel ((d0 + k) % chunks.length) r
        = Outcome.ok r1 ∧
      r1.tried.map Prod.fst <+: alloc_blk_order chunks can_look d0 ∧
      ((r1.status ≠ BlkAllocStatus.BLK_ALLOC_SUCCESS ∧
          (∀ p ∈ r1.tried, p.2 ≠ BlkAllocStatus.BLK_ALLOC_SUCCESS) ∧
          r1.tried.map Prod.fst = alloc_blk_order chunks can_look d0) ∨
        (r1.status = BlkAllocStatus.BLK_ALLOC_SUCCESS ∧
          ∃ pre c, r1.tried = pre ++ [(c, BlkAllocStatus.BLK_ALLOC_SUCCESS)] ∧
            (∀ p ∈ pre, p.2 ≠ BlkAllocStatus.BLK_ALLOC_SUCCESS) ∧
            r1.picked_chunk = some c)) := by
  intro fuel
  induction fuel with
  | zero =>
    intro k r h1 h2
    omega
  | succ fuel ih =>
    intro k r hf hk hc h1 h2 h3
    have hi : (d0 + k) % chunks.length < chunks.length := Nat.mod_lt _ (by omega)
    have hsucc := alloc_blk_devices_order_succ chunks d0 k
    rw [List.getD_eq_getElem _ _ hi] at hsucc
    have hord : alloc_blk_devices_order chunks d0 (k + 1) <+: alloc_blk_order chunks can_look d0 := by
      unfold alloc_blk_order
      cases can_look with
      | true => exact alloc_blk_devices_order_prefix chunks d0 (k + 1) _ (by omega)
      | false =>
        have hk0 := hc rfl
        subst hk0
        simp only [Bool.false_eq_true, if_false]
        rw [alloc_blk_devices_order_one chunks d0 hd]
    have hfull : can_look = false ∨ k + 1 = chunks.length →
        alloc_blk_devices_order chunks d0 (k + 1) = alloc_blk_order chunks can_look d0 := by
      intro h
      unfold alloc_blk_order
      cases can_look with
      | true =>
        rcases h with h | h
        · cases h
        · simp [h]
      | false =>
        have hk0 := hc rfl
        subst hk0
        simp only [Bool.false_eq_true, if_false]
        rw [alloc_blk_devices_order_one chunks d0 hd]
    unfold alloc_blk_devs
    rw [List.getElem?_eq_getElem hi]
    simp only
    rcases alloc_blk_chunks_spec alloc (chunks[(d0 + k) % chunks.length]) r h1 h2 with
      ⟨a1, a2, a3⟩ | ⟨a1, a2, a3⟩
    · rw [if_neg a1]
      rw [h3, ← hsucc] at a3
      cases can_look with
      | false =>
        simp only [Bool.not_false, if_true]
        exact ⟨_, rfl, by rw [a3]; exact hord, Or.inl ⟨a1, a2, by rw [a3]; exact hfull (Or.inl rfl)⟩⟩
      | true =>
        simp only [Bool.not_true, Bool.false_eq_true, if_false]
        obtain ⟨e1, e2⟩ := next_dev_ind chunks.length d0 k hd hk hn
        rw [e1]
        by_cases hlast : k + 1 = chunks.length
        · rw [if_neg (by rw [ne_eq, not_not]; exact e2.2 hlast)]
          exact ⟨_, rfl, by rw [a3]; exact hord,
            Or.inl ⟨a1, a2, by rw [a3]; exact hfull (Or.inr hlast)⟩⟩
        · rw [if_pos (fun h => hlast (e2.1 h))]
          exact ih (k + 1) _ (by omega) (by omega) (fun h => by cases h) a1 a2 a3
    · rw [if_pos a1]
      rw [h3, ← hsucc] at a3
      exact ⟨_, rfl, a3.trans hord, Or.inr ⟨a1, a2⟩⟩

theorem alloc_blk_order_mem (chunks : List (List Nat)) (can_look : Bool) (d0 c : Nat)
    (hd : d0 < chunks.length) (h : c ∈ alloc_blk_order chunks can_look d0) :
    ∃ l ∈ chunks, c ∈ l := by
  unfold alloc_blk_order at h
  cases can_look with
  | true => exact alloc_blk_devices_order_mem chunks d0 _ c h
  | false =>
    simp only [Bool.false_eq_true, if_false] at h
    rw [List.getD_eq_getElem _ _ hd] at h
    exact ⟨_, List.getElem_mem hd, h⟩

/-- C22. With the start index `d0` (the hint, or the choice of the selector when the hint is
-1) inside the device list, `alloc_blk` returns, and the chunks whose allocator it called are
an initial part of the order "chunks of `d0`, then with `can_look_for_other_dev` the chunks of
`d0 + 1`, `d0 + 2`, .. modulo the device count, every device once". On `BLK_ALLOC_SUCCESS` the
last chunk tried is the first one whose allocator succeeded and every block id returned
carries its chunk id; the status is not success exactly when the allocator of every chunk
tried failed, and then every chunk of the order was tried. -/
theorem alloc_blk_tries_chunks_in_order {σ : Type} (alloc : ChunkAllocFn σ)
    (chunks : List (List Nat)) (select : Nat) (hints : blk_alloc_hints) (ba : σ)
    (out_blkid : List BlkId)
    (hd : alloc_blk_start select hints < chunks.length)
    (hn : chunks.length < 4294967296)
    (hc : ∀ l ∈ chunks, ∀ c ∈ l, c ≤ MAX_CHUNK_ID) :
    ∃ r, alloc_blk alloc chunks select hints ba out_blkid = Outcome.ok r ∧
      r.tried.map Prod.fst
        <+: alloc_blk_order chunks hints.can_look_for_other_dev (alloc_blk_start select hints) ∧
      (r.status = BlkAllocStatus.BLK_ALLOC_SUCCESS →
        ∃ pre c, r.tried = pre ++ [(c, BlkAllocStatus.BLK_ALLOC_SUCCESS)] ∧
          (∀ p ∈ pre, p.2 ≠ BlkAllocStatus.BLK_ALLOC_SUCCESS) ∧
          ∀ b ∈ r.out_blkid, b.chunk_num = c) ∧
      (r.status ≠ BlkAllocStatus.BLK_ALLOC_SUCCESS ↔
        ∀ p ∈ r.tried, p.2 ≠ BlkAllocStatus.BLK_ALLOC_SUCCESS) ∧
      (r.status ≠ BlkAllocStatus.BLK_ALLOC_SUCCESS →
        r.tried.map Prod.fst
          = alloc_blk_order chunks hints.can_look_for_other_dev
              (alloc_blk_start select hints)) := by
  have hspec := alloc_blk_devs_spec alloc chunks hints.can_look_for_other_dev
    (alloc_blk_start select hints) hd hn chunks.length 0
    { status := BlkAllocStatus.BLK_ALLOC_FAILED, out_blkid := out_blkid, picked_chunk := none,
      tried := [], ba := ba }
    rfl (by omega) (fun _ => rfl) (fun h => by cases h) (by simp)
    (by simp [alloc_blk_devices_order])
  rw [Nat.add_zero, Nat.mod_eq_of_lt hd] at hspec
  obtain ⟨r1, e, hpre, hcase⟩ := hspec
  unfold alloc_blk
  simp only
  unfold alloc_blk_start at e
  rw [e]
  simp only
  rcases hcase with ⟨a1, a2, a3⟩ | ⟨a1, pre, c, b1, b2, b3⟩
  · rw [if_neg a1]
    exact ⟨r1, rfl, hpre, fun h => absurd h a1, ⟨fun _ => a2, fun _ => a1⟩, fun _ => a3⟩
  · rw [if_pos a1, b3]
    refine ⟨_, rfl, hpre, fun _ => ⟨pre, c, b1, b2, ?_⟩, ⟨fun h => absurd a1 h, fun h => ?_⟩,
      fun h => absurd a1 h⟩
    · intro b hb
      obtain ⟨b0, _, hb0⟩ := List.mem_map.1 hb
      rw [← hb0]
      have hmem : c ∈ r1.tried.map Prod.fst := by rw [b1]; simp
      obtain ⟨l, hl, hcl⟩ := alloc_blk_order_mem chunks hints.can_look_for_other_dev _ c hd
        (hpre.subset hmem)
      have := hc l hl c hcl
      show c % 2 ^ CHUNK_NUM_BITS = c
      unfold MAX_CHUNK_ID CHUNK_NUM_BITS at this
      unfold CHUNK_NUM_BITS
      exact Nat.mod_eq_of_lt (by omega)
    · exact absurd rfl (h (c, BlkAllocStatus.BLK_ALLOC_SUCCESS) (by rw [b1]; simp))

theorem alloc_blk_tries_chunks_in_order_witness :
    alloc_blk_start 0 ⟨1, true⟩ < alloc_chunks_sample.length ∧
    alloc_blk_order alloc_chunks_sample true (alloc_blk_start 0 ⟨1, true⟩) = [20, 30, 10, 11] ∧
    (∃ r, alloc_blk counting_alloc alloc_chunks_sample 0 ⟨1, true⟩ alloc_free_sample []
        = Outcome.ok r ∧
      r.tried.map Prod.fst
        <+: alloc_blk_order alloc_chunks_sample true (alloc_blk_start 0 ⟨1, true⟩) ∧
      (r.status = BlkAllocStatus.BLK_ALLOC_SUCCESS →
        ∃ pre c, r.tried = pre ++ [(c, BlkAllocStatus.BLK_ALLOC_SUCCESS)] ∧
          (∀ p ∈ pre, p.2 ≠ BlkAllocStatus.BLK_ALLOC_SUCCESS) ∧
          ∀ b ∈ r.out_blkid, b.chunk_num = c) ∧
      (r.status ≠ BlkAllocStatus.BLK_ALLOC_SUCCESS ↔
        ∀ p ∈ r.tried, p.2 ≠ BlkAllocStatus.BLK_ALLOC_SUCCESS) ∧
      (r.status ≠ BlkAllocStatus.BLK_ALLOC_SUCCESS →
        r.tried.map Prod.fst
          = alloc_blk_order alloc_chunks_sample true (alloc_blk_start 0 ⟨1, true⟩))) ∧
    ((alloc_blk counting_alloc alloc_chunks_sample 0 ⟨1, true⟩ alloc_free_sample
        []).toOption.map fun r => (r.status, r.out_blkid, r.tried))
      = some (BlkAllocStatus.BLK_ALLOC_SUCCESS, [⟨4, 1, 10⟩],
          [(20, BlkAllocStatus.BLK_ALLOC_SPACEFULL), (30, BlkAllocStatus.BLK_ALLOC_SPACEFULL),
           (10, BlkAllocStatus.BLK_ALLOC_SUCCESS)]) :=
  ⟨by decide, by decide,
    alloc_blk_tries_chunks_in_order counting_alloc alloc_chunks_sample 0 ⟨1, true⟩
      alloc_free_sample [] (by decide) (by decide) (by decide),
    by decide⟩

/-! ## Value entries of an index value: the order `add_copy` keeps -/

theorem add_copy_while_shift (ve : ValueEntry) :
    ∀ (l : List ValueEntry) (i : Nat), add_copy_while ve l (i + 1) = add_copy_while ve l i + 1 := by
  intro l
  induction l with
  | nil => intro i; rfl
  | cons v rest ih =>
    intro i
    unfold add_copy_while
    split_ifs
    · exact ih (i + 1)
    · rfl

theorem add_copy_index_eq (ve : ValueEntry) (l : List ValueEntry) :
    add_copy_index l ve =
      match l[add_copy_while ve l 0]? with
      | some v => if v.compare ve = 0 then add_copy_while ve l 0 + 1 else add_copy_while ve l 0
      | none => add_copy_while ve l 0 := by
  cases l with
  | nil => rfl
  | cons v rest =>
    unfold add_copy_index
    simp only [List.length_cons, gt_iff_lt, Nat.zero_lt_succ, if_true]

theorem add_copy_index_cons (ve v : ValueEntry) (rest : List ValueEntry) :
    add_copy_index (v :: rest) ve =
      if v.seqId < ve.seqId then add_copy_index rest ve + 1
      else if v.seqId = ve.seqId then 1 else 0 := by
  rw [add_copy_index_eq ve (v :: rest), add_copy_index_eq ve rest]
  have hw : add_copy_while ve (v :: rest) 0
      = if v.compare ve > 0 then add_copy_while ve rest (0 + 1) else 0 := rfl
  rw [hw]
  by_cases h : v.seqId < ve.seqId
  · have hc : v.compare ve > 0 := by
      unfold ValueEntry.compare
      rw [if_neg (by omega), if_pos h]
      decide
    rw [if_pos hc, if_pos h, add_copy_while_shift]
    simp only [List.getElem?_cons_succ]
    cases rest[add_copy_while ve rest 0]? with
    | none => rfl
    | some x =>
      simp only
      split_ifs <;> rfl
  · have hc : ¬ v.compare ve > 0 := by
      unfold ValueEntry.compare
      split_ifs <;> decide
    rw [if_neg hc, if_neg h]
    simp only [List.getElem?_cons_zero, zero_add]
    by_cases he : v.seqId = ve.seqId
    · have h0 : v.compare ve = 0 := by
        unfold ValueEntry.compare
        rw [if_pos he]
      rw [if_pos h0, if_pos he]
    · have h0 : ¬ v.compare ve = 0 := by
        unfold ValueEntry.compare
        rw [if_neg he, if_neg h]
        decide
      rw [if_neg h0, if_neg he]

theorem add_copy_index_le (ve : ValueEntry) :
    ∀ l : List ValueEntry, add_copy_index l ve ≤ l.length := by
  intro l
  induction l with
  | nil => simp [add_copy_index]
  | cons v rest ih =>
    rw [add_copy_index_cons]
    simp only [List.length_cons]
    split_ifs <;> omega

/-- C26 (the claim as stated fails). The array of one entry with sequence id 5 is ordered
by sequence id descending; `add_copy` of an entry with sequence id 9 puts the new entry behind
it, and the array 5, 9 that comes out is not ordered descending. -/
theorem add_copy_breaks_descending_order :
    SeqDescending [ve_seq_sample 5] ∧
    (MappingValue.add_copy [ve_seq_sample 5] (ve_seq_sample 9)).map ValueEntry.seqId = [5, 9] ∧
    ¬ SeqDescending (MappingValue.add_copy [ve_seq_sample 5] (ve_seq_sample 9)) := by
  decide

/-- C26 (amended). For every value whose entries are ordered by sequence id ascending and
every value entry `ve`, `add_copy` leaves an array that holds the old entries and `ve` and is
again ordered by sequence id ascending. -/
theorem add_copy_keeps_ascending_order (mv : MappingValue) (ve : ValueEntry)
    (h : SeqAscending mv) :
    (MappingValue.add_copy mv ve).Perm (ve :: mv) ∧ SeqAscending (MappingValue.add_copy mv ve) := by
  refine ⟨List.perm_insertIdx _ _ (add_copy_index_le ve mv), ?_⟩
  unfold MappingValue.add_copy
  induction mv with
  | nil =>
    simp [add_copy_index, SeqAscending]
  | cons v rest ih =>
    unfold SeqAscending at h ih ⊢
    rw [List.pairwise_cons] at h
    rw [add_copy_index_cons]
    by_cases h1 : v.seqId < ve.seqId
    · rw [if_pos h1, List.insertIdx_succ_cons, List.pairwise_cons]
      refine ⟨fun a ha => ?_, ih h.2⟩
      rcases (List.mem_insertIdx (add_copy_index_le ve rest)).1 ha with e | e
      · rw [e]; omega
      · exact h.1 a e
    · rw [if_neg h1]
      by_cases h2 : v.seqId = ve.seqId
      · rw [if_pos h2, List.insertIdx_succ_cons, List.insertIdx_zero, List.pairwise_cons,
          List.pairwise_cons]
        refine ⟨fun a ha => ?_, fun a ha => ?_, h.2⟩
        · rcases List.mem_cons.1 ha with e | e
          · rw [e]; omega
          · exact h.1 a e
        · have := h.1 a ha
          omega
      · rw [if_neg h2, List.insertIdx_zero, List.pairwise_cons, List.pairwise_cons]
        refine ⟨fun a ha => ?_, h.1, h.2⟩
        rcases List.mem_cons.1 ha with e | e
        · rw [e]; omega
        · have := h.1 a e
          omega

theorem add_copy_keeps_ascending_order_witness :
    SeqAscending [ve_seq_sample 3, ve_seq_sample 5, ve_seq_sample 9] ∧
    (MappingValue.add_copy [ve_seq_sample 3, ve_seq_sample 5, ve_seq_sample 9]
        (ve_seq_sample 7)).map ValueEntry.seqId = [3, 5, 7, 9] ∧
    (MappingValue.add_copy [ve_seq_sample 3, ve_seq_sample 5, ve_seq_sample 9]
        (ve_seq_sample 7)).Perm
      (ve_seq_sample 7 :: [ve_seq_sample 3, ve_seq_sample 5, ve_seq_sample 9]) ∧
    SeqAscending (MappingValue.add_copy [ve_seq_sample 3, ve_seq_sample 5, ve_seq_sample 9]
      (ve_seq_sample 7)) :=
  ⟨by decide, by decide,
    add_copy_keeps_ascending_order [ve_seq_sample 3, ve_seq_sample 5, ve_seq_sample 9]
      (ve_seq_sample 7) (by decide)⟩

/-! ## Index put over a newer entry: the ranges of `replace_kv` -/

/-- C27 (code evaluated at the failing input). A put of LBAs 0..9 with sequence id 5 meets
one existing entry, over 5..9, with the higher sequence id 9. `replace_kv` comes out with two
keys that are both 5..9, the existing entry and the tail of the new value: the LBAs 0..4 of
the range are covered by no key, the LBAs 5..9 by two. The put of 5..10 over the newer entry
3..7 leaves the keys 3..7 and 10..10, so LBAs 8 and 9 are covered by no key. -/
theorem match_item_cb_put_newer_entry_breaks_partition :
    (∃ rkv fbes, match_item_cb_put put_cfg_sample true ⟨0, 10⟩ [put_wide_entry_sample] 0 9
        [put_newer_tail_sample] = some (rkv, fbes) ∧
      rkv.map Prod.fst = [⟨5, 5⟩, ⟨5, 5⟩] ∧
      (∀ l ∈ List.range' 0 5, entries_at rkv l = []) ∧
      (∀ l ∈ List.range' 5 5, (entries_at rkv l).length = 2)) ∧
    (∃ rkv fbes, match_item_cb_put put_cfg_sample true ⟨5, 6⟩ [put_new_entry_sample] 5 10
        [put_newer_existing_sample] = some (rkv, fbes) ∧
      rkv.map Prod.fst = [⟨3, 5⟩, ⟨10, 1⟩] ∧
      entries_at rkv 8 = [] ∧ entries_at rkv 9 = []) := by
  refine ⟨⟨_, _, rfl, ?_, ?_, ?_⟩, ⟨_, _, rfl, ?_, ?_, ?_⟩⟩ <;> decide

end homestore
